import Mathlib

/-!
# Disk I/O scheduling simulator (`iosched.cpp`)

A shallow embedding of the five scheduling policies (`FIFO`, `SSTF`, `Look`,
`CLook`, `FLook`) and of the simulation loop (`simulate`), followed by the
properties proved about them.

Conventions of the embedding.

* C++ `int` values are `Int`.  Signed overflow is undefined in C++; the
  compiled program computes in two's complement, so the result of an `int`
  operation that can leave the range is taken modulo `2^32` (`wrapInt`).  This
  concerns the clock (`current_time++`, `current_time--`, the differences
  `current_time - arrivalTime`) and the distances of the policies (the
  difference of two tracks and its `std::abs`).  The head moves by one track
  towards the track of a request, which keeps it between two `int` values;
  `request_number` counts the events of the trace; the counters
  `total_movement`, `total_turnaround`, `total_wait_time` and `max_wait_time`
  are declared in `globals.h`, which is not among the sources, and are
  accumulated as mathematical integers.
* The constant `INT_MAX` (`std::numeric_limits<int>::max()`), used as the
  "no candidate yet" distance in `Look`/`FLook` and as the key of the tracks
  below the head in `CLook`, is the literal `2147483647`.
* A `std::deque` is a `List`; an iterator or index into it is a `Nat`
  (`current_index`, which the source initialises to `-1`, is an `Int`).
* The queues of the source hold pointers to `Request` objects and the engine
  writes `startTime` / `endTime` through `current_request`.  The policies
  only ever read `track`, so the embedding keeps the request as inserted in
  the queue and lets `current_request` carry the time stamps; the record
  copied into the ledger by `addCompleted` is that of `current_request`.
* A call that does not return normally (unbounded recursion, an uncaught
  `std::out_of_range`, an erase past the end of a deque) yields `none`.
* The state of the engine carries a log of what the engine did (`Sim.log`):
  the two lines printed under `OPTION_V`, and a record of every selection
  with the head track at that moment.  The log is only ever appended to and
  never read by the program; the statements about a run are phrased over it.
-/

namespace IOSched

/-! ## Data model -/

/-- C++ `INT_MAX`, the value of `std::numeric_limits<int>::max()` for a 32-bit `int`. -/
def INT_MAX : Int := 2147483647

/-- The value a 32-bit `int` holds after an operation whose mathematical result
is `x`: the representative of `x` modulo `2^32` between `INT_MIN` and
`INT_MAX`. -/
def wrapInt (x : Int) : Int := (x + 2147483648) % 4294967296 - 2147483648

/-- Value of `std::abs` on an `int`: the negation of `INT_MIN` wraps back to
`INT_MIN`. -/
def stdAbs (x : Int) : Int := if x < 0 then wrapInt (-x) else x

/-- Class `Operation`: one record of the trace. -/
structure Operation where
  time : Int
  track : Int
deriving DecidableEq, Repr

/-- Class `Request`. -/
structure Request where
  requestNumber : Int
  arrivalTime : Int
  startTime : Int
  endTime : Int
  track : Int
deriving DecidableEq, Repr

/-- Constructor `Request(num, tr)`: `arrivalTime` is the global `current_time`
at the moment of construction, `startTime` and `endTime` are `0`. -/
def Request.create (num tr current_time : Int) : Request :=
  { requestNumber := num, arrivalTime := current_time, startTime := 0, endTime := 0, track := tr }

/-- Member `getTrack`. -/
def Request.getTrack (r : Request) : Int := r.track

/-! ## `std::min_element` -/

/-- Loop of `std::min_element`: `smallest` is the element at index `si`, the
list holds the elements not yet visited, the first of them at index `i`. -/
def minElementLoop {α : Type} (comp : α → α → Bool) : List α → α → Nat → Nat → Nat
  | [], _, si, _ => si
  | x :: xs, smallest, si, i =>
    if comp x smallest then minElementLoop comp xs x i (i + 1)
    else minElementLoop comp xs smallest si (i + 1)

/-- Function `std::min_element(first, last, comp)` as an index into the range:
for an empty range the result is `last` (index `0`, the length), otherwise the
index of the first element that `comp` puts before all the others. -/
def minElement {α : Type} (comp : α → α → Bool) : List α → Nat
  | [] => 0
  | x :: xs => minElementLoop comp xs x 0 1

/-- Member `std::deque::at` called with an `int` index: the index is converted
to `size_t`, so a negative one is out of range like one past the end, and the
call throws `std::out_of_range` (`none`). -/
def atIndex (q : List Request) (i : Int) : Option Request :=
  if 0 ≤ i then q[i.toNat]? else none

/-! ## FIFO -/

/-- Class `FIFO`. -/
structure FIFO where
  IOQueue : List Request
deriving DecidableEq, Repr

/-- Method `FIFO::strategy`: the selected request (`none` for `nullptr`) and the
value left in `current_direction`. -/
def FIFO.strategy (s : FIFO) (current_track current_direction : Int) : Option Request × Int :=
  match s.IOQueue with
  | r :: _ => (some r, if current_track > r.track then -1 else 1)
  | [] => (none, current_direction)

/-- Method `FIFO::addRequest`. -/
def FIFO.addRequest (s : FIFO) (r : Request) : FIFO :=
  { IOQueue := s.IOQueue ++ [r] }

/-- Method `FIFO::removeRequest`. -/
def FIFO.removeRequest (s : FIFO) : FIFO :=
  match s.IOQueue with
  | _ :: rest => { IOQueue := rest }
  | [] => s

/-- Method `FIFO::isEmpty`. -/
def FIFO.isEmpty (s : FIFO) : Bool := s.IOQueue.isEmpty

/-! ## SSTF -/

/-- Class `SSTF`. -/
structure SSTF where
  IOQueue : List Request
  current_index : Int
deriving DecidableEq, Repr

/-- Comparison passed to `std::min_element` in `SSTF::strategy`. -/
def SSTF.comp (current_track : Int) (a b : Request) : Bool :=
  decide (stdAbs (wrapInt (a.getTrack - current_track))
    < stdAbs (wrapInt (b.getTrack - current_track)))

/-- Method `SSTF::strategy`: selected request, new object state, new direction. -/
def SSTF.strategy (s : SSTF) (current_track current_direction : Int) :
    Option Request × SSTF × Int :=
  if s.IOQueue.isEmpty then (none, s, current_direction)
  else
    let closest := minElement (SSTF.comp current_track) s.IOQueue
    match s.IOQueue[closest]? with
    | some r =>
      (some r, { s with current_index := (closest : Int) },
        if r.getTrack > current_track then 1 else -1)
    | none => (none, { s with current_index := -1 }, current_direction)

/-- Method `SSTF::addRequest`. -/
def SSTF.addRequest (s : SSTF) (r : Request) : SSTF :=
  { s with IOQueue := s.IOQueue ++ [r] }

/-- Method `SSTF::removeRequest`. -/
def SSTF.removeRequest (s : SSTF) : SSTF :=
  if ¬ s.IOQueue.isEmpty ∧ 0 ≤ s.current_index ∧ s.current_index < (s.IOQueue.length : Int) then
    { s with IOQueue := s.IOQueue.eraseIdx s.current_index.toNat }
  else s

/-- Method `SSTF::isEmpty`. -/
def SSTF.isEmpty (s : SSTF) : Bool := s.IOQueue.isEmpty

/-! ## LOOK -/

/-- Class `Look`. -/
structure Look where
  IOQueue : List Request
  current_index : Int
deriving DecidableEq, Repr

/-- Locals of the scanning loop of `Look::strategy`. -/
structure Look.Scan where
  foundRequestInDirection : Bool
  closestIndex : Int
  smallestDistance : Int
deriving DecidableEq, Repr

/-- The `for` loop of `Look::strategy` over the elements from index `i` on. -/
def Look.scanLoop (current_track current_direction : Int) :
    List Request → Nat → Look.Scan → Look.Scan
  | [], _, acc => acc
  | r :: rs, i, acc =>
    let distance := wrapInt (r.getTrack - current_track)
    let absDistance := stdAbs distance
    if (current_direction = 1 ∧ distance ≥ 0) ∨ (current_direction = -1 ∧ distance ≤ 0) then
      if absDistance < acc.smallestDistance then
        Look.scanLoop current_track current_direction rs (i + 1)
          { foundRequestInDirection := true, closestIndex := (i : Int),
            smallestDistance := absDistance }
      else Look.scanLoop current_track current_direction rs (i + 1) acc
    else Look.scanLoop current_track current_direction rs (i + 1) acc

/-- The scanning loop of `Look::strategy` from its initial locals. -/
def Look.scan (q : List Request) (current_track current_direction : Int) : Look.Scan :=
  Look.scanLoop current_track current_direction q 0
    { foundRequestInDirection := false, closestIndex := -1, smallestDistance := INT_MAX }

/-- Method `Look::strategy`.  The source recurses with the reversed direction
when the scan finds nothing; `fuel` bounds the depth of that recursion and
`none` is returned when it is used up. -/
def Look.strategy : Nat → Look → Int → Int → Option (Request × Look × Int)
  | 0, _, _, _ => none
  | fuel + 1, s, current_track, current_direction =>
    let sc := Look.scan s.IOQueue current_track current_direction
    if ¬ sc.foundRequestInDirection then
      Look.strategy fuel s current_track (-current_direction)
    else
      match atIndex s.IOQueue sc.closestIndex with
      | some r => some (r, { s with current_index := sc.closestIndex }, current_direction)
      | none => none

/-- Method `Look::addRequest`. -/
def Look.addRequest (s : Look) (r : Request) : Look :=
  { s with IOQueue := s.IOQueue ++ [r] }

/-- Method `Look::removeRequest`. -/
def Look.removeRequest (s : Look) : Look :=
  if 0 ≤ s.current_index ∧ s.current_index < (s.IOQueue.length : Int) then
    { s with IOQueue := s.IOQueue.eraseIdx s.current_index.toNat }
  else s

/-- Method `Look::isEmpty`. -/
def Look.isEmpty (s : Look) : Bool := s.IOQueue.isEmpty

/-! ## CLOOK -/

/-- Class `CLook`. -/
structure CLook where
  IOQueue : List Request
  current_index : Int
deriving DecidableEq, Repr

/-- Key compared by the first `std::min_element` of `CLook::strategy`. -/
def CLook.key (current_track : Int) (a : Request) : Int :=
  if a.getTrack ≥ current_track then a.getTrack else INT_MAX

/-- Comparison of the first `std::min_element` of `CLook::strategy`. -/
def CLook.compAhead (current_track : Int) (a b : Request) : Bool :=
  decide (CLook.key current_track a < CLook.key current_track b)

/-- Comparison of the second (wrap-around) `std::min_element` of `CLook::strategy`. -/
def CLook.compTrack (a b : Request) : Bool :=
  decide (a.getTrack < b.getTrack)

/-- Iterator `closest` of `CLook::strategy` after the wrap-around test. -/
def CLook.closest (q : List Request) (current_track : Int) : Nat :=
  let closest := minElement (CLook.compAhead current_track) q
  match q[closest]? with
  | none => minElement CLook.compTrack q
  | some r => if r.getTrack < current_track then minElement CLook.compTrack q else closest

/-- Method `CLook::strategy`. -/
def CLook.strategy (s : CLook) (current_track current_direction : Int) :
    Option Request × CLook × Int :=
  if s.IOQueue.isEmpty then (none, s, current_direction)
  else
    let closest := CLook.closest s.IOQueue current_track
    match s.IOQueue[closest]? with
    | some r => (some r, { s with current_index := (closest : Int) }, 1)
    | none => (none, { s with current_index := -1 }, 1)

/-- Method `CLook::addRequest`. -/
def CLook.addRequest (s : CLook) (r : Request) : CLook :=
  { s with IOQueue := s.IOQueue ++ [r] }

/-- Method `CLook::removeRequest`.  The source only tests `current_index != -1`;
erasing at an iterator outside the deque is undefined (`none`). -/
def CLook.removeRequest (s : CLook) : Option CLook :=
  if ¬ s.IOQueue.isEmpty ∧ s.current_index ≠ -1 then
    if 0 ≤ s.current_index ∧ s.current_index < (s.IOQueue.length : Int) then
      some { IOQueue := s.IOQueue.eraseIdx s.current_index.toNat, current_index := -1 }
    else none
  else some s

/-- Method `CLook::isEmpty`. -/
def CLook.isEmpty (s : CLook) : Bool := s.IOQueue.isEmpty

/-! ## FLOOK -/

/-- Class `FLook`.  The source owns two deques and the pointers `active` and
`add` to them; `std::swap(active, add)` exchanges the pointers.  Here `active`
and `add` are the contents of the deques the two pointers designate, and the
swap exchanges the two fields. -/
structure FLook where
  active : List Request
  add : List Request
  current_index : Int
deriving DecidableEq, Repr

/-- Locals of the scanning loop of `FLook::strategy`. -/
structure FLook.Scan where
  closest_index : Int
  min_distance : Int
  direction_fulfilled : Bool
deriving DecidableEq, Repr

/-- The `for` loop of `FLook::strategy` over the elements from position `pos` on. -/
def FLook.scanLoop (current_track current_direction : Int) :
    List Request → Nat → FLook.Scan → FLook.Scan
  | [], _, acc => acc
  | req :: rest, pos, acc =>
    let distance := wrapInt (req.getTrack - current_track)
    if (current_direction = 1 ∧ distance ≥ 0) ∨ (current_direction = -1 ∧ distance ≤ 0) then
      if stdAbs distance < acc.min_distance then
        FLook.scanLoop current_track current_direction rest (pos + 1)
          { closest_index := (pos : Int), min_distance := stdAbs distance,
            direction_fulfilled := true }
      else
        FLook.scanLoop current_track current_direction rest (pos + 1)
          { acc with direction_fulfilled := true }
    else FLook.scanLoop current_track current_direction rest (pos + 1) acc

/-- The scanning loop of `FLook::strategy` from its initial locals. -/
def FLook.scan (q : List Request) (current_track current_direction : Int) : FLook.Scan :=
  FLook.scanLoop current_track current_direction q 0
    { closest_index := -1, min_distance := INT_MAX, direction_fulfilled := false }

/-- The statement `std::swap(active, add)`. -/
def FLook.swap (s : FLook) : FLook :=
  { s with active := s.add, add := s.active }

/-- Method `FLook::strategy`, with `fuel` bounding the depth of the recursion
as in `Look.strategy`.  `active->at(current_index)` throws when the loop left
`closest_index` at `-1`. -/
def FLook.strategy : Nat → FLook → Int → Int → Option (Request × FLook × Int)
  | 0, _, _, _ => none
  | fuel + 1, s, current_track, current_direction =>
    let s1 := if s.active.isEmpty then s.swap else s
    let sc := FLook.scan s1.active current_track current_direction
    if ¬ sc.direction_fulfilled then
      FLook.strategy fuel s1 current_track (-current_direction)
    else
      match atIndex s1.active sc.closest_index with
      | some r => some (r, { s1 with current_index := sc.closest_index }, current_direction)
      | none => none

/-- Method `FLook::addRequest`. -/
def FLook.addRequest (s : FLook) (r : Request) : FLook :=
  let s1 := { s with add := s.add ++ [r] }
  if s1.active.isEmpty ∧ ¬ s1.add.isEmpty then s1.swap else s1

/-- Method `FLook::removeRequest`.  As in `CLook`, only `current_index != -1`
is tested before the erase. -/
def FLook.removeRequest (s : FLook) : Option FLook :=
  if ¬ s.active.isEmpty ∧ s.current_index ≠ -1 then
    if 0 ≤ s.current_index ∧ s.current_index < (s.active.length : Int) then
      some { s with active := s.active.eraseIdx s.current_index.toNat }
    else none
  else some s

/-- Method `FLook::isEmpty`. -/
def FLook.isEmpty (s : FLook) : Bool := s.active.isEmpty && s.add.isEmpty

/-! ## The scheduler behind the `IOScheduler` interface -/

/-- The object `scheduler` points to: one of the five subclasses of `IOScheduler`. -/
inductive IOScheduler where
  | fifo (s : FIFO)
  | sstf (s : SSTF)
  | look (s : Look)
  | clook (s : CLook)
  | flook (s : FLook)
deriving DecidableEq, Repr

/-- Depth given to the recursion of `Look::strategy` and `FLook::strategy` when
the engine calls them.  Every second level of the recursion repeats the call
two levels above it with the same arguments, so a call that has not returned
within two levels never returns (`Look.look_strategy_fuel`,
`FLook.flook_strategy_fuel`). -/
def reversalDepth : Nat := 2

/-- Virtual call `scheduler->strategy(current_track, current_direction)`:
`none` when the call does not return, otherwise the returned pointer
(`none` for `nullptr`), the scheduler and the value left in `current_direction`. -/
def IOScheduler.strategy (p : IOScheduler) (current_track current_direction : Int) :
    Option (Option Request × IOScheduler × Int) :=
  match p with
  | .fifo s =>
    let res := s.strategy current_track current_direction
    some (res.1, .fifo s, res.2)
  | .sstf s =>
    let res := s.strategy current_track current_direction
    some (res.1, .sstf res.2.1, res.2.2)
  | .look s =>
    (Look.strategy reversalDepth s current_track current_direction).map
      fun res => (some res.1, .look res.2.1, res.2.2)
  | .clook s =>
    let res := s.strategy current_track current_direction
    some (res.1, .clook res.2.1, res.2.2)
  | .flook s =>
    (FLook.strategy reversalDepth s current_track current_direction).map
      fun res => (some res.1, .flook res.2.1, res.2.2)

/-- Virtual call `scheduler->addRequest(r)`. -/
def IOScheduler.addRequest (p : IOScheduler) (r : Request) : IOScheduler :=
  match p with
  | .fifo s => .fifo (s.addRequest r)
  | .sstf s => .sstf (s.addRequest r)
  | .look s => .look (s.addRequest r)
  | .clook s => .clook (s.addRequest r)
  | .flook s => .flook (s.addRequest r)

/-- Virtual call `scheduler->removeRequest()`. -/
def IOScheduler.removeRequest (p : IOScheduler) : Option IOScheduler :=
  match p with
  | .fifo s => some (.fifo s.removeRequest)
  | .sstf s => some (.sstf s.removeRequest)
  | .look s => some (.look s.removeRequest)
  | .clook s => s.removeRequest.map .clook
  | .flook s => s.removeRequest.map .flook

/-- Virtual call `scheduler->isEmpty()`. -/
def IOScheduler.isEmpty (p : IOScheduler) : Bool :=
  match p with
  | .fifo s => s.isEmpty
  | .sstf s => s.isEmpty
  | .look s => s.isEmpty
  | .clook s => s.isEmpty
  | .flook s => s.isEmpty

/-- The requests a scheduler holds, in queue order (`active` before `add` for `FLook`). -/
def IOScheduler.pending (p : IOScheduler) : List Request :=
  match p with
  | .fifo s => s.IOQueue
  | .sstf s => s.IOQueue
  | .look s => s.IOQueue
  | .clook s => s.IOQueue
  | .flook s => s.active ++ s.add

/-! ## Simulation engine -/

/-- What the engine did, in the order it did it.  `add` and `finish` are the
two lines the source prints under `OPTION_V`; `issue` (a request was selected
by `fetchNextRequest`, with the head track, the direction passed to `strategy`
and the pending requests at that moment) and `fallback` (`changeDirection` was
called) are bookkeeping of the embedding.  The program never reads the log. -/
inductive Event where
  | add (time : Int) (r : Request)
  | issue (time : Int) (r : Request) (head : Int) (direction : Int) (pending : List Request)
  | finish (time : Int) (r : Request)
  | fallback (time : Int)
deriving DecidableEq, Repr

/-- The globals of the program (`operations`, `scheduler`, `current_request`,
`completedRequests` and the counters declared in `globals.h`) together with
the local `request_number` of `simulate` and the event log. -/
structure Sim where
  operations : List Operation
  scheduler : IOScheduler
  current_request : Option Request
  completedRequests : List Request
  current_time : Int
  current_track : Int
  current_direction : Int
  total_movement : Int
  total_turnaround : Int
  total_wait_time : Int
  max_wait_time : Int
  request_number : Int
  log : List Event
deriving DecidableEq, Repr

/-- Function `std::lower_bound` over the ledger with the comparison of
`addCompleted`: the furthest position such that every record before it has a
smaller `requestNumber` than `r`. -/
def lowerBound (completed : List Request) (r : Request) : Nat :=
  (completed.takeWhile fun lhs => decide (lhs.requestNumber < r.requestNumber)).length

/-- Function `addCompleted`, on the ledger `completedRequests`. -/
def addCompleted (completed : List Request) (r : Request) : List Request :=
  let it := lowerBound completed r
  completed.take it ++ r :: completed.drop it

/-- Function `checkExitCondition`. -/
def checkExitCondition (s : Sim) : Bool :=
  s.current_request.isNone && s.scheduler.isEmpty && s.operations.isEmpty

/-- Function `simulateHeadMovement`. -/
def simulateHeadMovement (s : Sim) : Sim :=
  match s.current_request with
  | some r =>
    if r.getTrack ≠ s.current_track then
      { s with
        current_track := s.current_track + (if r.getTrack > s.current_track then 1 else -1),
        total_movement := s.total_movement + 1 }
    else s
  | none => s

/-- Function `changeDirection`. -/
def changeDirection (s : Sim) : Sim :=
  let s1 := { s with current_direction := s.current_direction * -1 }
  let s2 := { s1 with
    current_track := s1.current_track + s1.current_direction,
    total_movement := s1.total_movement + 1 }
  if s2.current_track < 0 then { s2 with current_track := 0, current_direction := 1 } else s2

/-- Function `fetchNextRequest`; `none` when `strategy` does not return. -/
def fetchNextRequest (s : Sim) : Option Sim :=
  if s.current_request.isNone ∧ ¬ s.scheduler.isEmpty then
    match s.scheduler.strategy s.current_track s.current_direction with
    | none => none
    | some (some r, sch, dir) =>
      let cr := { r with startTime := s.current_time }
      let s1 := { s with
        scheduler := sch,
        current_direction := dir,
        current_request := some cr,
        total_wait_time := s.total_wait_time + wrapInt (s.current_time - cr.arrivalTime),
        max_wait_time := max s.max_wait_time (wrapInt (s.current_time - cr.arrivalTime)),
        log := s.log ++
          [Event.issue s.current_time cr s.current_track s.current_direction sch.pending] }
      if cr.getTrack = s1.current_track then
        some { s1 with current_time := wrapInt (s1.current_time - 1) }
      else some s1
    | some (none, sch, dir) =>
      some (changeDirection { s with
        scheduler := sch,
        current_direction := dir,
        log := s.log ++ [Event.fallback s.current_time] })
  else some s

/-- Function `processCompletedRequests`; `none` when `removeRequest` erases
outside its deque. -/
def processCompletedRequests (s : Sim) : Option Sim :=
  match s.current_request with
  | some r =>
    if r.getTrack = s.current_track then
      let cr := { r with endTime := s.current_time }
      match s.scheduler.removeRequest with
      | some sch =>
        some { s with
          total_turnaround := s.total_turnaround + wrapInt (s.current_time - cr.arrivalTime),
          completedRequests := addCompleted s.completedRequests cr,
          scheduler := sch,
          current_request := none,
          log := s.log ++ [Event.finish s.current_time cr] }
      | none => none
    else some s
  | none => some s

/-- Function `processArrivals`. -/
def processArrivals (s : Sim) : Sim :=
  match s.operations with
  | op :: rest =>
    if op.time = s.current_time then
      let newRequest := Request.create s.request_number op.track s.current_time
      { s with
        scheduler := s.scheduler.addRequest newRequest,
        operations := rest,
        request_number := s.request_number + 1,
        log := s.log ++ [Event.add s.current_time newRequest] }
    else s
  | [] => s

/-- One pass through the body of the `while (true)` loop of `simulate` up to
and including the exit test: the state reached and whether `break` is taken.
`none` when a call made in the pass does not return. -/
def iteration (s : Sim) : Option (Bool × Sim) :=
  match processCompletedRequests (processArrivals s) with
  | none => none
  | some s2 =>
    match fetchNextRequest s2 with
    | none => none
    | some s3 =>
      let s4 := simulateHeadMovement s3
      some (checkExitCondition s4, s4)

/-- The statement `current_time++` that ends a pass which did not break; past
`INT_MAX` the clock wraps to `INT_MIN`. -/
def tick (s : Sim) : Sim := { s with current_time := wrapInt (s.current_time + 1) }

/-- The loop of `simulate` run for at most `n` passes: `some (true, s)` when
`break` was taken within `n` passes, leaving state `s` (the state handed to
`printDetails`); `some (false, s)` when `n` passes were made without a break, `s`
being the state at the top of the next pass; `none` when a call did not return. -/
def simulate : Nat → Sim → Option (Bool × Sim)
  | 0, s => some (false, s)
  | n + 1, s =>
    match iteration s with
    | none => none
    | some (true, s1) => some (true, s1)
    | some (false, s1) => simulate n (tick s1)

/-- Option letter of `-s`, as decoded by `parseOptions`. -/
inductive Policy where
  | N
  | S
  | L
  | C
  | F
deriving DecidableEq, Repr

/-- The scheduler object `parseOptions` constructs for an option letter. -/
def Policy.scheduler : Policy → IOScheduler
  | .N => .fifo { IOQueue := [] }
  | .S => .sstf { IOQueue := [], current_index := -1 }
  | .L => .look { IOQueue := [], current_index := 0 }
  | .C => .clook { IOQueue := [], current_index := -1 }
  | .F => .flook { active := [], add := [], current_index := -1 }

/-- Modelled from the spec: `globals.h`, which declares and initialises
`current_time`, `current_track` and `current_direction`, is not among the
sources; the spec gives `clock` starting at 0, `headTrack` at 0 and
`headDirection` at +1.  The other fields are as `main` and `simulate` set
them: the trace read by `readFile`, the chosen scheduler, no request in
service, an empty ledger, all totals 0 and `request_number` 0. -/
def Sim.init (p : Policy) (trace : List Operation) : Sim :=
  { operations := trace,
    scheduler := p.scheduler,
    current_request := none,
    completedRequests := [],
    current_time := 0,
    current_track := 0,
    current_direction := 1,
    total_movement := 0,
    total_turnaround := 0,
    total_wait_time := 0,
    max_wait_time := 0,
    request_number := 0,
    log := [] }

/-! ## Vocabulary of the statements -/

/-- The direction test of the scanning loops of `Look::strategy` and
`FLook::strategy`: the request lies on the side of the head the direction
points to (its own track included). -/
def onSide (current_track current_direction : Int) (r : Request) : Prop :=
  (current_direction = 1 ∧ r.getTrack - current_track ≥ 0) ∨
  (current_direction = -1 ∧ r.getTrack - current_track ≤ 0)

/-- Among the requests of `q` on the side `current_direction` of the head,
`r`, at index `i`, is closest to the head, and the first such in the queue. -/
def IsClosestOnSide (q : List Request) (current_track current_direction : Int)
    (i : Nat) (r : Request) : Prop :=
  q[i]? = some r ∧ onSide current_track current_direction r ∧
  (∀ x ∈ q, onSide current_track current_direction x →
    |r.track - current_track| ≤ |x.track - current_track|) ∧
  (∀ j x, j < i → q[j]? = some x → onSide current_track current_direction x →
    |r.track - current_track| < |x.track - current_track|)

/-- What the locals of the loop of `Look::strategy` say about the requests
`pre` visited so far. -/
def Look.ScanInv (current_track current_direction : Int) (pre : List Request)
    (acc : Look.Scan) : Prop :=
  (acc.foundRequestInDirection = false ∧ acc.closestIndex = -1 ∧
    acc.smallestDistance = INT_MAX ∧
    ∀ x ∈ pre, ¬ onSide current_track current_direction x) ∨
  (acc.foundRequestInDirection = true ∧
    ∃ (i : Nat) (r : Request), acc.closestIndex = (i : Int) ∧
      acc.smallestDistance = |r.track - current_track| ∧
      IsClosestOnSide pre current_track current_direction i r)

/-- The pending request a scheduler has remembered as the selected one: the
front of the queue for `FIFO`, the element at `current_index` of the queue
(of `active` for `FLook`) for the others. -/
def IOScheduler.selected (p : IOScheduler) : Option Request :=
  match p with
  | .fifo s => s.IOQueue.head?
  | .sstf s => atIndex s.IOQueue s.current_index
  | .look s => atIndex s.IOQueue s.current_index
  | .clook s => atIndex s.IOQueue s.current_index
  | .flook s => atIndex s.active s.current_index

/-- The fields of a request fixed at its construction: number, track and
arrival time. -/
def Request.core (r : Request) : Int × Int × Int :=
  (r.requestNumber, r.track, r.arrivalTime)

/-- The cores of the requests `processArrivals` constructs for the events of
a trace injected in order, the first of them receiving number `i`: the
event's track and, as arrival time, the event's time. -/
def expectedFrom : Nat → List Operation → List (Int × Int × Int)
  | _, [] => []
  | i, op :: rest => ((i : Int), op.track, op.time) :: expectedFrom (i + 1) rest

/-- The ledger and the pending requests account for the events injected so
far: the trace is the injected events `done` followed by `operations`,
`request_number` counts the injected events, the requests pending or in the
ledger are, up to their time stamps, exactly those constructed for `done`,
the ledger is strictly increasing in `requestNumber`, and the request in
service is the pending request its scheduler remembers as selected. -/
def Sim.LedgerInv (trace : List Operation) (s : Sim) : Prop :=
  (∃ done : List Operation, trace = done ++ s.operations ∧
    s.request_number = (done.length : Int) ∧
    List.Perm ((s.scheduler.pending ++ s.completedRequests).map Request.core)
      (expectedFrom 0 done)) ∧
  (s.completedRequests.map Request.requestNumber).Pairwise (fun a b => a < b) ∧
  (∀ r, s.current_request = some r →
    ∃ q, s.scheduler.selected = some q ∧ q.core = r.core)

/-- The time stamps are ordered, with `c` the value of the clock they are
compared to: no pending request arrived after `c`, the request in service
arrived no later than it started and started no later than `c`, and every
record of the ledger has `arrivalTime ≤ startTime ≤ endTime`. -/
def Sim.TimeInv (c : Int) (s : Sim) : Prop :=
  (∀ q ∈ s.scheduler.pending, q.arrivalTime ≤ c) ∧
  (∀ r, s.current_request = some r → r.arrivalTime ≤ r.startTime ∧ r.startTime ≤ c) ∧
  (∀ r ∈ s.completedRequests, r.arrivalTime ≤ r.startTime ∧ r.startTime ≤ r.endTime)

/-- The requests pending or in service arrived at a non-negative time. -/
def Sim.ArrivalInv (s : Sim) : Prop :=
  (∀ q ∈ s.scheduler.pending, 0 ≤ q.arrivalTime) ∧
  (∀ r, s.current_request = some r → 0 ≤ r.arrivalTime)

/-- The request and the head track recorded by an `issue` event. -/
def Event.issued : Event → Option (Request × Int)
  | .issue _ r head _ _ => some (r, head)
  | _ => none

/-- The requests issued so far, each with the head track at the moment
`fetchNextRequest` selected it, in the order of the log. -/
def issuedOf (log : List Event) : List (Request × Int) :=
  log.filterMap Event.issued

/-- Seek accounting, with `c` the value of the clock: the requests issued so
far are those of the ledger and the one in service; for the request in
service, the time since it was issued plus the distance the head still has to
go is the distance between its track and the head at the moment of issue; and
for every record of the ledger `endTime - startTime` is that distance. -/
def Sim.SeekInv (c : Int) (s : Sim) : Prop :=
  List.Perm ((issuedOf s.log).map fun e => e.1.requestNumber)
    (s.completedRequests.map Request.requestNumber ++
      s.current_request.toList.map Request.requestNumber) ∧
  (∀ r, s.current_request = some r →
    ∃ head, (r, head) ∈ issuedOf s.log ∧ r.startTime ≤ c ∧
      (c - r.startTime) + |r.track - s.current_track| = |r.track - head|) ∧
  (∀ r ∈ s.completedRequests,
    ∃ cr head, (cr, head) ∈ issuedOf s.log ∧ r = { cr with endTime := r.endTime } ∧
      r.endTime - r.startTime = |r.track - head|)

/-- Every `issue` event of the log carries the request as issued: the time of
the event is the request's `startTime`. -/
def Sim.IssueInv (s : Sim) : Prop :=
  ∀ t cr head d pend, Event.issue t cr head d pend ∈ s.log → t = cr.startTime

/-- A call of the engine on the `FIFO` object. -/
inductive FIFO.Call where
  | insert (r : Request)
  | select (current_track current_direction : Int)
  | remove
deriving DecidableEq, Repr

/-- The `FIFO` object after one call; `strategy` leaves the object as it is. -/
def FIFO.call (s : FIFO) : FIFO.Call → FIFO
  | .insert r => s.addRequest r
  | .select _ _ => s
  | .remove => s.removeRequest

/-- The `FIFO` object after a sequence of calls. -/
def FIFO.run : FIFO → List FIFO.Call → FIFO
  | s, [] => s
  | s, c :: cs => FIFO.run (s.call c) cs

/-- The requests a sequence of calls inserts, in order. -/
def FIFO.inserted : List FIFO.Call → List Request
  | [] => []
  | .insert r :: cs => r :: FIFO.inserted cs
  | _ :: cs => FIFO.inserted cs

/-- A call of the engine on the `FLook` object. -/
inductive FLook.Call where
  | insert (r : Request)
  | select (current_track current_direction : Int)
  | remove
deriving DecidableEq, Repr

/-- The `FLook` object after one call (`addRequest`, `strategy` or
`removeRequest`); `none` when the call does not return. -/
def FLook.call (s : FLook) : FLook.Call → Option FLook
  | .insert r => some (s.addRequest r)
  | .select current_track current_direction =>
    (FLook.strategy reversalDepth s current_track current_direction).map fun res => res.2.1
  | .remove => s.removeRequest

/-- The `FLook` object after a sequence of calls. -/
def FLook.run : FLook → List FLook.Call → Option FLook
  | s, [] => some s
  | s, c :: cs =>
    match s.call c with
    | some s1 => FLook.run s1 cs
    | none => none

/-- The requests a sequence of calls inserts. -/
def FLook.inserted : List FLook.Call → List Request
  | [] => []
  | .insert r :: cs => r :: FLook.inserted cs
  | _ :: cs => FLook.inserted cs

/-- Where the `FLook` object stands with respect to a batch `batch` (the
requests that were in `active` when some request was inserted), requests
being told apart by their numbers: either `active` still holds only requests
of the batch and `add` none of them, or no request of the batch is pending
any more. -/
def FLook.BatchInv (batch : List Request) (s : FLook) : Prop :=
  (s.active.Sublist batch ∧
    ∀ y ∈ s.add, y.requestNumber ∉ batch.map Request.requestNumber) ∨
  (∀ y ∈ s.active ++ s.add, y.requestNumber ∉ batch.map Request.requestNumber)

/-- The position, in `pending`, a scheduler has remembered for the selected
request: `current_index` (into `active` for `FLook`, which comes first in
`pending`); the front for `FIFO`. -/
def IOScheduler.index (p : IOScheduler) : Nat :=
  match p with
  | .fifo _ => 0
  | .sstf s => s.current_index.toNat
  | .look s => s.current_index.toNat
  | .clook s => s.current_index.toNat
  | .flook s => s.current_index.toNat

/-- The totals agree with the requests dispatched so far: `total_turnaround`
is the sum of `endTime - arrivalTime` over the ledger, `total_wait_time` the
sum of `startTime - arrivalTime` over the ledger and the request in service,
and `max_wait_time` is 0 or one of these waits, and at least each of them. -/
def Sim.TotalsInv (s : Sim) : Prop :=
  s.total_turnaround = (s.completedRequests.map fun r => r.endTime - r.arrivalTime).sum ∧
  s.total_wait_time = ((s.completedRequests ++ s.current_request.toList).map
    fun r => r.startTime - r.arrivalTime).sum ∧
  0 ≤ s.max_wait_time ∧
  (∀ r ∈ s.completedRequests ++ s.current_request.toList,
    r.startTime - r.arrivalTime ≤ s.max_wait_time) ∧
  (s.max_wait_time = 0 ∨ ∃ r ∈ s.completedRequests ++ s.current_request.toList,
    r.startTime - r.arrivalTime = s.max_wait_time)

/-- A division `double(num) / den` as `printDetails` writes it: the operands
it is evaluated on.  The quotient itself, a `double`, is not modelled. -/
structure Division where
  num : Int
  den : Int
deriving DecidableEq, Repr

/-- The arguments `printDetails` passes to the `printf` of the `SUM:` line. -/
structure Summary where
  current_time : Int
  total_movement : Int
  avg_movement : Division
  avg_turnaround : Division
  avg_wait : Division
  max_wait_time : Int
deriving DecidableEq, Repr

/-- Function `printDetails(request_number)`: the four numbers printed for each
record of the ledger, and the arguments of the `SUM:` line.  The three
divisions are written without any test of the divisor. -/
def printDetails (s : Sim) : List (Int × Int × Int × Int) × Summary :=
  (s.completedRequests.map fun completedRequest =>
      (completedRequest.requestNumber, completedRequest.arrivalTime,
        completedRequest.startTime, completedRequest.endTime),
    { current_time := s.current_time,
      total_movement := s.total_movement,
      avg_movement := { num := s.total_movement, den := s.current_time },
      avg_turnaround := { num := s.total_turnaround, den := s.request_number },
      avg_wait := { num := s.total_wait_time, den := s.request_number },
      max_wait_time := s.max_wait_time })

/-- The record completed by a `finish` event. -/
def Event.finished : Event → Option Request
  | .finish _ r => some r
  | _ => none

/-- The records completed so far, in the order of their completion, that is
in the order of the calls of `addCompleted`. -/
def finishedOf (log : List Event) : List Request :=
  log.filterMap Event.finished

/-- Under FIFO the ledger is the sequence of the completions, and the request
numbers of the ledger followed by those of the queue are increasing. -/
def Sim.FifoInv (s : Sim) : Prop :=
  ∃ f : FIFO, s.scheduler = IOScheduler.fifo f ∧
    (s.completedRequests.map Request.requestNumber ++
      f.IOQueue.map Request.requestNumber).Pairwise (fun a b => a < b) ∧
    s.completedRequests = finishedOf s.log

/-- What the locals of the loop of `FLook::strategy` say about the requests
`pre` visited so far, when every request on the side of the direction is less
than `INT_MAX` tracks away. -/
def FLook.ScanInv (current_track current_direction : Int) (pre : List Request)
    (acc : FLook.Scan) : Prop :=
  (acc.direction_fulfilled = false ∧ acc.closest_index = -1 ∧
    acc.min_distance = INT_MAX ∧
    ∀ x ∈ pre, ¬ onSide current_track current_direction x) ∨
  (acc.direction_fulfilled = true ∧
    ∃ (i : Nat) (r : Request), acc.closest_index = (i : Int) ∧
      acc.min_distance = |r.track - current_track| ∧
      IsClosestOnSide pre current_track current_direction i r)

/-- The request, the head track and the pending requests recorded by an
`issue` event. -/
def Event.dispatch : Event → Option (Request × Int × List Request)
  | .issue _ r head _ pending => some (r, head, pending)
  | _ => none

/-- The dispatches made so far, each with the head track and the pending
requests (the dispatched one among them) at the moment `fetchNextRequest`
selected it, in the order of the log. -/
def dispatchesOf (log : List Event) : List (Request × Int × List Request) :=
  log.filterMap Event.dispatch

/-- The CLOOK order between a dispatch `a` and the next dispatch `b`: the
track of `b` is not below that of `a`, or no request pending at the dispatch of
`b` has a track at or above the head and the track of `b` is the least of the
pending tracks. -/
def CLook.InOrder (a b : Request × Int × List Request) : Prop :=
  a.1.track ≤ b.1.track ∨
  ((∀ x ∈ b.2.2, ¬ b.2.1 ≤ x.track) ∧ ∀ x ∈ b.2.2, b.1.track ≤ x.track)

/-- The CLOOK run so far: the scheduler is the `CLook` object, every track of
the trace and of the pending requests is below `INT_MAX`, consecutive
dispatches are in CLOOK order with the head, at the later one, on the track of
the earlier one, every dispatched request was pending at its dispatch, and the
last dispatched request is the one in service or, when none is in service,
the one the head stands on. -/
def Sim.CLookInv (s : Sim) : Prop :=
  (∃ c, s.scheduler = IOScheduler.clook c) ∧
  (∀ op ∈ s.operations, op.track < INT_MAX) ∧
  (∀ x ∈ s.scheduler.pending, x.track < INT_MAX) ∧
  List.Chain' (fun a b => b.2.1 = a.1.track ∧ CLook.InOrder a b) (dispatchesOf s.log) ∧
  (∀ e ∈ dispatchesOf s.log, ∃ x ∈ e.2.2, x.track = e.1.track) ∧
  (∀ a, (dispatchesOf s.log).getLast? = some a →
    (∀ r, s.current_request = some r → r.track = a.1.track) ∧
    (s.current_request = none → s.current_track = a.1.track))

/-- The time and the request recorded by an `add` event. -/
def Event.added : Event → Option (Int × Request)
  | .add t r => some (t, r)
  | _ => none

/-- The injections made so far, each with the clock at the pass that made it,
in the order of the log. -/
def addsOf (log : List Event) : List (Int × Request) :=
  log.filterMap Event.added

/-- The value of the clock at the top of each of the passes `simulate n` makes
from `s`, in order. -/
def passClocks : Nat → Sim → List Int
  | 0, _ => []
  | n + 1, s =>
    s.current_time ::
      match iteration s with
      | some (false, s1) => passClocks n (tick s1)
      | _ => []

/-- The direction is +1 or -1, and the head, the pending requests, the events
still in the trace and the request in service are all on tracks from 0 up to,
but not including, `INT_MAX`. -/
def Sim.RangeInv (s : Sim) : Prop :=
  (s.current_direction = 1 ∨ s.current_direction = -1) ∧
  (0 ≤ s.current_track ∧ s.current_track < INT_MAX) ∧
  (∀ x ∈ s.scheduler.pending, 0 ≤ x.track ∧ x.track < INT_MAX) ∧
  (∀ op ∈ s.operations, 0 ≤ op.track ∧ op.track < INT_MAX) ∧
  (∀ r, s.current_request = some r → 0 ≤ r.track ∧ r.track < INT_MAX)

/-- The work left, not counting the wait for arrivals: the distance the head
still has to go for the request in service, 2^31 for each pending request and
2^33 for each event still in the trace. -/
def Sim.load (s : Sim) : Nat :=
  (match s.current_request with
    | some r => (r.track - s.current_track).natAbs
    | none => 0)
  + 2147483648 * s.scheduler.pending.length + 8589934592 * s.operations.length

/-- The ticks until the clock, which counts modulo 2^32, stands at the time of
the event at the front of the trace; 0 when the trace is exhausted. -/
def Sim.await (s : Sim) : Nat :=
  match s.operations with
  | [] => 0
  | op :: _ => ((op.time - s.current_time) % 4294967296).toNat

/-- A bound on the number of passes left: the wait for the front event, and
the load. -/
def Sim.remaining (s : Sim) : Nat := s.await + s.load

/-- The injections agree with the trace: the events injected so far are the
trace up to `operations`, and the `i`-th `add` event of the log carries the
time of the `i`-th event and the request constructed for it with number `i`. -/
def Sim.AddInv (trace : List Operation) (s : Sim) : Prop :=
  ∃ done : List Operation, trace = done ++ s.operations ∧
    s.request_number = (done.length : Int) ∧
    addsOf s.log = (expectedFrom 0 done).map fun c => (c.2.2, Request.create c.1 c.2.1 c.2.2)

/-- What holds at the top of every pass of a run on `trace`: the ledger
invariant, the ranges of the tracks, the clock and the times of the events
still in the trace are `int` values, and a request is in service whenever one
is pending. -/
def Sim.RunInv (trace : List Operation) (s : Sim) : Prop :=
  s.LedgerInv trace ∧ s.RangeInv ∧
  (-2147483648 ≤ s.current_time ∧ s.current_time ≤ 2147483647) ∧
  (∀ op ∈ s.operations, -2147483648 ≤ op.time ∧ op.time ≤ 2147483647) ∧
  (s.current_request = none → s.scheduler.isEmpty = true)

/-- No event is overdue: the events still in the trace have strictly increasing
times, and the clock is non-negative and at most the time of each of them. -/
def Sim.OnTime (s : Sim) : Prop :=
  s.operations.Pairwise (fun a b => a.time < b.time) ∧
  ∀ op ∈ s.operations, 0 ≤ s.current_time ∧ s.current_time ≤ op.time ∧ op.time ≤ 2147483647

theorem wrapInt_of_range (x : Int) (h1 : -2147483648 ≤ x) (h2 : x ≤ 2147483647) :
    wrapInt x = x := by
  unfold wrapInt
  omega

theorem wrapInt_range (x : Int) : -2147483648 ≤ wrapInt x ∧ wrapInt x ≤ 2147483647 := by
  unfold wrapInt
  omega

theorem wrapInt_wrapInt_add (a b : Int) : wrapInt (wrapInt a + b) = wrapInt (a + b) := by
  unfold wrapInt
  omega

/-- A difference of at most `INT_MAX` in absolute value is computed exactly. -/
theorem wrapInt_of_abs (x : Int) (h : |x| ≤ INT_MAX) : wrapInt x = x := by
  unfold INT_MAX at h
  have := abs_le.mp h
  exact wrapInt_of_range x (by omega) (by omega)

theorem stdAbs_eq_abs (x : Int) (h1 : -2147483648 < x) (h2 : x ≤ 2147483647) :
    stdAbs x = |x| := by
  unfold stdAbs
  split
  · rw [abs_of_neg (by assumption), wrapInt_of_range _ (by omega) (by omega)]
  · rw [abs_of_nonneg (by omega)]

/-- The distance `std::abs(a - b)` the policies compute is the distance between
the two tracks when that is at most `INT_MAX`. -/
theorem stdAbs_wrapInt (x : Int) (h : |x| ≤ INT_MAX) : stdAbs (wrapInt x) = |x| := by
  rw [wrapInt_of_abs x h]
  unfold INT_MAX at h
  have := abs_le.mp h
  exact stdAbs_eq_abs x (by omega) (by omega)

theorem minElementLoop_spec {α : Type} (key : α → Int) (xs : List α) :
    ∀ (pre : List α) (sm : α) (si : Nat),
      pre[si]? = some sm →
      (∀ q ∈ pre, key sm ≤ key q) →
      (∀ j q, j < si → pre[j]? = some q → key sm < key q) →
      ∃ r, (pre ++ xs)[minElementLoop (fun a b => decide (key a < key b)) xs sm si pre.length]?
            = some r ∧
        (∀ q ∈ pre ++ xs, key r ≤ key q) ∧
        (∀ j q, j < minElementLoop (fun a b => decide (key a < key b)) xs sm si pre.length →
          (pre ++ xs)[j]? = some q → key r < key q) := by
  induction xs with
  | nil =>
    intro pre sm si h1 h2 h3
    refine ⟨sm, ?_, ?_, ?_⟩
    · simpa [minElementLoop] using h1
    · simpa using h2
    · intro j q hj hq
      simp only [minElementLoop] at hj
      simp only [List.append_nil] at hq
      exact h3 j q hj hq
  | cons x xs ih =>
    intro pre sm si h1 h2 h3
    have hsi : si < pre.length := by
      rcases List.getElem?_eq_some_iff.mp h1 with ⟨h, _⟩
      exact h
    have hlen : (pre ++ [x]).length = pre.length + 1 := by simp
    have happ : (pre ++ [x]) ++ xs = pre ++ x :: xs := by simp
    by_cases hc : key x < key sm
    · have hstep : minElementLoop (fun a b => decide (key a < key b)) (x :: xs) sm si pre.length
          = minElementLoop (fun a b => decide (key a < key b)) xs x pre.length (pre ++ [x]).length := by
        simp [minElementLoop, hc]
      rw [hstep, ← happ]
      apply ih (pre ++ [x]) x pre.length
      · simp
      · intro q hq
        rcases List.mem_append.mp hq with hq | hq
        · have := h2 q hq
          omega
        · simp at hq
          subst hq
          exact le_refl _
      · intro j q hj hq
        rw [List.getElem?_append_left hj] at hq
        have := h2 q (List.getElem?_mem hq)
        omega
    · have hstep : minElementLoop (fun a b => decide (key a < key b)) (x :: xs) sm si pre.length
          = minElementLoop (fun a b => decide (key a < key b)) xs sm si (pre ++ [x]).length := by
        simp [minElementLoop, hc]
      rw [hstep, ← happ]
      apply ih (pre ++ [x]) sm si
      · rw [List.getElem?_append_left hsi]
        exact h1
      · intro q hq
        rcases List.mem_append.mp hq with hq | hq
        · exact h2 q hq
        · simp at hq
          subst hq
          omega
      · intro j q hj hq
        rw [List.getElem?_append_left (by omega)] at hq
        exact h3 j q hj hq

theorem minElement_spec {α : Type} (key : α → Int) (l : List α) (hl : l ≠ []) :
    ∃ r, l[minElement (fun a b => decide (key a < key b)) l]? = some r ∧
      (∀ q ∈ l, key r ≤ key q) ∧
      (∀ j q, j < minElement (fun a b => decide (key a < key b)) l → l[j]? = some q →
        key r < key q) := by
  cases l with
  | nil => exact absurd rfl hl
  | cons x xs =>
    have h := minElementLoop_spec key xs [x] x 0 (by simp) (by simp) (by intro j q hj; omega)
    simpa [minElement] using h

/-! ## FIFO -/

theorem FIFO.run_queue (cs : List FIFO.Call) :
    ∀ s : FIFO, ∃ k : Nat, k ≤ (s.IOQueue ++ FIFO.inserted cs).length ∧
      (FIFO.run s cs).IOQueue = (s.IOQueue ++ FIFO.inserted cs).drop k := by
  induction cs with
  | nil => intro s; exact ⟨0, by simp, by simp [FIFO.run, FIFO.inserted]⟩
  | cons c cs ih =>
    intro s
    cases c with
    | insert r =>
      obtain ⟨k, hk, h⟩ := ih (s.addRequest r)
      refine ⟨k, ?_, ?_⟩
      · simpa [FIFO.addRequest, FIFO.inserted] using hk
      · simpa [FIFO.run, FIFO.call, FIFO.addRequest, FIFO.inserted] using h
    | select ct cd =>
      obtain ⟨k, hk, h⟩ := ih s
      exact ⟨k, by simpa [FIFO.inserted] using hk,
        by simpa [FIFO.run, FIFO.call, FIFO.inserted] using h⟩
    | remove =>
      obtain ⟨k, hk, h⟩ := ih s.removeRequest
      cases hq : s.IOQueue with
      | nil =>
        have hr : s.removeRequest = s := by simp [FIFO.removeRequest, hq]
        rw [hr, hq] at hk h
        exact ⟨k, by simpa [FIFO.inserted] using hk,
          by simpa [FIFO.run, FIFO.call, FIFO.inserted, hr] using h⟩
      | cons a rest =>
        have hr : s.removeRequest.IOQueue = rest := by simp [FIFO.removeRequest, hq]
        rw [hr] at hk h
        refine ⟨k + 1, ?_, ?_⟩
        · simp only [FIFO.inserted, List.cons_append, List.length_cons]
          omega
        · simp only [FIFO.run, FIFO.call, FIFO.inserted, List.cons_append, List.drop_succ_cons]
          exact h

/-- Claim C10: FIFO serves in arrival order.  Take any `FIFO` object `s0` and
any sequence `cs` of insert / select / remove calls on it that leaves the
queue non-empty.  The requests in arrival order are those of `s0` followed by
those inserted by `cs`; some number `k` of them, the earliest, have been
removed and the queue holds the others in that order; for every head track and
direction `strategy` returns the `k`-th, the earliest inserted request not yet
removed; and `removeRequest` then deletes exactly that request.  (With no
calls: for every non-empty queue, `strategy` returns its front.) -/
theorem FIFO.strategy_front (s0 : FIFO) (cs : List FIFO.Call) (current_track current_direction : Int)
    (hne : (FIFO.run s0 cs).isEmpty = false) :
    ∃ (k : Nat) (r : Request),
      (s0.IOQueue ++ FIFO.inserted cs)[k]? = some r ∧
      (FIFO.run s0 cs).IOQueue = (s0.IOQueue ++ FIFO.inserted cs).drop k ∧
      ((FIFO.run s0 cs).strategy current_track current_direction).1 = some r ∧
      (FIFO.run s0 cs).removeRequest.IOQueue = (s0.IOQueue ++ FIFO.inserted cs).drop (k + 1) := by
  obtain ⟨k, hk, h⟩ := FIFO.run_queue cs s0
  cases hq : (FIFO.run s0 cs).IOQueue with
  | nil => simp [FIFO.isEmpty, hq] at hne
  | cons r rest =>
    rw [hq] at h
    have hlt : k < (s0.IOQueue ++ FIFO.inserted cs).length := by
      by_contra hge
      rw [List.drop_eq_nil_of_le (by omega)] at h
      exact List.noConfusion h
    have hd := List.drop_eq_getElem_cons hlt
    rw [← h] at hd
    simp only [List.cons.injEq] at hd
    refine ⟨k, r, ?_, h, ?_, ?_⟩
    · rw [List.getElem?_eq_getElem hlt, hd.1]
    · simp [FIFO.strategy, hq]
    · simp only [FIFO.removeRequest, hq]
      exact hd.2

/-- Scenario A at the policy: the hypothesis of `FIFO.strategy_front` holds
after inserting requests for tracks 50 and then 20 into an empty queue,
selecting and removing; with the head at 0 the first selection is the request
for track 50, although the other is closer, and the second the request for
track 20. -/
theorem FIFO.strategy_front_witness :
    (FIFO.run (FIFO.mk []) [FIFO.Call.insert (Request.create 0 50 0),
        FIFO.Call.insert (Request.create 1 20 0), FIFO.Call.select 0 1,
        FIFO.Call.remove]).isEmpty = false ∧
    (∃ (k : Nat) (r : Request),
      ((FIFO.mk []).IOQueue ++ FIFO.inserted [FIFO.Call.insert (Request.create 0 50 0),
        FIFO.Call.insert (Request.create 1 20 0), FIFO.Call.select 0 1,
        FIFO.Call.remove])[k]? = some r ∧
      (FIFO.run (FIFO.mk []) [FIFO.Call.insert (Request.create 0 50 0),
        FIFO.Call.insert (Request.create 1 20 0), FIFO.Call.select 0 1,
        FIFO.Call.remove]).IOQueue
        = ((FIFO.mk []).IOQueue ++ FIFO.inserted [FIFO.Call.insert (Request.create 0 50 0),
          FIFO.Call.insert (Request.create 1 20 0), FIFO.Call.select 0 1,
          FIFO.Call.remove]).drop k ∧
      ((FIFO.run (FIFO.mk []) [FIFO.Call.insert (Request.create 0 50 0),
        FIFO.Call.insert (Request.create 1 20 0), FIFO.Call.select 0 1,
        FIFO.Call.remove]).strategy 0 1).1 = some r ∧
      (FIFO.run (FIFO.mk []) [FIFO.Call.insert (Request.create 0 50 0),
        FIFO.Call.insert (Request.create 1 20 0), FIFO.Call.select 0 1,
        FIFO.Call.remove]).removeRequest.IOQueue
        = ((FIFO.mk []).IOQueue ++ FIFO.inserted [FIFO.Call.insert (Request.create 0 50 0),
          FIFO.Call.insert (Request.create 1 20 0), FIFO.Call.select 0 1,
          FIFO.Call.remove]).drop (k + 1)) ∧
    ((FIFO.run (FIFO.mk []) [FIFO.Call.insert (Request.create 0 50 0),
        FIFO.Call.insert (Request.create 1 20 0)]).strategy 0 1).1
      = some (Request.create 0 50 0) ∧
    ((FIFO.run (FIFO.mk []) [FIFO.Call.insert (Request.create 0 50 0),
        FIFO.Call.insert (Request.create 1 20 0), FIFO.Call.select 0 1,
        FIFO.Call.remove]).strategy 0 1).1
      = some (Request.create 1 20 0) :=
  ⟨rfl, FIFO.strategy_front (FIFO.mk []) _ 0 1 rfl, rfl, rfl⟩

/-! ## SSTF -/

/-- Claim C6 as stated fails: with the head at track 0 and the pending tracks
5 and `INT_MIN`, the difference `INT_MIN - 0` has no absolute value in `int`
(`std::abs` gives `INT_MIN` back), which compares below 5, and `strategy`
returns the request for track `INT_MIN`, the farther of the two. -/
theorem SSTF.strategy_int_min_farther :
    (SSTF.mk [Request.create 0 5 0, Request.create 1 (-2147483648) 0] (-1)).isEmpty = false ∧
    ((SSTF.mk [Request.create 0 5 0, Request.create 1 (-2147483648) 0] (-1)).strategy 0 1).1
      = some (Request.create 1 (-2147483648) 0) ∧
    ¬ (|(Request.create 1 (-2147483648) 0).track - 0| ≤ |(Request.create 0 5 0).track - 0|) := by
  refine ⟨rfl, by decide, by decide⟩

/-- Claim C6 (amended): SSTF selection.  For every non-empty pending queue and
every head track such that no pending request is more than `INT_MAX` tracks
from the head, `strategy` returns a request `r` of the queue, remembered by
its index, whose distance to the head is at most that of every pending
request, and every request in front of `r` in the queue (inserted earlier) is
strictly farther from the head: among the closest requests `r` is the earliest
inserted. -/
theorem SSTF.strategy_closest (s : SSTF) (current_track current_direction : Int)
    (hne : s.isEmpty = false)
    (hrange : ∀ q ∈ s.IOQueue, |q.track - current_track| ≤ INT_MAX) :
    ∃ (r : Request) (i : Nat),
      (s.strategy current_track current_direction).1 = some r ∧
      (s.strategy current_track current_direction).2.1 = { s with current_index := (i : Int) } ∧
      s.IOQueue[i]? = some r ∧
      (∀ q ∈ s.IOQueue, |r.track - current_track| ≤ |q.track - current_track|) ∧
      (∀ j q, j < i → s.IOQueue[j]? = some q →
        |r.track - current_track| < |q.track - current_track|) := by
  have hq : s.IOQueue ≠ [] := by
    intro h
    simp [SSTF.isEmpty, h] at hne
  obtain ⟨r, hr, hmin, hfirst⟩ :=
    minElement_spec (fun a : Request => stdAbs (wrapInt (a.getTrack - current_track)))
      s.IOQueue hq
  have hcomp : (fun a b : Request =>
      decide (stdAbs (wrapInt (a.getTrack - current_track))
        < stdAbs (wrapInt (b.getTrack - current_track))))
      = SSTF.comp current_track := rfl
  rw [hcomp] at hr hfirst
  have hrr := stdAbs_wrapInt _ (hrange r (List.getElem?_mem hr))
  refine ⟨r, minElement (SSTF.comp current_track) s.IOQueue, ?_, ?_, hr, ?_, ?_⟩
  · simp [SSTF.strategy, hq, hr]
  · simp [SSTF.strategy, hq, hr]
  · intro q hq
    have := hmin q hq
    simp only [Request.getTrack] at this
    rw [hrr, stdAbs_wrapInt _ (hrange q hq)] at this
    exact this
  · intro j q hj hjq
    have := hfirst j q hj hjq
    simp only [Request.getTrack] at this
    rw [hrr, stdAbs_wrapInt _ (hrange q (List.getElem?_mem hjq))] at this
    exact this

/-- Scenario B at the policy: with the head at 0 and the pending tracks
90, 10 (in insertion order) the hypothesis of `SSTF.strategy_closest` holds and
the request for track 10 is selected. -/
theorem SSTF.strategy_closest_witness :
    (SSTF.mk [Request.create 0 90 0, Request.create 1 10 0] (-1)).isEmpty = false ∧
    (∃ (r : Request) (i : Nat),
      ((SSTF.mk [Request.create 0 90 0, Request.create 1 10 0] (-1)).strategy 0 1).1 = some r ∧
      ((SSTF.mk [Request.create 0 90 0, Request.create 1 10 0] (-1)).strategy 0 1).2.1
        = { SSTF.mk [Request.create 0 90 0, Request.create 1 10 0] (-1) with
            current_index := (i : Int) } ∧
      (SSTF.mk [Request.create 0 90 0, Request.create 1 10 0] (-1)).IOQueue[i]? = some r ∧
      (∀ q ∈ (SSTF.mk [Request.create 0 90 0, Request.create 1 10 0] (-1)).IOQueue,
        |r.track - 0| ≤ |q.track - 0|) ∧
      (∀ j q, j < i →
        (SSTF.mk [Request.create 0 90 0, Request.create 1 10 0] (-1)).IOQueue[j]? = some q →
        |r.track - 0| < |q.track - 0|)) ∧
    ((SSTF.mk [Request.create 0 90 0, Request.create 1 10 0] (-1)).strategy 0 1).1
      = some (Request.create 1 10 0) :=
  ⟨rfl, SSTF.strategy_closest _ 0 1 rfl (by decide), by decide⟩

/-! ## LOOK -/

theorem Look.scanLoop_spec (ct d : Int) (xs : List Request) :
    ∀ (pre : List Request) (acc : Look.Scan),
      (∀ x ∈ xs, |x.track - ct| < INT_MAX) →
      Look.ScanInv ct d pre acc →
      Look.ScanInv ct d (pre ++ xs) (Look.scanLoop ct d xs pre.length acc) := by
  induction xs with
  | nil =>
    intro pre acc _ h
    simpa [Look.scanLoop] using h
  | cons x xs ih =>
    intro pre acc hr h
    have hlen : (pre ++ [x]).length = pre.length + 1 := by simp
    have happ : (pre ++ [x]) ++ xs = pre ++ x :: xs := by simp
    have hr' : ∀ y ∈ xs, |y.track - ct| < INT_MAX :=
      fun y hy => hr y (List.mem_cons_of_mem _ hy)
    have hxr := hr x (List.mem_cons_self _ _)
    have hw : wrapInt (x.getTrack - ct) = x.getTrack - ct := wrapInt_of_abs _ (le_of_lt hxr)
    have ha : stdAbs (x.getTrack - ct) = |x.getTrack - ct| := by
      have h0 := stdAbs_wrapInt _ (le_of_lt hxr)
      rw [wrapInt_of_abs _ (le_of_lt hxr)] at h0
      exact h0
    by_cases hside : onSide ct d x
    · by_cases hlt : stdAbs (x.getTrack - ct) < acc.smallestDistance
      · -- a new closest request
        have hstep : Look.scanLoop ct d (x :: xs) pre.length acc
            = Look.scanLoop ct d xs (pre ++ [x]).length
                { foundRequestInDirection := true, closestIndex := (pre.length : Int),
                  smallestDistance := stdAbs (x.getTrack - ct) } := by
          have hside' := hside
          unfold onSide at hside'
          simp only [Look.scanLoop, hw, hside', hlt, if_true, hlen]
        rw [hstep, ← happ]
        apply ih _ _ hr'
        right
        refine ⟨rfl, pre.length, x, rfl, ?_, ?_, hside, ?_, ?_⟩
        · exact ha
        · simp
        · intro y hy hys
          rcases List.mem_append.mp hy with hy | hy
          · rcases h with ⟨_, _, hsd, hnone⟩ | ⟨_, i, r, _, hsd, _, _, hmin, _⟩
            · exact absurd hys (hnone y hy)
            · have := hmin y hy hys
              rw [hsd, ha] at hlt
              simp only [Request.getTrack] at hlt
              omega
          · simp at hy
            subst hy
            exact le_refl _
        · intro j y hj hjy hys
          rw [List.getElem?_append_left hj] at hjy
          have hy := List.getElem?_mem hjy
          rcases h with ⟨_, _, hsd, hnone⟩ | ⟨_, i, r, _, hsd, _, _, hmin, _⟩
          · exact absurd hys (hnone y hy)
          · have := hmin y hy hys
            rw [hsd, ha] at hlt
            simp only [Request.getTrack] at hlt
            omega
      · -- on the side, but not closer
        have hstep : Look.scanLoop ct d (x :: xs) pre.length acc
            = Look.scanLoop ct d xs (pre ++ [x]).length acc := by
          have hside' := hside
          unfold onSide at hside'
          simp only [Look.scanLoop, hw, hside', hlt, if_true, if_false, hlen]
        rw [hstep, ← happ]
        apply ih _ _ hr'
        rw [ha] at hlt
        simp only [Request.getTrack] at hlt
        rcases h with ⟨_, _, hsd, _⟩ | ⟨hf, i, r, hi, hsd, hir, hrs, hmin, hfirst⟩
        · omega
        · right
          have hil : i < pre.length := (List.getElem?_eq_some_iff.mp hir).1
          refine ⟨hf, i, r, hi, hsd, ?_, hrs, ?_, ?_⟩
          · rw [List.getElem?_append_left hil]; exact hir
          · intro y hy hys
            rcases List.mem_append.mp hy with hy | hy
            · exact hmin y hy hys
            · simp at hy
              subst hy
              omega
          · intro j y hj hjy hys
            rw [List.getElem?_append_left (by omega)] at hjy
            exact hfirst j y hj hjy hys
    · -- not on the side
      have hstep : Look.scanLoop ct d (x :: xs) pre.length acc
          = Look.scanLoop ct d xs (pre ++ [x]).length acc := by
        have hside' := hside
        unfold onSide at hside'
        simp only [Look.scanLoop, hw, hside', if_false, hlen]
      rw [hstep, ← happ]
      apply ih _ _ hr'
      rcases h with ⟨hf, hc, hsd, hnone⟩ | ⟨hf, i, r, hi, hsd, hir, hrs, hmin, hfirst⟩
      · left
        refine ⟨hf, hc, hsd, ?_⟩
        intro y hy
        rcases List.mem_append.mp hy with hy | hy
        · exact hnone y hy
        · simp at hy
          subst hy
          exact hside
      · right
        have hil : i < pre.length := (List.getElem?_eq_some_iff.mp hir).1
        refine ⟨hf, i, r, hi, hsd, ?_, hrs, ?_, ?_⟩
        · rw [List.getElem?_append_left hil]; exact hir
        · intro y hy hys
          rcases List.mem_append.mp hy with hy | hy
          · exact hmin y hy hys
          · simp at hy
            subst hy
            exact absurd hys hside
        · intro j y hj hjy hys
          rw [List.getElem?_append_left (by omega)] at hjy
          exact hfirst j y hj hjy hys

theorem Look.scan_spec (q : List Request) (ct d : Int)
    (hr : ∀ x ∈ q, |x.track - ct| < INT_MAX) :
    Look.ScanInv ct d q (Look.scan q ct d) := by
  have h := Look.scanLoop_spec ct d q [] 
    { foundRequestInDirection := false, closestIndex := -1, smallestDistance := INT_MAX } hr
    (Or.inl ⟨rfl, rfl, rfl, by simp⟩)
  simpa [Look.scan] using h

theorem Look.strategy_found (fuel : Nat) (s : Look) (ct d : Int)
    (h : (Look.scan s.IOQueue ct d).foundRequestInDirection = true) :
    Look.strategy (fuel + 1) s ct d =
      match atIndex s.IOQueue (Look.scan s.IOQueue ct d).closestIndex with
      | some r => some (r, { s with current_index := (Look.scan s.IOQueue ct d).closestIndex }, d)
      | none => none := by
  simp [Look.strategy, h]

theorem Look.strategy_not_found (fuel : Nat) (s : Look) (ct d : Int)
    (h : (Look.scan s.IOQueue ct d).foundRequestInDirection = false) :
    Look.strategy (fuel + 1) s ct d = Look.strategy fuel s ct (-d) := by
  simp [Look.strategy, h]

theorem Look.look_strategy_stuck (s : Look) (ct d : Int)
    (h1 : (Look.scan s.IOQueue ct d).foundRequestInDirection = false)
    (h2 : (Look.scan s.IOQueue ct (-d)).foundRequestInDirection = false) (n : Nat) :
    Look.strategy n s ct d = none ∧ Look.strategy n s ct (-d) = none := by
  induction n with
  | zero => exact ⟨rfl, rfl⟩
  | succ n ih =>
    constructor
    · rw [Look.strategy_not_found n s ct d h1]; exact ih.2
    · rw [Look.strategy_not_found n s ct (-d) h2, neg_neg]; exact ih.1

/-- Two levels of the recursion of `Look::strategy` decide the call: deeper
levels repeat them with the same arguments. -/
theorem Look.look_strategy_fuel (n : Nat) (s : Look) (ct d : Int) :
    Look.strategy (n + 2) s ct d = Look.strategy 2 s ct d := by
  cases h1 : (Look.scan s.IOQueue ct d).foundRequestInDirection with
  | true => rw [Look.strategy_found (n + 1) s ct d h1, Look.strategy_found 1 s ct d h1]
  | false =>
    rw [Look.strategy_not_found (n + 1) s ct d h1, Look.strategy_not_found 1 s ct d h1]
    cases h2 : (Look.scan s.IOQueue ct (-d)).foundRequestInDirection with
    | true => rw [Look.strategy_found n s ct (-d) h2, Look.strategy_found 0 s ct (-d) h2]
    | false =>
      rw [(Look.look_strategy_stuck s ct d h1 h2 (n + 1)).2,
        (Look.look_strategy_stuck s ct d h1 h2 1).2]

theorem Look.strategy_on_side (s : Look) (ct d : Int)
    (hr : ∀ x ∈ s.IOQueue, |x.track - ct| < INT_MAX)
    (hex : ∃ x ∈ s.IOQueue, onSide ct d x) :
    ∃ (i : Nat) (r : Request), IsClosestOnSide s.IOQueue ct d i r ∧
      ∀ fuel, Look.strategy (fuel + 1) s ct d = some (r, { s with current_index := (i : Int) }, d) := by
  rcases Look.scan_spec s.IOQueue ct d hr with ⟨_, _, _, hnone⟩ | ⟨hf, i, r, hi, _, hcl⟩
  · obtain ⟨x, hx, hxs⟩ := hex
    exact absurd hxs (hnone x hx)
  · refine ⟨i, r, hcl, fun fuel => ?_⟩
    rw [Look.strategy_found fuel s ct d hf, hi]
    simp [atIndex, hcl.1]

theorem Look.scan_off_side (q : List Request) (ct d : Int)
    (hr : ∀ x ∈ q, |x.track - ct| < INT_MAX)
    (hnone : ∀ x ∈ q, ¬ onSide ct d x) :
    (Look.scan q ct d).foundRequestInDirection = false := by
  rcases Look.scan_spec q ct d hr with
    ⟨hf, _⟩ | ⟨_, i, r, _, _, hir, hrs, _⟩
  · exact hf
  · exact absurd hrs (hnone r (List.getElem?_mem hir))

theorem onSide_neg_of_not (ct d : Int) (hd : d = 1 ∨ d = -1) (x : Request)
    (h : ¬ onSide ct d x) : onSide ct (-d) x := by
  unfold onSide at *
  rcases hd with hd | hd <;> subst hd <;> simp at h ⊢ <;> omega

/-- Claim C7 (amended): LOOK selection.  For a non-empty pending queue, a
direction `d` of +1 or -1 and a head track from which every pending request is
less than `INT_MAX` tracks away: if some pending request lies on the side `d`
of the head, `strategy` returns, at the first level of its recursion and with
the direction unchanged, the request on that side closest to the head (the
first such in the queue) and remembers its index; otherwise it returns, at the
second level, hence after exactly one reversal, the closest request on the
side `-d`, leaving the direction `-d`. -/
theorem Look.strategy_closest_on_side (s : Look) (ct d : Int)
    (hne : s.isEmpty = false) (hd : d = 1 ∨ d = -1)
    (hrange : ∀ x ∈ s.IOQueue, |x.track - ct| < INT_MAX) :
    ((∃ x ∈ s.IOQueue, onSide ct d x) →
      ∃ (i : Nat) (r : Request), IsClosestOnSide s.IOQueue ct d i r ∧
        ∀ fuel, Look.strategy (fuel + 1) s ct d
          = some (r, { s with current_index := (i : Int) }, d)) ∧
    ((¬ ∃ x ∈ s.IOQueue, onSide ct d x) →
      ∃ (i : Nat) (r : Request), IsClosestOnSide s.IOQueue ct (-d) i r ∧
        ∀ fuel, Look.strategy (fuel + 2) s ct d
          = some (r, { s with current_index := (i : Int) }, -d)) := by
  constructor
  · intro hex
    exact Look.strategy_on_side s ct d hrange hex
  · intro hno
    have hnone : ∀ x ∈ s.IOQueue, ¬ onSide ct d x := fun x hx hxs => hno ⟨x, hx, hxs⟩
    have hq : s.IOQueue ≠ [] := by
      intro h
      simp [Look.isEmpty, h] at hne
    obtain ⟨y, hy⟩ := List.exists_mem_of_ne_nil _ hq
    have hex : ∃ x ∈ s.IOQueue, onSide ct (-d) x :=
      ⟨y, hy, onSide_neg_of_not ct d hd y (hnone y hy)⟩
    obtain ⟨i, r, hcl, hs⟩ :=
      Look.strategy_on_side s ct (-d) hrange hex
    refine ⟨i, r, hcl, fun fuel => ?_⟩
    rw [Look.strategy_not_found (fuel + 1) s ct d (Look.scan_off_side _ ct d hrange hnone)]
    exact hs fuel

/-- Claim C7 as stated fails: with the head at track 0, direction +1 and one
pending request for track `INT_MAX` (on the current side, at distance
`INT_MAX`), the scan never finds `absDistance < smallestDistance`, so
`strategy` reverses the direction at every level and returns at no depth. -/
theorem Look.strategy_int_max_diverges :
    (Look.mk [Request.create 0 2147483647 0] 0).isEmpty = false ∧
    (∃ x ∈ (Look.mk [Request.create 0 2147483647 0] 0).IOQueue, onSide 0 1 x) ∧
    ¬ ∃ fuel res, Look.strategy fuel
        { IOQueue := [Request.create 0 2147483647 0], current_index := 0 } 0 1 = some res := by
  refine ⟨rfl, ⟨Request.create 0 2147483647 0, by simp, Or.inl ⟨rfl, by decide⟩⟩, ?_⟩
  rintro ⟨fuel, res, h⟩
  have := (Look.look_strategy_stuck { IOQueue := [Request.create 0 2147483647 0], current_index := 0 }
    0 1 (by decide) (by decide) fuel).1
  rw [this] at h
  exact Option.noConfusion h

/-- The hypotheses of `Look.strategy_closest_on_side` hold for the pending
tracks 30, 70, 60 with the head at 50: in direction +1 the request for track
60 is returned and the direction kept; with the pending tracks 30, 20 nothing
lies ahead, and the request for track 30 is returned with direction -1. -/
theorem Look.strategy_closest_on_side_witness :
    (Look.mk [Request.create 0 30 0, Request.create 1 70 0, Request.create 2 60 0] 0).isEmpty
      = false ∧
    ((1 : Int) = 1 ∨ (1 : Int) = -1) ∧
    (∀ x ∈ (Look.mk [Request.create 0 30 0, Request.create 1 70 0, Request.create 2 60 0]
        0).IOQueue, |x.track - 50| < INT_MAX) ∧
    (((∃ x ∈ (Look.mk [Request.create 0 30 0, Request.create 1 70 0, Request.create 2 60 0]
          0).IOQueue, onSide 50 1 x) →
      ∃ (i : Nat) (r : Request),
        IsClosestOnSide (Look.mk [Request.create 0 30 0, Request.create 1 70 0,
          Request.create 2 60 0] 0).IOQueue 50 1 i r ∧
        ∀ fuel, Look.strategy (fuel + 1)
            (Look.mk [Request.create 0 30 0, Request.create 1 70 0, Request.create 2 60 0] 0) 50 1
          = some (r, { Look.mk [Request.create 0 30 0, Request.create 1 70 0,
              Request.create 2 60 0] 0 with current_index := (i : Int) }, 1)) ∧
    ((¬ ∃ x ∈ (Look.mk [Request.create 0 30 0, Request.create 1 70 0, Request.create 2 60 0]
          0).IOQueue, onSide 50 1 x) →
      ∃ (i : Nat) (r : Request),
        IsClosestOnSide (Look.mk [Request.create 0 30 0, Request.create 1 70 0,
          Request.create 2 60 0] 0).IOQueue 50 (-1) i r ∧
        ∀ fuel, Look.strategy (fuel + 2)
            (Look.mk [Request.create 0 30 0, Request.create 1 70 0, Request.create 2 60 0] 0) 50 1
          = some (r, { Look.mk [Request.create 0 30 0, Request.create 1 70 0,
              Request.create 2 60 0] 0 with current_index := (i : Int) }, -1))) ∧
    Look.strategy 2
        (Look.mk [Request.create 0 30 0, Request.create 1 70 0, Request.create 2 60 0] 0) 50 1
      = some (Request.create 2 60 0,
          Look.mk [Request.create 0 30 0, Request.create 1 70 0, Request.create 2 60 0] 2, 1) ∧
    Look.strategy 2 (Look.mk [Request.create 0 30 0, Request.create 1 20 0] 0) 50 1
      = some (Request.create 0 30 0,
          Look.mk [Request.create 0 30 0, Request.create 1 20 0] 0, -1) :=
  have hrange : ∀ x ∈ (Look.mk [Request.create 0 30 0, Request.create 1 70 0,
      Request.create 2 60 0] 0).IOQueue, |x.track - 50| < INT_MAX := by
    intro x hx
    simp only [List.mem_cons, List.mem_singleton, List.not_mem_nil, or_false] at hx
    rcases hx with h | h | h <;> subst h <;> simp [Request.create, INT_MAX, abs_lt]
  ⟨rfl, Or.inl rfl, hrange,
    Look.strategy_closest_on_side
      (Look.mk [Request.create 0 30 0, Request.create 1 70 0, Request.create 2 60 0] 0) 50 1
      rfl (Or.inl rfl) hrange,
    by decide, by decide⟩

/-! ## CLOOK -/

/-- What `CLook::strategy` returns on a non-empty queue whose tracks at or above
the head are below `INT_MAX`. -/
theorem CLook.strategy_select (s : CLook) (ct cd : Int)
    (hne : s.isEmpty = false)
    (hrange : ∀ x ∈ s.IOQueue, ct ≤ x.track → x.track < INT_MAX) :
    ∃ (r : Request) (i : Nat),
      s.strategy ct cd = (some r, { s with current_index := (i : Int) }, 1) ∧
      s.IOQueue[i]? = some r ∧
      ((∃ x ∈ s.IOQueue, ct ≤ x.track) →
        ct ≤ r.track ∧ ∀ x ∈ s.IOQueue, ct ≤ x.track → r.track ≤ x.track) ∧
      ((¬ ∃ x ∈ s.IOQueue, ct ≤ x.track) → ∀ x ∈ s.IOQueue, r.track ≤ x.track) := by
  have hq : s.IOQueue ≠ [] := by
    intro h
    simp [CLook.isEmpty, h] at hne
  obtain ⟨r0, hr0, hmin0, -⟩ := minElement_spec (CLook.key ct) s.IOQueue hq
  obtain ⟨r1, hr1, hmin1, -⟩ := minElement_spec (fun a : Request => a.getTrack) s.IOQueue hq
  have hc0 : (fun a b : Request => decide (CLook.key ct a < CLook.key ct b))
      = CLook.compAhead ct := rfl
  have hc1 : (fun a b : Request => decide (a.getTrack < b.getTrack)) = CLook.compTrack := rfl
  rw [hc0] at hr0
  rw [hc1] at hr1
  by_cases hex : ∃ x ∈ s.IOQueue, ct ≤ x.track
  · obtain ⟨x, hx, hxt⟩ := hex
    have hkx : CLook.key ct x = x.track := by simp [CLook.key, Request.getTrack, hxt]
    have h0x := hmin0 x hx
    have hxm := hrange x hx hxt
    have hr0t : ct ≤ r0.track := by
      by_contra hlt
      have : CLook.key ct r0 = INT_MAX := by simp [CLook.key, Request.getTrack, hlt]
      omega
    have hk0 : CLook.key ct r0 = r0.track := by simp [CLook.key, Request.getTrack, hr0t]
    have hcl : CLook.closest s.IOQueue ct = minElement (CLook.compAhead ct) s.IOQueue := by
      simp [CLook.closest, hr0, Request.getTrack, hr0t]
    refine ⟨r0, minElement (CLook.compAhead ct) s.IOQueue, ?_, hr0, ?_, ?_⟩
    · simp [CLook.strategy, hq, hcl, hr0]
    · intro _
      refine ⟨hr0t, fun y hy hyt => ?_⟩
      have := hmin0 y hy
      have hky : CLook.key ct y = y.track := by simp [CLook.key, Request.getTrack, hyt]
      omega
    · intro hno
      exact absurd ⟨x, hx, hxt⟩ hno
  · have hall : ∀ x ∈ s.IOQueue, x.track < ct := by
      intro x hx
      by_contra h
      exact hex ⟨x, hx, by omega⟩
    have hr0t : r0.track < ct := hall r0 (List.getElem?_mem hr0)
    have hcl : CLook.closest s.IOQueue ct = minElement CLook.compTrack s.IOQueue := by
      simp [CLook.closest, hr0, Request.getTrack, hr0t]
    refine ⟨r1, minElement CLook.compTrack s.IOQueue, ?_, hr1, ?_, ?_⟩
    · simp [CLook.strategy, hq, hcl, hr1]
    · intro h
      exact absurd h hex
    · intro _ y hy
      exact hmin1 y hy

/-- Claim C8 (amended): CLOOK selection.  For a non-empty pending queue and a
head track such that every pending track at or above the head is below
`INT_MAX`: `strategy` returns a pending request, remembered by its index, and
leaves the direction +1; if some pending track is at or above the head track
the returned track is the smallest such, otherwise it is the smallest pending
track of all. -/
theorem CLook.strategy_smallest_ahead (s : CLook) (ct cd : Int)
    (hne : s.isEmpty = false)
    (hrange : ∀ x ∈ s.IOQueue, ct ≤ x.track → x.track < INT_MAX) :
    ∃ (r : Request) (i : Nat),
      s.strategy ct cd = (some r, { s with current_index := (i : Int) }, 1) ∧
      s.IOQueue[i]? = some r ∧
      ((∃ x ∈ s.IOQueue, ct ≤ x.track) →
        ct ≤ r.track ∧ ∀ x ∈ s.IOQueue, ct ≤ x.track → r.track ≤ x.track) ∧
      ((¬ ∃ x ∈ s.IOQueue, ct ≤ x.track) → ∀ x ∈ s.IOQueue, r.track ≤ x.track) :=
  CLook.strategy_select s ct cd hne hrange

/-- Claim C8 as stated fails: with the head at track 10 and the pending tracks
5, `INT_MAX` there is a pending track at or above the head, yet the first
`std::min_element` sees two equal keys `INT_MAX`, keeps the request for track
5, and `strategy` returns it, a track below the head. -/
theorem CLook.strategy_int_max_skipped :
    (CLook.mk [Request.create 0 5 0, Request.create 1 2147483647 0] (-1)).isEmpty = false ∧
    (∃ x ∈ (CLook.mk [Request.create 0 5 0, Request.create 1 2147483647 0] (-1)).IOQueue,
      (10 : Int) ≤ x.track) ∧
    ((CLook.mk [Request.create 0 5 0, Request.create 1 2147483647 0] (-1)).strategy 10 1).1
      = some (Request.create 0 5 0) ∧
    (Request.create 0 5 0).track < 10 := by
  refine ⟨rfl, ⟨Request.create 1 2147483647 0, by simp, by decide⟩, by decide, by decide⟩

/-- The hypotheses of `CLook.strategy_smallest_ahead` hold for the pending
tracks 50, 10, 80: the head at 0 gets the request for track 10, and the head
at 60 the request for track 80. -/
theorem CLook.strategy_smallest_ahead_witness :
    (CLook.mk [Request.create 0 50 0, Request.create 1 10 0, Request.create 2 80 0]
        (-1)).isEmpty = false ∧
    (∀ x ∈ (CLook.mk [Request.create 0 50 0, Request.create 1 10 0, Request.create 2 80 0]
        (-1)).IOQueue, 60 ≤ x.track → x.track < INT_MAX) ∧
    (∃ (r : Request) (i : Nat),
      (CLook.mk [Request.create 0 50 0, Request.create 1 10 0, Request.create 2 80 0]
          (-1)).strategy 60 1
        = (some r, { CLook.mk [Request.create 0 50 0, Request.create 1 10 0,
            Request.create 2 80 0] (-1) with current_index := (i : Int) }, 1) ∧
      (CLook.mk [Request.create 0 50 0, Request.create 1 10 0, Request.create 2 80 0]
          (-1)).IOQueue[i]? = some r ∧
      ((∃ x ∈ (CLook.mk [Request.create 0 50 0, Request.create 1 10 0, Request.create 2 80 0]
          (-1)).IOQueue, 60 ≤ x.track) →
        60 ≤ r.track ∧
        ∀ x ∈ (CLook.mk [Request.create 0 50 0, Request.create 1 10 0, Request.create 2 80 0]
          (-1)).IOQueue, 60 ≤ x.track → r.track ≤ x.track) ∧
      ((¬ ∃ x ∈ (CLook.mk [Request.create 0 50 0, Request.create 1 10 0, Request.create 2 80 0]
          (-1)).IOQueue, 60 ≤ x.track) →
        ∀ x ∈ (CLook.mk [Request.create 0 50 0, Request.create 1 10 0, Request.create 2 80 0]
          (-1)).IOQueue, r.track ≤ x.track)) ∧
    ((CLook.mk [Request.create 0 50 0, Request.create 1 10 0, Request.create 2 80 0]
        (-1)).strategy 60 1).1 = some (Request.create 2 80 0) ∧
    ((CLook.mk [Request.create 0 50 0, Request.create 1 10 0, Request.create 2 80 0]
        (-1)).strategy 0 1).1 = some (Request.create 1 10 0) :=
  have hrange : ∀ x ∈ (CLook.mk [Request.create 0 50 0, Request.create 1 10 0,
      Request.create 2 80 0] (-1)).IOQueue, 60 ≤ x.track → x.track < INT_MAX := by
    intro x hx _
    simp only [List.mem_cons, List.mem_singleton, List.not_mem_nil, or_false] at hx
    rcases hx with h | h | h <;> subst h <;> simp [Request.create, INT_MAX]
  ⟨rfl, hrange,
    CLook.strategy_smallest_ahead
      (CLook.mk [Request.create 0 50 0, Request.create 1 10 0, Request.create 2 80 0] (-1)) 60 1
      rfl hrange,
    by decide, by decide⟩

/-! ## The steps of the engine, case by case -/

/-- The three ways `fetchNextRequest` returns: nothing to do, a request is
issued, or the fallback `changeDirection` is taken. -/
theorem fetchNextRequest_cases (s s3 : Sim) (h : fetchNextRequest s = some s3) :
    (s3 = s ∧ (s.current_request ≠ none ∨ s.scheduler.isEmpty = true)) ∨
    (∃ r sch dir, s.current_request = none ∧ s.scheduler.isEmpty = false ∧
      s.scheduler.strategy s.current_track s.current_direction = some (some r, sch, dir) ∧
      s3 = { s with
        scheduler := sch,
        current_direction := dir,
        current_request := some { r with startTime := s.current_time },
        total_wait_time := s.total_wait_time + wrapInt (s.current_time - r.arrivalTime),
        max_wait_time := max s.max_wait_time (wrapInt (s.current_time - r.arrivalTime)),
        log := s.log ++ [Event.issue s.current_time { r with startTime := s.current_time }
          s.current_track s.current_direction sch.pending],
        current_time := if r.track = s.current_track then wrapInt (s.current_time - 1)
          else s.current_time }) ∨
    (∃ sch dir, s.current_request = none ∧ s.scheduler.isEmpty = false ∧
      s.scheduler.strategy s.current_track s.current_direction = some (none, sch, dir) ∧
      s3 = changeDirection { s with
        scheduler := sch,
        current_direction := dir,
        log := s.log ++ [Event.fallback s.current_time] }) := by
  unfold fetchNextRequest at h
  split at h
  · rename_i hc
    obtain ⟨hcr, hem⟩ := hc
    have hcr' : s.current_request = none := by simpa using hcr
    have hem' : s.scheduler.isEmpty = false := by simpa using hem
    split at h
    · exact Option.noConfusion h
    · rename_i r sch dir hst
      right; left
      refine ⟨r, sch, dir, hcr', hem', hst, ?_⟩
      by_cases ht : r.track = s.current_track
      · simp [Request.getTrack, ht] at h
        rw [← h]; simp [ht]
      · simp [Request.getTrack, ht] at h
        rw [← h]; simp [ht]
    · rename_i sch dir hst
      right; right
      refine ⟨sch, dir, hcr', hem', hst, ?_⟩
      simpa using h.symm
  · rename_i hc
    left
    refine ⟨by simpa using h.symm, ?_⟩
    by_contra hcon
    apply hc
    push_neg at hcon
    constructor
    · simp [hcon.1]
    · simp [hcon.2]

/-- The two ways `processCompletedRequests` returns. -/
theorem processCompletedRequests_cases (s s2 : Sim) (h : processCompletedRequests s = some s2) :
    (s2 = s ∧ ∀ r, s.current_request = some r → r.track ≠ s.current_track) ∨
    (∃ r sch, s.current_request = some r ∧ r.track = s.current_track ∧
      s.scheduler.removeRequest = some sch ∧
      s2 = { s with
        total_turnaround := s.total_turnaround + wrapInt (s.current_time - r.arrivalTime),
        completedRequests := addCompleted s.completedRequests { r with endTime := s.current_time },
        scheduler := sch,
        current_request := none,
        log := s.log ++ [Event.finish s.current_time { r with endTime := s.current_time }] }) := by
  unfold processCompletedRequests at h
  split at h
  · rename_i r hr
    split at h
    · rename_i ht
      split at h
      · rename_i sch hsch
        right
        exact ⟨r, sch, hr, ht, hsch, by simpa using h.symm⟩
      · exact Option.noConfusion h
    · rename_i ht
      left
      refine ⟨by simpa using h.symm, fun r' hr' => ?_⟩
      rw [hr] at hr'
      cases hr'
      exact ht
  · rename_i hr
    left
    refine ⟨by simpa using h.symm, fun r' hr' => ?_⟩
    rw [hr] at hr'
    exact Option.noConfusion hr'

/-- The two ways `processArrivals` returns. -/
theorem processArrivals_cases (s : Sim) :
    (processArrivals s = s ∧ ∀ op rest, s.operations = op :: rest → op.time ≠ s.current_time) ∨
    (∃ op rest, s.operations = op :: rest ∧ op.time = s.current_time ∧
      processArrivals s = { s with
        scheduler := s.scheduler.addRequest
          (Request.create s.request_number op.track s.current_time),
        operations := rest,
        request_number := s.request_number + 1,
        log := s.log ++ [Event.add s.current_time
          (Request.create s.request_number op.track s.current_time)] }) := by
  unfold processArrivals
  split
  · rename_i op rest hop
    split
    · rename_i ht
      right
      exact ⟨op, rest, hop, ht, rfl⟩
    · rename_i ht
      left
      refine ⟨rfl, fun op' rest' h' => ?_⟩
      rw [hop] at h'
      cases h'
      exact ht
  · rename_i hop
    left
    refine ⟨rfl, fun op' rest' h' => ?_⟩
    rw [hop] at h'
    exact List.noConfusion h'

/-- The two ways `simulateHeadMovement` returns. -/
theorem simulateHeadMovement_cases (s : Sim) :
    (simulateHeadMovement s = s ∧ ∀ r, s.current_request = some r → r.track = s.current_track) ∨
    (∃ r, s.current_request = some r ∧ r.track ≠ s.current_track ∧
      simulateHeadMovement s = { s with
        current_track := s.current_track + (if r.track > s.current_track then 1 else -1),
        total_movement := s.total_movement + 1 }) := by
  unfold simulateHeadMovement
  split
  · rename_i r hr
    split
    · rename_i ht
      right
      exact ⟨r, hr, ht, rfl⟩
    · rename_i ht
      left
      refine ⟨rfl, fun r' hr' => ?_⟩
      rw [hr] at hr'
      cases hr'
      simpa [Request.getTrack] using ht
  · rename_i hr
    left
    refine ⟨rfl, fun r' hr' => ?_⟩
    rw [hr] at hr'
    exact Option.noConfusion hr'

/-- A pass of the loop as the composition of its four steps. -/
theorem iteration_cases (s s4 : Sim) (b : Bool) (h : iteration s = some (b, s4)) :
    ∃ s2 s3, processCompletedRequests (processArrivals s) = some s2 ∧
      fetchNextRequest s2 = some s3 ∧ s4 = simulateHeadMovement s3 ∧
      b = checkExitCondition s4 := by
  unfold iteration at h
  split at h
  · exact Option.noConfusion h
  · rename_i s2 h2
    split at h
    · exact Option.noConfusion h
    · rename_i s3 h3
      simp only [Option.some.injEq, Prod.mk.injEq] at h
      exact ⟨s2, s3, h2, h3, h.2.symm, by rw [← h.2]; exact h.1.symm⟩

/-! ## Arrivals and the clock -/

theorem changeDirection_frame (s : Sim) :
    (changeDirection s).operations = s.operations ∧
    (changeDirection s).current_time = s.current_time ∧
    (changeDirection s).current_request = s.current_request ∧
    (changeDirection s).scheduler = s.scheduler ∧
    (changeDirection s).completedRequests = s.completedRequests ∧
    (changeDirection s).request_number = s.request_number := by
  unfold changeDirection
  simp only
  split <;> simp

theorem simulateHeadMovement_frame (s : Sim) :
    (simulateHeadMovement s).operations = s.operations ∧
    (simulateHeadMovement s).current_time = s.current_time ∧
    (simulateHeadMovement s).current_request = s.current_request ∧
    (simulateHeadMovement s).scheduler = s.scheduler ∧
    (simulateHeadMovement s).completedRequests = s.completedRequests ∧
    (simulateHeadMovement s).request_number = s.request_number ∧
    (simulateHeadMovement s).log = s.log := by
  rcases simulateHeadMovement_cases s with ⟨h, _⟩ | ⟨r, _, _, h⟩ <;> rw [h] <;> simp

/-- What a pass of the loop does to the trace and to the clock. -/
theorem iteration_operations_time (s s4 : Sim) (b : Bool) (h : iteration s = some (b, s4)) :
    s4.operations = (processArrivals s).operations ∧
    (s4.current_time = s.current_time ∨ s4.current_time = wrapInt (s.current_time - 1)) ∧
    (b = true → s4.operations = []) := by
  obtain ⟨s2, s3, h2, h3, h4, hb⟩ := iteration_cases s s4 b h
  have e1 : (processArrivals s).current_time = s.current_time := by
    rcases processArrivals_cases s with ⟨h, _⟩ | ⟨op, rest, _, _, h⟩ <;> rw [h]
  have e2 : s2.operations = (processArrivals s).operations ∧
      s2.current_time = (processArrivals s).current_time := by
    rcases processCompletedRequests_cases _ s2 h2 with ⟨h, _⟩ | ⟨r, sch, _, _, _, h⟩ <;>
      rw [h] <;> simp
  have e3 : s3.operations = s2.operations ∧
      (s3.current_time = s2.current_time ∨ s3.current_time = wrapInt (s2.current_time - 1)) := by
    rcases fetchNextRequest_cases s2 s3 h3 with ⟨h, _⟩ | ⟨r, sch, dir, _, _, _, h⟩ |
      ⟨sch, dir, _, _, _, h⟩
    · rw [h]; simp
    · rw [h]; simp only [true_and]
      split
      · exact Or.inr rfl
      · exact Or.inl rfl
    · rw [h]
      have := changeDirection_frame { s2 with
        scheduler := sch, current_direction := dir,
        log := s2.log ++ [Event.fallback s2.current_time] }
      rw [this.1, this.2.1]; simp
  have e4 := simulateHeadMovement_frame s3
  rw [← h4] at e4
  refine ⟨?_, ?_, ?_⟩
  · rw [e4.1, e3.1, e2.1]
  · rw [e4.2.1, ← e1, ← e2.2]
    exact e3.2
  · intro hbt
    rw [hbt] at hb
    unfold checkExitCondition at hb
    have hb2 := hb.symm
    simp only [Bool.and_eq_true] at hb2
    simpa using hb2.2

/-- Claim C1, evaluated on the trace (0,50),(0,20) at clock 0, for each policy:
`processArrivals` tests the front of the trace once (`if`, not `while`), so
after the arrivals step the earliest remaining event (0,20) still has the time
of the clock, and only the request for track 50 is in the policy. -/
theorem processArrivals_leaves_simultaneous_event (p : Policy) :
    (processArrivals (Sim.init p [⟨0, 50⟩, ⟨0, 20⟩])).operations = [⟨0, 20⟩] ∧
    (processArrivals (Sim.init p [⟨0, 50⟩, ⟨0, 20⟩])).current_time = 0 ∧
    (processArrivals (Sim.init p [⟨0, 50⟩, ⟨0, 20⟩])).scheduler.pending
      = [Request.create 0 50 0] ∧
    (processArrivals (Sim.init p [⟨0, 50⟩, ⟨0, 20⟩])).request_number = 1 := by
  cases p <;> exact ⟨rfl, rfl, rfl, rfl⟩

/-! ## The scheduler interface -/

theorem atIndex_natCast (q : List Request) (i : Nat) : atIndex q (i : Int) = q[i]? := by
  simp [atIndex]

theorem atIndex_some (q : List Request) (i : Int) (r : Request) (h : atIndex q i = some r) :
    0 ≤ i ∧ i < (q.length : Int) ∧ q[i.toNat]? = some r := by
  unfold atIndex at h
  split at h
  · rename_i h0
    have hl := (List.getElem?_eq_some_iff.mp h).1
    exact ⟨h0, by omega, h⟩
  · exact Option.noConfusion h

theorem atIndex_append (q : List Request) (x : Request) (i : Int) (r : Request)
    (h : atIndex q i = some r) : atIndex (q ++ [x]) i = some r := by
  obtain ⟨h0, hl, hr⟩ := atIndex_some q i r h
  unfold atIndex
  rw [if_pos h0, List.getElem?_append_left (by omega)]
  exact hr

/-! ### The policies keep what they are given -/

theorem SSTF.sstf_strategy_some (s s1 : SSTF) (ct cd d1 : Int) (r : Request)
    (h : s.strategy ct cd = (some r, s1, d1)) :
    s1.IOQueue = s.IOQueue ∧ atIndex s1.IOQueue s1.current_index = some r := by
  unfold SSTF.strategy at h
  split at h
  · simp at h
  · simp only at h
    split at h
    · rename_i r0 hr0
      simp only [Prod.mk.injEq, Option.some.injEq] at h
      obtain ⟨h1, h2, _⟩ := h
      subst h1
      rw [← h2]
      exact ⟨rfl, by rw [atIndex_natCast]; exact hr0⟩
    · simp at h

theorem SSTF.sstf_strategy_none (s s1 : SSTF) (ct cd d1 : Int)
    (h : s.strategy ct cd = (none, s1, d1)) : s1.IOQueue = s.IOQueue := by
  unfold SSTF.strategy at h
  split at h
  · simp only [Prod.mk.injEq, true_and] at h
    rw [← h.1]
  · simp only at h
    split at h
    · simp at h
    · simp only [Prod.mk.injEq, true_and] at h
      rw [← h.1]

theorem CLook.clook_strategy_some (s s1 : CLook) (ct cd d1 : Int) (r : Request)
    (h : s.strategy ct cd = (some r, s1, d1)) :
    s1.IOQueue = s.IOQueue ∧ atIndex s1.IOQueue s1.current_index = some r := by
  unfold CLook.strategy at h
  split at h
  · simp at h
  · simp only at h
    split at h
    · rename_i r0 hr0
      simp only [Prod.mk.injEq, Option.some.injEq] at h
      obtain ⟨h1, h2, _⟩ := h
      subst h1
      rw [← h2]
      exact ⟨rfl, by rw [atIndex_natCast]; exact hr0⟩
    · simp at h

theorem CLook.clook_strategy_none (s s1 : CLook) (ct cd d1 : Int)
    (h : s.strategy ct cd = (none, s1, d1)) : s1.IOQueue = s.IOQueue := by
  unfold CLook.strategy at h
  split at h
  · simp only [Prod.mk.injEq, true_and] at h
    rw [← h.1]
  · simp only at h
    split at h
    · simp at h
    · simp only [Prod.mk.injEq, true_and] at h
      rw [← h.1]

theorem Look.look_strategy_some (fuel : Nat) :
    ∀ (s s1 : Look) (ct cd d1 : Int) (r : Request),
      Look.strategy fuel s ct cd = some (r, s1, d1) →
      s1.IOQueue = s.IOQueue ∧ atIndex s1.IOQueue s1.current_index = some r := by
  induction fuel with
  | zero =>
    intro s s1 ct cd d1 r h
    exact Option.noConfusion h
  | succ fuel ih =>
    intro s s1 ct cd d1 r h
    unfold Look.strategy at h
    simp only at h
    split at h
    · exact ih s s1 ct (-cd) d1 r h
    · split at h
      · rename_i r0 hr0
        simp only [Option.some.injEq, Prod.mk.injEq] at h
        obtain ⟨h1, h2, _⟩ := h
        subst h1
        rw [← h2]
        exact ⟨rfl, hr0⟩
      · exact Option.noConfusion h

theorem FLook.flook_strategy_some (fuel : Nat) :
    ∀ (s s1 : FLook) (ct cd d1 : Int) (r : Request),
      FLook.strategy fuel s ct cd = some (r, s1, d1) →
      s1.active ++ s1.add = s.active ++ s.add ∧
      atIndex s1.active s1.current_index = some r := by
  induction fuel with
  | zero =>
    intro s s1 ct cd d1 r h
    exact Option.noConfusion h
  | succ fuel ih =>
    intro s s1 ct cd d1 r h
    have hsw : (if s.active.isEmpty = true then s.swap else s).active ++
        (if s.active.isEmpty = true then s.swap else s).add = s.active ++ s.add := by
      split
      · rename_i he
        have : s.active = [] := by simpa using he
        simp [FLook.swap, this]
      · rfl
    unfold FLook.strategy at h
    simp only at h
    generalize (if s.active.isEmpty = true then s.swap else s) = s0 at h hsw
    split at h
    · have := ih _ s1 ct (-cd) d1 r h
      exact ⟨this.1.trans hsw, this.2⟩
    · split at h
      · rename_i r0 hr0
        simp only [Option.some.injEq, Prod.mk.injEq] at h
        obtain ⟨h1, h2, _⟩ := h
        subst h1
        rw [← h2]
        exact ⟨hsw, hr0⟩
      · exact Option.noConfusion h

theorem IOScheduler.strategy_some (p p1 : IOScheduler) (ct cd d1 : Int) (r : Request)
    (h : p.strategy ct cd = some (some r, p1, d1)) :
    p1.pending = p.pending ∧ p1.selected = some r := by
  cases p with
  | fifo s =>
    simp only [IOScheduler.strategy, Option.some.injEq, Prod.mk.injEq] at h
    obtain ⟨h1, h2, _⟩ := h
    subst h2
    refine ⟨rfl, ?_⟩
    unfold FIFO.strategy at h1
    split at h1
    · rename_i r0 rest hq
      simp only [Option.some.injEq] at h1
      simp [IOScheduler.selected, hq, h1]
    · simp at h1
  | sstf s =>
    simp only [IOScheduler.strategy, Option.some.injEq, Prod.mk.injEq] at h
    obtain ⟨h1, h2, h3⟩ := h
    subst h2
    have := SSTF.sstf_strategy_some s _ ct cd _ r (Prod.ext h1 (Prod.ext rfl rfl))
    exact ⟨this.1, this.2⟩
  | look s =>
    simp only [IOScheduler.strategy, Option.map_eq_some'] at h
    obtain ⟨⟨r0, s1, d0⟩, h1, h2⟩ := h
    simp only [Option.some.injEq, Prod.mk.injEq] at h2
    obtain ⟨h3, h4, _⟩ := h2
    subst h3 h4
    have := Look.look_strategy_some _ s s1 ct cd d0 r0 h1
    exact ⟨this.1, this.2⟩
  | clook s =>
    simp only [IOScheduler.strategy, Option.some.injEq, Prod.mk.injEq] at h
    obtain ⟨h1, h2, h3⟩ := h
    subst h2
    have := CLook.clook_strategy_some s _ ct cd _ r (Prod.ext h1 (Prod.ext rfl rfl))
    exact ⟨this.1, this.2⟩
  | flook s =>
    simp only [IOScheduler.strategy, Option.map_eq_some'] at h
    obtain ⟨⟨r0, s1, d0⟩, h1, h2⟩ := h
    simp only [Option.some.injEq, Prod.mk.injEq] at h2
    obtain ⟨h3, h4, _⟩ := h2
    subst h3 h4
    have := FLook.flook_strategy_some _ s s1 ct cd d0 r0 h1
    exact ⟨this.1, this.2⟩

theorem IOScheduler.strategy_none (p p1 : IOScheduler) (ct cd d1 : Int)
    (h : p.strategy ct cd = some (none, p1, d1)) : p1.pending = p.pending := by
  cases p with
  | fifo s =>
    simp only [IOScheduler.strategy, Option.some.injEq, Prod.mk.injEq] at h
    rw [← h.2.1]
  | sstf s =>
    simp only [IOScheduler.strategy, Option.some.injEq, Prod.mk.injEq] at h
    obtain ⟨h1, h2, h3⟩ := h
    subst h2
    exact SSTF.sstf_strategy_none s _ ct cd _ (Prod.ext h1 (Prod.ext rfl rfl))
  | look s =>
    simp only [IOScheduler.strategy, Option.map_eq_some'] at h
    obtain ⟨⟨r0, s1, d0⟩, _, h2⟩ := h
    simp at h2
  | clook s =>
    simp only [IOScheduler.strategy, Option.some.injEq, Prod.mk.injEq] at h
    obtain ⟨h1, h2, h3⟩ := h
    subst h2
    exact CLook.clook_strategy_none s _ ct cd _ (Prod.ext h1 (Prod.ext rfl rfl))
  | flook s =>
    simp only [IOScheduler.strategy, Option.map_eq_some'] at h
    obtain ⟨⟨r0, s1, d0⟩, _, h2⟩ := h
    simp at h2

theorem IOScheduler.pending_addRequest (p : IOScheduler) (r : Request) :
    (p.addRequest r).pending = p.pending ++ [r] := by
  cases p with
  | fifo s => rfl
  | sstf s => rfl
  | look s => rfl
  | clook s => rfl
  | flook s =>
    simp only [IOScheduler.addRequest, IOScheduler.pending, FLook.addRequest]
    split
    · rename_i h
      have : s.active = [] := by simpa using h.1
      simp [FLook.swap, this]
    · simp

theorem IOScheduler.selected_addRequest (p : IOScheduler) (r x : Request)
    (h : p.selected = some x) : (p.addRequest r).selected = some x := by
  cases p with
  | fifo s =>
    simp only [IOScheduler.selected] at h
    simp only [IOScheduler.addRequest, IOScheduler.selected, FIFO.addRequest]
    cases hq : s.IOQueue with
    | nil => simp [hq] at h
    | cons a rest => simpa [hq] using h
  | sstf s => exact atIndex_append _ r _ x h
  | look s => exact atIndex_append _ r _ x h
  | clook s => exact atIndex_append _ r _ x h
  | flook s =>
    simp only [IOScheduler.selected] at h
    have hl := (atIndex_some _ _ _ h).2.1
    have hne : s.active ≠ [] := by
      intro he
      simp [he] at hl
      have := (atIndex_some _ _ _ h).1
      omega
    simp only [IOScheduler.addRequest, IOScheduler.selected, FLook.addRequest]
    split
    · rename_i hc
      exact absurd (by simpa using hc.1) hne
    · exact h

theorem eraseIdx_of_atIndex (q : List Request) (i : Int) (r : Request)
    (h : atIndex q i = some r) :
    0 ≤ i ∧ i < (q.length : Int) ∧ q ≠ [] ∧ q[i.toNat]? = some r := by
  obtain ⟨h0, hl, hr⟩ := atIndex_some q i r h
  refine ⟨h0, hl, ?_, hr⟩
  intro he
  simp [he] at hl
  omega

theorem IOScheduler.removeRequest_selected (p : IOScheduler) (q : Request)
    (h : p.selected = some q) :
    ∃ (p1 : IOScheduler) (i : Nat), p.removeRequest = some p1 ∧ p.pending[i]? = some q ∧
      p1.pending = p.pending.eraseIdx i := by
  cases p with
  | fifo s =>
    simp only [IOScheduler.selected] at h
    cases hq : s.IOQueue with
    | nil => simp [hq] at h
    | cons a rest =>
      simp only [hq, List.head?_cons, Option.some.injEq] at h
      subst h
      refine ⟨.fifo s.removeRequest, 0, rfl, by simp [IOScheduler.pending, hq], ?_⟩
      simp [IOScheduler.pending, FIFO.removeRequest, hq]
  | sstf s =>
    obtain ⟨h0, hl, hne, hr⟩ := eraseIdx_of_atIndex _ _ _ h
    refine ⟨.sstf s.removeRequest, s.current_index.toNat, rfl, hr, ?_⟩
    simp [IOScheduler.pending, SSTF.removeRequest, h0, hl, hne]
  | look s =>
    obtain ⟨h0, hl, hne, hr⟩ := eraseIdx_of_atIndex _ _ _ h
    refine ⟨.look s.removeRequest, s.current_index.toNat, rfl, hr, ?_⟩
    simp [IOScheduler.pending, Look.removeRequest, h0, hl]
  | clook s =>
    obtain ⟨h0, hl, hne, hr⟩ := eraseIdx_of_atIndex _ _ _ h
    have hm : s.current_index ≠ -1 := by omega
    refine ⟨.clook { IOQueue := s.IOQueue.eraseIdx s.current_index.toNat, current_index := -1 },
      s.current_index.toNat, ?_, hr, rfl⟩
    simp [IOScheduler.removeRequest, CLook.removeRequest, h0, hl, hne, hm]
  | flook s =>
    obtain ⟨h0, hl, hne, hr⟩ := eraseIdx_of_atIndex _ _ _ h
    have hm : s.current_index ≠ -1 := by omega
    have hlt : s.current_index.toNat < s.active.length := by omega
    refine ⟨.flook { s with active := s.active.eraseIdx s.current_index.toNat },
      s.current_index.toNat, ?_, ?_, ?_⟩
    · simp [IOScheduler.removeRequest, FLook.removeRequest, h0, hl, hne, hm]
    · simp only [IOScheduler.pending]
      rw [List.getElem?_append_left hlt]
      exact hr
    · simp only [IOScheduler.pending]
      rw [List.eraseIdx_append_of_lt_length hlt]

theorem IOScheduler.removeRequest_sublist (p p1 : IOScheduler)
    (h : p.removeRequest = some p1) : p1.pending.Sublist p.pending := by
  cases p with
  | fifo s =>
    simp only [IOScheduler.removeRequest, Option.some.injEq] at h
    subst h
    simp only [IOScheduler.pending, FIFO.removeRequest]
    split
    · rename_i a rest hq
      rw [hq]; exact List.sublist_cons_self a rest
    · exact List.Sublist.refl _
  | sstf s =>
    simp only [IOScheduler.removeRequest, Option.some.injEq] at h
    subst h
    simp only [IOScheduler.pending, SSTF.removeRequest]
    split
    · exact List.eraseIdx_sublist _ _
    · exact List.Sublist.refl _
  | look s =>
    simp only [IOScheduler.removeRequest, Option.some.injEq] at h
    subst h
    simp only [IOScheduler.pending, Look.removeRequest]
    split
    · exact List.eraseIdx_sublist _ _
    · exact List.Sublist.refl _
  | clook s =>
    simp only [IOScheduler.removeRequest, Option.map_eq_some'] at h
    obtain ⟨s1, h1, h2⟩ := h
    subst h2
    simp only [IOScheduler.pending]
    unfold CLook.removeRequest at h1
    split at h1
    · split at h1
      · simp only [Option.some.injEq] at h1
        rw [← h1]
        exact List.eraseIdx_sublist _ _
      · exact Option.noConfusion h1
    · simp only [Option.some.injEq] at h1
      rw [← h1]
  | flook s =>
    simp only [IOScheduler.removeRequest, Option.map_eq_some'] at h
    obtain ⟨s1, h1, h2⟩ := h
    subst h2
    simp only [IOScheduler.pending]
    unfold FLook.removeRequest at h1
    split at h1
    · split at h1
      · simp only [Option.some.injEq] at h1
        rw [← h1]
        exact List.Sublist.append (List.eraseIdx_sublist _ _) (List.Sublist.refl _)
      · exact Option.noConfusion h1
    · simp only [Option.some.injEq] at h1
      rw [← h1]

theorem IOScheduler.isEmpty_iff (p : IOScheduler) : p.isEmpty = true ↔ p.pending = [] := by
  cases p <;>
    simp [IOScheduler.isEmpty, IOScheduler.pending, FIFO.isEmpty, SSTF.isEmpty, Look.isEmpty,
      CLook.isEmpty, FLook.isEmpty]

theorem IOScheduler.selected_mem (p : IOScheduler) (q : Request) (h : p.selected = some q) :
    q ∈ p.pending := by
  obtain ⟨_, i, _, hi, _⟩ := IOScheduler.removeRequest_selected p q h
  exact List.getElem?_mem hi

/-! ## Expected requests -/

theorem expectedFrom_append (l : List Operation) (op : Operation) :
    ∀ i : Nat, expectedFrom i (l ++ [op]) =
      expectedFrom i l ++ [(((i + l.length : Nat) : Int), op.track, op.time)] := by
  induction l with
  | nil => intro i; simp [expectedFrom]
  | cons a l ih =>
    intro i
    have h := ih (i + 1)
    have e : i + 1 + l.length = i + (l.length + 1) := by omega
    rw [e] at h
    show ((i : Int), a.track, a.time) :: expectedFrom (i + 1) (l ++ [op]) = _
    rw [h]
    rfl

theorem expectedFrom_length (l : List Operation) : ∀ i : Nat, (expectedFrom i l).length = l.length := by
  induction l with
  | nil => intro i; rfl
  | cons a l ih => intro i; simp [expectedFrom, ih (i + 1)]

theorem expectedFrom_lower (l : List Operation) :
    ∀ (i : Nat) (x : Int × Int × Int), x ∈ expectedFrom i l → (i : Int) ≤ x.1 := by
  induction l with
  | nil => intro i x hx; simp [expectedFrom] at hx
  | cons a l ih =>
    intro i x hx
    simp only [expectedFrom, List.mem_cons] at hx
    rcases hx with hx | hx
    · rw [hx]
    · have := ih (i + 1) x hx
      push_cast at this
      omega

theorem expectedFrom_sorted (l : List Operation) :
    ∀ i : Nat, (expectedFrom i l).Pairwise (fun a b => a.1 < b.1) := by
  induction l with
  | nil => intro i; simp [expectedFrom]
  | cons a l ih =>
    intro i
    simp only [expectedFrom, List.pairwise_cons]
    refine ⟨fun x hx => ?_, ih (i + 1)⟩
    have := expectedFrom_lower l (i + 1) x hx
    push_cast at this
    show (i : Int) < x.1
    omega

theorem expectedFrom_getElem? (l : List Operation) :
    ∀ (i j : Nat) (op : Operation), l[j]? = some op →
      (expectedFrom i l)[j]? = some (((i + j : Nat) : Int), op.track, op.time) := by
  induction l with
  | nil => intro i j op h; simp at h
  | cons a l ih =>
    intro i j op h
    cases j with
    | zero =>
      simp only [List.getElem?_cons_zero, Option.some.injEq] at h
      subst h
      simp [expectedFrom]
    | succ j =>
      simp only [List.getElem?_cons_succ] at h
      simp only [expectedFrom, List.getElem?_cons_succ]
      rw [ih (i + 1) j op h]
      have : i + 1 + j = i + (j + 1) := by omega
      rw [this]

/-! ### The ledger -/

theorem addCompleted_eq (l : List Request) (r : Request) :
    addCompleted l r =
      l.takeWhile (fun lhs => decide (lhs.requestNumber < r.requestNumber)) ++
        r :: l.dropWhile (fun lhs => decide (lhs.requestNumber < r.requestNumber)) := by
  unfold addCompleted lowerBound
  simp only
  congr 1
  · induction l with
    | nil => rfl
    | cons a l ih =>
      simp only [List.takeWhile_cons]
      split
      · simp [ih]
      · simp
  · congr 1
    induction l with
    | nil => rfl
    | cons a l ih =>
      simp only [List.takeWhile_cons, List.dropWhile_cons]
      split
      · simp [ih]
      · simp

theorem addCompleted_perm (l : List Request) (r : Request) :
    List.Perm (addCompleted l r) (r :: l) := by
  rw [addCompleted_eq]
  refine List.perm_middle.trans (List.Perm.cons r ?_)
  rw [List.takeWhile_append_dropWhile]

theorem mem_addCompleted (l : List Request) (r x : Request) :
    x ∈ addCompleted l r ↔ x = r ∨ x ∈ l := by
  rw [(addCompleted_perm l r).mem_iff, List.mem_cons]

theorem dropWhile_lower (l : List Int) (v : Int) (hs : l.Pairwise (fun a b => a < b)) :
    ∀ x ∈ l.dropWhile (fun a => decide (a < v)), v ≤ x := by
  induction l with
  | nil => intro x hx; simp at hx
  | cons a l ih =>
    intro x hx
    rw [List.pairwise_cons] at hs
    simp only [List.dropWhile_cons] at hx
    split at hx
    · exact ih hs.2 x hx
    · rename_i hlt
      simp only [decide_eq_true_eq, not_lt] at hlt
      rcases List.mem_cons.mp hx with hx | hx
      · rw [hx]; exact hlt
      · have := hs.1 x hx
        omega

theorem addCompleted_sorted (l : List Request) (r : Request)
    (hs : (l.map Request.requestNumber).Pairwise (fun a b => a < b))
    (hnew : r.requestNumber ∉ l.map Request.requestNumber) :
    ((addCompleted l r).map Request.requestNumber).Pairwise (fun a b => a < b) := by
  have hmap : (addCompleted l r).map Request.requestNumber =
      (l.map Request.requestNumber).takeWhile (fun a => decide (a < r.requestNumber)) ++
        r.requestNumber ::
          (l.map Request.requestNumber).dropWhile (fun a => decide (a < r.requestNumber)) := by
    rw [addCompleted_eq]
    simp only [List.map_append, List.map_cons]
    congr 1
    · induction l with
      | nil => rfl
      | cons a l ih =>
        simp only [List.takeWhile_cons, List.map_cons]
        split
        · simp only [List.map_cons]
          rw [ih (List.Pairwise.of_cons hs) (fun h => hnew (List.mem_cons_of_mem _ h))]
        · rfl
    · congr 1
      induction l with
      | nil => rfl
      | cons a l ih =>
        simp only [List.dropWhile_cons, List.map_cons]
        split
        · rw [ih (List.Pairwise.of_cons hs) (fun h => hnew (List.mem_cons_of_mem _ h))]
        · rfl
  rw [hmap]
  generalize l.map Request.requestNumber = ids at hs hnew
  rw [List.pairwise_append]
  refine ⟨hs.sublist (List.takeWhile_sublist _), ?_, ?_⟩
  · rw [List.pairwise_cons]
    refine ⟨fun x hx => ?_, hs.sublist (List.dropWhile_sublist _)⟩
    have h1 := dropWhile_lower ids r.requestNumber hs x hx
    have h2 : x ≠ r.requestNumber := by
      intro he
      exact hnew (he ▸ (List.dropWhile_sublist _).subset hx)
    omega
  · intro a ha b hb
    have ha1 : a < r.requestNumber := by
      have := List.mem_takeWhile_imp ha
      simpa using this
    rcases List.mem_cons.mp hb with hb | hb
    · rw [hb]; exact ha1
    · have := dropWhile_lower ids r.requestNumber hs b hb
      omega

/-! ## The ledger accounts for the injected events -/

theorem perm_cons_eraseIdx (l : List Request) :
    ∀ (i : Nat) (q : Request), l[i]? = some q → List.Perm l (q :: l.eraseIdx i) := by
  induction l with
  | nil => intro i q h; simp at h
  | cons a l ih =>
    intro i q h
    cases i with
    | zero =>
      simp only [List.getElem?_cons_zero, Option.some.injEq] at h
      subst h
      simp
    | succ i =>
      simp only [List.getElem?_cons_succ] at h
      simp only [List.eraseIdx_cons_succ]
      exact (List.Perm.cons a (ih i q h)).trans (List.Perm.swap q a _)

theorem map_core_ids (l : List Request) :
    (l.map Request.core).map (fun c => c.1) = l.map Request.requestNumber := by
  simp [Request.core, List.map_map, Function.comp_def]

theorem LedgerInv_ids_nodup (trace : List Operation) (s : Sim) (h : s.LedgerInv trace) :
    ((s.scheduler.pending ++ s.completedRequests).map Request.requestNumber).Nodup := by
  obtain ⟨⟨done, _, _, hperm⟩, _, _⟩ := h
  have h1 : ((expectedFrom 0 done).map (fun c => c.1)).Nodup := by
    have := expectedFrom_sorted done 0
    rw [List.Nodup, List.pairwise_map]
    exact this.imp (fun h => ne_of_lt h)
  have h2 := (hperm.map (fun c => c.1)).nodup_iff.mpr h1
  rw [map_core_ids] at h2
  exact h2

theorem LedgerInv_init (p : Policy) (trace : List Operation) :
    (Sim.init p trace).LedgerInv trace := by
  refine ⟨⟨[], by simp [Sim.init], by simp [Sim.init], ?_⟩, by simp [Sim.init], ?_⟩
  · cases p <;> simp [Sim.init, Policy.scheduler, IOScheduler.pending, expectedFrom]
  · intro r hr
    simp [Sim.init] at hr

theorem LedgerInv_processArrivals (trace : List Operation) (s : Sim) (h : s.LedgerInv trace) :
    (processArrivals s).LedgerInv trace := by
  rcases processArrivals_cases s with ⟨he, _⟩ | ⟨op, rest, hop, ht, he⟩
  · rw [he]; exact h
  · rw [he]
    obtain ⟨⟨done, htr, hn, hperm⟩, hsort, hsel⟩ := h
    refine ⟨⟨done ++ [op], ?_, ?_, ?_⟩, hsort, ?_⟩
    · simp only [htr, hop, List.append_assoc, List.singleton_append]
    · simp only [hn, List.length_append, List.length_singleton]
      push_cast
      rfl
    · simp only [IOScheduler.pending_addRequest, List.map_append, List.map_cons, List.map_nil,
        expectedFrom_append, Nat.zero_add]
      have hc : (Request.create s.request_number op.track s.current_time).core
          = ((done.length : Int), op.track, op.time) := by
        simp [Request.core, Request.create, hn, ht]
      rw [hc, List.append_assoc]
      simp only [List.map_append] at hperm
      refine (List.Perm.append_left _ List.perm_append_comm).trans ?_
      rw [← List.append_assoc]
      exact List.Perm.append_right _ hperm
    · intro r hr
      obtain ⟨q, hq, hqc⟩ := hsel r hr
      exact ⟨q, IOScheduler.selected_addRequest _ _ q hq, hqc⟩

theorem LedgerInv_processCompletedRequests (trace : List Operation) (s s2 : Sim)
    (h : s.LedgerInv trace) (h2 : processCompletedRequests s = some s2) :
    s2.LedgerInv trace := by
  rcases processCompletedRequests_cases s s2 h2 with ⟨he, _⟩ | ⟨r, sch, hr, _, hrm, he⟩
  · rw [he]; exact h
  · have hnd := LedgerInv_ids_nodup trace s h
    obtain ⟨⟨done, htr, hn, hperm⟩, hsort, hsel⟩ := h
    obtain ⟨q, hq, hqc⟩ := hsel r hr
    obtain ⟨p1, i, hp1, hi, hpend⟩ := IOScheduler.removeRequest_selected _ q hq
    rw [hrm] at hp1
    cases hp1
    have hid : q.requestNumber = r.requestNumber := by
      have := congrArg (fun c => c.1) hqc
      simpa [Request.core] using this
    rw [he]
    refine ⟨⟨done, htr, hn, ?_⟩, ?_, ?_⟩
    · simp only [List.map_append] at hperm ⊢
      refine List.Perm.trans ?_ hperm
      rw [hpend]
      have h1 : List.Perm ((addCompleted s.completedRequests { r with endTime := s.current_time }).map
          Request.core) (q.core :: s.completedRequests.map Request.core) := by
        have := (addCompleted_perm s.completedRequests { r with endTime := s.current_time }).map
          Request.core
        rw [List.map_cons] at this
        have hc : ({ r with endTime := s.current_time } : Request).core = q.core := by
          rw [hqc]; rfl
        rw [hc] at this
        exact this
      have h2 : List.Perm (s.scheduler.pending.map Request.core)
          (q.core :: (s.scheduler.pending.eraseIdx i).map Request.core) := by
        have := (perm_cons_eraseIdx _ i q hi).map Request.core
        rwa [List.map_cons] at this
      refine (List.Perm.append_left _ h1).trans ?_
      refine List.perm_middle.trans ?_
      exact (List.Perm.append_right _ h2).symm
    · apply addCompleted_sorted _ _ hsort
      intro hmem
      have hmem' : r.requestNumber ∈ s.completedRequests.map Request.requestNumber := hmem
      rw [List.map_append, List.nodup_append] at hnd
      have hqm : q.requestNumber ∈ s.scheduler.pending.map Request.requestNumber :=
        List.mem_map_of_mem _ (List.getElem?_mem hi)
      rw [hid] at hqm
      exact hnd.2.2 hqm hmem'
    · intro r1 hr1
      simp at hr1

theorem LedgerInv_fetchNextRequest (trace : List Operation) (s s3 : Sim)
    (h : s.LedgerInv trace) (h3 : fetchNextRequest s = some s3) :
    s3.LedgerInv trace := by
  obtain ⟨⟨done, htr, hn, hperm⟩, hsort, hsel⟩ := h
  rcases fetchNextRequest_cases s s3 h3 with ⟨he, _⟩ | ⟨r, sch, dir, hcr, _, hst, he⟩ |
    ⟨sch, dir, hcr, _, hst, he⟩
  · rw [he]; exact ⟨⟨done, htr, hn, hperm⟩, hsort, hsel⟩
  · obtain ⟨hp, hs⟩ := IOScheduler.strategy_some _ _ _ _ _ _ hst
    rw [he]
    refine ⟨⟨done, htr, hn, by simpa only [hp] using hperm⟩, hsort, ?_⟩
    intro r1 hr1
    simp only [Option.some.injEq] at hr1
    subst hr1
    exact ⟨r, hs, rfl⟩
  · have hp := IOScheduler.strategy_none _ _ _ _ _ hst
    have hf := changeDirection_frame { s with
        scheduler := sch, current_direction := dir,
        log := s.log ++ [Event.fallback s.current_time] }
    rw [he]
    refine ⟨⟨done, ?_, ?_, ?_⟩, ?_, ?_⟩
    · rw [hf.1]; exact htr
    · rw [hf.2.2.2.2.2]; exact hn
    · rw [hf.2.2.2.1, hf.2.2.2.2.1]
      simpa only [hp] using hperm
    · rw [hf.2.2.2.2.1]; exact hsort
    · intro r1 hr1
      rw [hf.2.2.1] at hr1
      simp only at hr1
      rw [hcr] at hr1
      exact Option.noConfusion hr1

theorem LedgerInv_frame (trace : List Operation) (s s1 : Sim) (h : s.LedgerInv trace)
    (h1 : s1.operations = s.operations) (h2 : s1.scheduler = s.scheduler)
    (h3 : s1.current_request = s.current_request)
    (h4 : s1.completedRequests = s.completedRequests)
    (h5 : s1.request_number = s.request_number) : s1.LedgerInv trace := by
  unfold Sim.LedgerInv at *
  rw [h1, h2, h3, h4, h5]
  exact h

theorem LedgerInv_iteration (trace : List Operation) (s s4 : Sim) (b : Bool)
    (h : s.LedgerInv trace) (hit : iteration s = some (b, s4)) : s4.LedgerInv trace := by
  obtain ⟨s2, s3, h2, h3, h4, _⟩ := iteration_cases s s4 b hit
  have i3 := LedgerInv_fetchNextRequest trace s2 s3
    (LedgerInv_processCompletedRequests trace _ s2 (LedgerInv_processArrivals trace s h) h2) h3
  have hf := simulateHeadMovement_frame s3
  rw [h4]
  exact LedgerInv_frame trace s3 _ i3 hf.1 hf.2.2.2.1 hf.2.2.1 hf.2.2.2.2.1 hf.2.2.2.2.2.1

theorem LedgerInv_tick (trace : List Operation) (s : Sim) (h : s.LedgerInv trace) :
    (tick s).LedgerInv trace :=
  LedgerInv_frame trace s _ h rfl rfl rfl rfl rfl

/-- An invariant of the passes holds in every state `simulate` reports. -/
theorem simulate_invariant (I : Sim → Prop)
    (hstep : ∀ s b s4, I s → iteration s = some (b, s4) → I s4)
    (htick : ∀ s, I s → I (tick s)) (n : Nat) :
    ∀ s b s1, I s → simulate n s = some (b, s1) → I s1 := by
  induction n with
  | zero =>
    intro s b s1 hI h
    simp only [simulate, Option.some.injEq, Prod.mk.injEq] at h
    rw [← h.2]; exact hI
  | succ n ih =>
    intro s b s1 hI h
    unfold simulate at h
    split at h
    · exact Option.noConfusion h
    · rename_i s4 hit
      simp only [Option.some.injEq, Prod.mk.injEq] at h
      rw [← h.2]
      exact hstep s true s4 hI hit
    · rename_i s4 hit
      exact ih (tick s4) b s1 (htick s4 (hstep s false s4 hI hit)) h

theorem simulate_exit (n : Nat) :
    ∀ s s1, simulate n s = some (true, s1) → checkExitCondition s1 = true := by
  induction n with
  | zero =>
    intro s s1 h
    simp [simulate] at h
  | succ n ih =>
    intro s s1 h
    unfold simulate at h
    split at h
    · exact Option.noConfusion h
    · rename_i s4 hit
      simp only [Option.some.injEq, Prod.mk.injEq, true_and] at h
      obtain ⟨_, _, _, _, _, hb⟩ := iteration_cases s s4 true hit
      rw [← h]; exact hb.symm
    · rename_i s4 hit
      exact ih (tick s4) s1 h

theorem simulate_LedgerInv (p : Policy) (trace : List Operation) (n : Nat) (b : Bool) (s : Sim)
    (h : simulate n (Sim.init p trace) = some (b, s)) : s.LedgerInv trace :=
  simulate_invariant (fun s => s.LedgerInv trace)
    (fun s b s4 hI hit => LedgerInv_iteration trace s s4 b hI hit)
    (fun s hI => LedgerInv_tick trace s hI) n _ b s (LedgerInv_init p trace) h

theorem ledger_cores_at_exit (p : Policy) (trace : List Operation) (n : Nat) (s : Sim)
    (h : simulate n (Sim.init p trace) = some (true, s)) :
    s.request_number = (trace.length : Int) ∧
    s.completedRequests.map Request.core = expectedFrom 0 trace := by
  have hex := simulate_exit n _ s h
  unfold checkExitCondition at hex
  simp only [Bool.and_eq_true] at hex
  obtain ⟨⟨_, hemp⟩, hops⟩ := hex
  have hpend := (IOScheduler.isEmpty_iff _).mp hemp
  have hops' : s.operations = [] := by simpa using hops
  obtain ⟨⟨done, htr, hn, hperm⟩, hsort, _⟩ := simulate_LedgerInv p trace n true s h
  rw [hops', List.append_nil] at htr
  subst htr
  refine ⟨hn, ?_⟩
  rw [hpend, List.nil_append] at hperm
  haveI : IsAntisymm (Int × Int × Int) (fun a b => a.1 < b.1) :=
    ⟨fun a b h1 h2 => absurd h1 (not_lt_of_gt h2)⟩
  refine List.eq_of_perm_of_sorted hperm ?_ (expectedFrom_sorted trace 0)
  have : ((s.completedRequests.map Request.core).map (fun c => c.1)).Pairwise
      (fun a b => a < b) := by
    rw [map_core_ids]; exact hsort
  rw [List.pairwise_map] at this
  exact this

/-- Claim C3: completeness of the ledger at exit.  For each policy and every
trace `ops`, if the loop breaks after some number of passes, leaving state `s`,
then the ledger has one record per trace event: its length is the number of
events and equals `request_number` (the divisor `printDetails` uses), the
request numbers in ledger order are 0, 1, ..., N-1, and the record at
position `i`, which has number `i`, carries the track of the `i`-th event and
that event's time as its arrival time. -/
theorem simulate_ledger_complete (p : Policy) (ops : List Operation) (n : Nat) (s : Sim)
    (h : simulate n (Sim.init p ops) = some (true, s)) :
    s.completedRequests.length = ops.length ∧
    s.request_number = (ops.length : Int) ∧
    s.completedRequests.map Request.requestNumber
      = (List.range ops.length).map Int.ofNat ∧
    ∀ (i : Nat) (op : Operation), ops[i]? = some op →
      ∃ r, s.completedRequests[i]? = some r ∧ r.requestNumber = (i : Int) ∧
        r.track = op.track ∧ r.arrivalTime = op.time := by
  obtain ⟨hn, hc⟩ := ledger_cores_at_exit p ops n s h
  have hlen : s.completedRequests.length = ops.length := by
    have := congrArg List.length hc
    simpa [expectedFrom_length] using this
  have hidx : ∀ (i : Nat) (op : Operation), ops[i]? = some op →
      ∃ r, s.completedRequests[i]? = some r ∧ r.requestNumber = (i : Int) ∧
        r.track = op.track ∧ r.arrivalTime = op.time := by
    intro i op hi
    have h1 := expectedFrom_getElem? ops 0 i op hi
    rw [← hc, List.getElem?_map] at h1
    cases hr : s.completedRequests[i]? with
    | none => simp [hr] at h1
    | some r =>
      simp only [hr, Option.map_some', Option.some.injEq, Request.core, Prod.mk.injEq,
        Nat.zero_add] at h1
      exact ⟨r, rfl, h1.1, h1.2.1, h1.2.2⟩
  refine ⟨hlen, hn, ?_, hidx⟩
  apply List.ext_getElem?
  intro i
  by_cases hi : i < ops.length
  · obtain ⟨r, hr, hid, _⟩ := hidx i (ops.get ⟨i, hi⟩) (by simp [List.getElem?_eq_getElem hi])
    rw [List.getElem?_map, List.getElem?_map, hr, List.getElem?_range hi]
    simp only [Option.map_some', hid, Int.ofNat_eq_coe]
  · have h1 : s.completedRequests[i]? = none := by
      rw [List.getElem?_eq_none_iff]; omega
    have h2 : (List.range ops.length)[i]? = none := by
      rw [List.getElem?_eq_none_iff]; simp; omega
    rw [List.getElem?_map, List.getElem?_map, h1, h2]
    rfl

/-- The hypothesis of `simulate_ledger_complete` holds for SSTF on the trace
(0,2),(1,1): the loop breaks in its fourth pass. -/
theorem simulate_ledger_complete_witness :
    ∃ s, simulate 4 (Sim.init Policy.S [⟨0, 2⟩, ⟨1, 1⟩]) = some (true, s) ∧
      (s.completedRequests.length = [(⟨0, 2⟩ : Operation), ⟨1, 1⟩].length ∧
      s.request_number = (([(⟨0, 2⟩ : Operation), ⟨1, 1⟩].length : Nat) : Int) ∧
      s.completedRequests.map Request.requestNumber
        = (List.range [(⟨0, 2⟩ : Operation), ⟨1, 1⟩].length).map Int.ofNat ∧
      ∀ (i : Nat) (op : Operation), [(⟨0, 2⟩ : Operation), ⟨1, 1⟩][i]? = some op →
        ∃ r, s.completedRequests[i]? = some r ∧ r.requestNumber = (i : Int) ∧
          r.track = op.track ∧ r.arrivalTime = op.time) :=
  ⟨_, rfl, simulate_ledger_complete Policy.S [⟨0, 2⟩, ⟨1, 1⟩] 4 _ rfl⟩

/-! ## Time stamps -/

/-- An invariant of the top of the loop that a pass re-establishes up to the
clock tick holds in every state `simulate` reports: `I` at the top of a pass,
`Q` at the end of the body of a pass. -/
theorem simulate_invariant_tick (I Q : Sim → Prop)
    (hstep : ∀ s b s4, I s → iteration s = some (b, s4) → Q s4)
    (htick : ∀ s, Q s → I (tick s)) (n : Nat) :
    ∀ s b s1, I s → simulate n s = some (b, s1) → (b = false → I s1) ∧ (b = true → Q s1) := by
  induction n with
  | zero =>
    intro s b s1 hI h
    simp only [simulate, Option.some.injEq, Prod.mk.injEq] at h
    rw [← h.1, ← h.2]
    exact ⟨fun _ => hI, fun hb => Bool.noConfusion hb⟩
  | succ n ih =>
    intro s b s1 hI h
    unfold simulate at h
    split at h
    · exact Option.noConfusion h
    · rename_i s4 hit
      simp only [Option.some.injEq, Prod.mk.injEq] at h
      rw [← h.1, ← h.2]
      exact ⟨fun hb => Bool.noConfusion hb, fun _ => hstep s true s4 hI hit⟩
    · rename_i s4 hit
      exact ih (tick s4) b s1 (htick s4 (hstep s false s4 hI hit)) h

/-- The same for the passes made while the clock, which starts from 0 on and
grows by at most one in a pass, cannot leave the range of `int`: the passes
made from a clock `c` with `c + n ≤ INT_MAX`. -/
theorem simulate_invariant_bounded (I Q : Sim → Prop)
    (hstep : ∀ s b s4, I s → 0 ≤ s.current_time → s.current_time < 2147483647 →
      iteration s = some (b, s4) → Q s4)
    (htick : ∀ s, Q s → I (tick s)) (n : Nat) :
    ∀ s b s1, I s → 0 ≤ s.current_time → s.current_time + n ≤ 2147483647 →
      simulate n s = some (b, s1) → (b = false → I s1) ∧ (b = true → Q s1) := by
  induction n with
  | zero =>
    intro s b s1 hI _ _ h
    simp only [simulate, Option.some.injEq, Prod.mk.injEq] at h
    rw [← h.1, ← h.2]
    exact ⟨fun _ => hI, fun hb => Bool.noConfusion hb⟩
  | succ n ih =>
    intro s b s1 hI h0 hn h
    push_cast at hn
    unfold simulate at h
    split at h
    · exact Option.noConfusion h
    · rename_i s4 hit
      simp only [Option.some.injEq, Prod.mk.injEq] at h
      rw [← h.1, ← h.2]
      exact ⟨fun hb => Bool.noConfusion hb, fun _ => hstep s true s4 hI h0 (by omega) hit⟩
    · rename_i s4 hit
      have hc := (iteration_operations_time s s4 false hit).2.1
      have hw := wrapInt_of_range (s.current_time - 1) (by omega) (by omega)
      rw [hw] at hc
      have ht : (tick s4).current_time = s4.current_time + 1 := by
        simp only [tick]
        exact wrapInt_of_range _ (by omega) (by omega)
      exact ih (tick s4) b s1 (htick s4 (hstep s false s4 hI h0 (by omega) hit))
        (by omega) (by omega) h

theorem TimeInv_init (p : Policy) (trace : List Operation) :
    (Sim.init p trace).TimeInv (Sim.init p trace).current_time := by
  refine ⟨?_, ?_, ?_⟩
  · intro q hq
    cases p <;> simp [Sim.init, Policy.scheduler, IOScheduler.pending] at hq
  · intro r hr
    simp [Sim.init] at hr
  · intro r hr
    simp [Sim.init] at hr

theorem TimeInv_mono (c c1 : Int) (s : Sim) (h : s.TimeInv c) (hc : c ≤ c1) : s.TimeInv c1 := by
  obtain ⟨h1, h2, h3⟩ := h
  refine ⟨fun q hq => le_trans (h1 q hq) hc, fun r hr => ?_, h3⟩
  exact ⟨(h2 r hr).1, le_trans (h2 r hr).2 hc⟩

theorem TimeInv_processArrivals (s : Sim) (h : s.TimeInv s.current_time) :
    (processArrivals s).TimeInv s.current_time := by
  rcases processArrivals_cases s with ⟨he, _⟩ | ⟨op, rest, _, _, he⟩
  · rw [he]; exact h
  · rw [he]
    obtain ⟨h1, h2, h3⟩ := h
    refine ⟨?_, h2, h3⟩
    intro q hq
    simp only [IOScheduler.pending_addRequest, List.mem_append, List.mem_singleton] at hq
    rcases hq with hq | hq
    · exact h1 q hq
    · rw [hq]; simp [Request.create]

theorem TimeInv_processCompletedRequests (s s2 : Sim) (h : s.TimeInv s.current_time)
    (h2 : processCompletedRequests s = some s2) : s2.TimeInv s.current_time := by
  rcases processCompletedRequests_cases s s2 h2 with ⟨he, _⟩ | ⟨r, sch, hr, _, hrm, he⟩
  · rw [he]; exact h
  · rw [he]
    obtain ⟨h1, h2, h3⟩ := h
    refine ⟨?_, ?_, ?_⟩
    · intro q hq
      exact h1 q ((IOScheduler.removeRequest_sublist _ _ hrm).subset hq)
    · intro r1 hr1
      simp at hr1
    · intro r1 hr1
      simp only [mem_addCompleted] at hr1
      rcases hr1 with hr1 | hr1
      · rw [hr1]
        exact h2 r hr
      · exact h3 r1 hr1

theorem TimeInv_fetchNextRequest (s s3 : Sim) (h : s.TimeInv s.current_time)
    (hc0 : 0 ≤ s.current_time) (hc1 : s.current_time < 2147483647)
    (h3 : fetchNextRequest s = some s3) :
    s3.TimeInv s.current_time ∧ s.current_time ≤ s3.current_time + 1 ∧
      s3.current_time ≤ s.current_time := by
  obtain ⟨h1, h2, h3c⟩ := h
  have hw := wrapInt_of_range (s.current_time - 1) (by omega) (by omega)
  rcases fetchNextRequest_cases s s3 h3 with ⟨he, _⟩ | ⟨r, sch, dir, hcr, _, hst, he⟩ |
    ⟨sch, dir, hcr, _, hst, he⟩
  · rw [he]; exact ⟨⟨h1, h2, h3c⟩, by omega, le_refl _⟩
  · obtain ⟨hp, hs⟩ := IOScheduler.strategy_some _ _ _ _ _ _ hst
    have hmem : r ∈ s.scheduler.pending := hp ▸ IOScheduler.selected_mem _ r hs
    rw [he]
    refine ⟨⟨?_, ?_, h3c⟩, ?_, ?_⟩
    · intro q hq
      simp only [hp] at hq
      exact h1 q hq
    · intro r1 hr1
      simp only [Option.some.injEq] at hr1
      subst hr1
      exact ⟨h1 r hmem, le_refl _⟩
    · simp only [hw]; split <;> omega
    · simp only [hw]; split <;> omega
  · have hp := IOScheduler.strategy_none _ _ _ _ _ hst
    have hf := changeDirection_frame { s with
        scheduler := sch, current_direction := dir,
        log := s.log ++ [Event.fallback s.current_time] }
    rw [he]
    refine ⟨⟨?_, ?_, ?_⟩, ?_, ?_⟩
    · rw [hf.2.2.2.1]
      intro q hq
      simp only [hp] at hq
      exact h1 q hq
    · intro r1 hr1
      rw [hf.2.2.1] at hr1
      simp only at hr1
      rw [hcr] at hr1
      exact Option.noConfusion hr1
    · rw [hf.2.2.2.2.1]; exact h3c
    · rw [hf.2.1]; simp
    · rw [hf.2.1]

theorem TimeInv_frame (c : Int) (s s1 : Sim) (h : s.TimeInv c)
    (h2 : s1.scheduler = s.scheduler) (h3 : s1.current_request = s.current_request)
    (h4 : s1.completedRequests = s.completedRequests) : s1.TimeInv c := by
  unfold Sim.TimeInv at *
  rw [h2, h3, h4]
  exact h

/-- A pass of the loop keeps the time stamps ordered: the invariant holds
again once the clock has ticked. -/
theorem TimeInv_iteration (s s4 : Sim) (b : Bool) (h : s.TimeInv s.current_time)
    (hc0 : 0 ≤ s.current_time) (hc1 : s.current_time < 2147483647)
    (hit : iteration s = some (b, s4)) : (tick s4).TimeInv (tick s4).current_time := by
  obtain ⟨s2, s3, h2, h3, h4, _⟩ := iteration_cases s s4 b hit
  have e1 : (processArrivals s).current_time = s.current_time := by
    rcases processArrivals_cases s with ⟨h, _⟩ | ⟨op, rest, _, _, h⟩ <;> rw [h]
  have e2 : s2.current_time = s.current_time := by
    rw [← e1]
    rcases processCompletedRequests_cases _ s2 h2 with ⟨h, _⟩ | ⟨r, sch, _, _, _, h⟩ <;> rw [h]
  have i1 := TimeInv_processArrivals s h
  rw [← e1] at i1
  have i2 := TimeInv_processCompletedRequests _ s2 i1 h2
  rw [e1, ← e2] at i2
  obtain ⟨i3, hd1, hd2⟩ := TimeInv_fetchNextRequest s2 s3 i2 (by omega) (by omega) h3
  have hf := simulateHeadMovement_frame s3
  rw [← h4] at hf
  have i4 : s4.TimeInv s2.current_time := TimeInv_frame _ s3 s4 i3 hf.2.2.2.1 hf.2.2.1 hf.2.2.2.2.1
  have i5 : (tick s4).TimeInv s2.current_time := TimeInv_frame _ s4 _ i4 rfl rfl rfl
  apply TimeInv_mono _ _ _ i5
  simp only [tick]
  rw [hf.2.1, wrapInt_of_range _ (by omega) (by omega)]
  exact hd1

/-- The time stamps of the ledger are ordered in every state reported by a
run of at most `INT_MAX` passes. -/
theorem simulate_ledger_times (p : Policy) (trace : List Operation) (n : Nat) (b : Bool)
    (s : Sim) (hn : n ≤ 2147483647) (h : simulate n (Sim.init p trace) = some (b, s)) :
    ∀ r ∈ s.completedRequests, r.arrivalTime ≤ r.startTime ∧ r.startTime ≤ r.endTime := by
  have := simulate_invariant_bounded (fun s => s.TimeInv s.current_time)
    (fun s => (tick s).TimeInv (tick s).current_time)
    (fun s b s4 hI h0 h1 hit => TimeInv_iteration s s4 b hI h0 h1 hit) (fun s hQ => hQ) n _ b s
    (TimeInv_init p trace) (le_refl _) (by simp only [Sim.init]; omega) h
  cases b with
  | false => exact (this.1 rfl).2.2
  | true => exact (this.2 rfl).2.2

/-- Claim C4 (amended): ordered time stamps.  For each policy and every trace,
in every state the run passes through at the top of one of its first
`INT_MAX` passes, and in the state it exits with if it exits within them,
every record of the ledger satisfies `arrivalTime ≤ startTime ≤ endTime`.
(The clock starts at 0 and grows by at most one in a pass, so within these
passes `current_time++` does not overflow.  The ledger changes only in
`processCompletedRequests`; the zero-seek path, where `fetchNextRequest`
decrements the clock before the loop increments it again, is one of the cases
of `TimeInv_fetchNextRequest`.) -/
theorem completed_times_ordered (p : Policy) (trace : List Operation) (n : Nat) (b : Bool)
    (s : Sim) (hn : n ≤ 2147483647) (h : simulate n (Sim.init p trace) = some (b, s)) :
    ∀ r ∈ s.completedRequests, r.arrivalTime ≤ r.startTime ∧ r.startTime ≤ r.endTime := by
  have := simulate_invariant_bounded (fun s => s.TimeInv s.current_time)
    (fun s => (tick s).TimeInv (tick s).current_time)
    (fun s b s4 hI h0 h1 hit => TimeInv_iteration s s4 b hI h0 h1 hit) (fun s hQ => hQ) n _ b s
    (TimeInv_init p trace) (le_refl _) (by simp only [Sim.init]; omega) h
  cases b with
  | false => exact (this.1 rfl).2.2
  | true => exact (this.2 rfl).2.2

/-- The hypotheses of `completed_times_ordered` hold for FIFO on the trace
(0,0),(0,5), whose first request is served on the zero-seek path: the loop
breaks in its seventh pass with two records in the ledger. -/
theorem completed_times_ordered_witness :
    7 ≤ 2147483647 ∧
    ∃ s, simulate 7 (Sim.init Policy.N [⟨0, 0⟩, ⟨0, 5⟩]) = some (true, s) ∧
      s.completedRequests.length = 2 ∧
      ∀ r ∈ s.completedRequests, r.arrivalTime ≤ r.startTime ∧ r.startTime ≤ r.endTime :=
  ⟨by decide, _, rfl, rfl,
    completed_times_ordered Policy.N [⟨0, 0⟩, ⟨0, 5⟩] 7 true _ (by decide) rfl⟩

/-! ## Seek time -/

theorem issuedOf_append_add (log : List Event) (t : Int) (r : Request) :
    issuedOf (log ++ [Event.add t r]) = issuedOf log := by
  simp [issuedOf, List.filterMap_append, Event.issued]

theorem issuedOf_append_finish (log : List Event) (t : Int) (r : Request) :
    issuedOf (log ++ [Event.finish t r]) = issuedOf log := by
  simp [issuedOf, List.filterMap_append, Event.issued]

theorem issuedOf_append_fallback (log : List Event) (t : Int) :
    issuedOf (log ++ [Event.fallback t]) = issuedOf log := by
  simp [issuedOf, List.filterMap_append, Event.issued]

theorem issuedOf_append_issue (log : List Event) (t : Int) (r : Request) (h d : Int)
    (pend : List Request) :
    issuedOf (log ++ [Event.issue t r h d pend]) = issuedOf log ++ [(r, h)] := by
  simp [issuedOf, List.filterMap_append, Event.issued]

theorem mem_issuedOf (log : List Event) (r : Request) (h : Int) :
    (r, h) ∈ issuedOf log ↔ ∃ t d pend, Event.issue t r h d pend ∈ log := by
  unfold issuedOf
  rw [List.mem_filterMap]
  constructor
  · rintro ⟨e, he, hi⟩
    cases e with
    | issue t r1 h1 d pend =>
      simp only [Event.issued, Option.some.injEq, Prod.mk.injEq] at hi
      obtain ⟨h1, h2⟩ := hi
      subst h1 h2
      exact ⟨t, d, pend, he⟩
    | add t r1 => simp [Event.issued] at hi
    | finish t r1 => simp [Event.issued] at hi
    | fallback t => simp [Event.issued] at hi
  · rintro ⟨t, d, pend, he⟩
    exact ⟨_, he, rfl⟩

theorem abs_step_toward (t h : Int) (hne : t ≠ h) :
    |t - (h + (if t > h then 1 else -1))| = |t - h| - 1 := by
  by_cases h1 : t > h
  · have a1 : |t - (h + 1)| = t - (h + 1) := abs_of_nonneg (by omega)
    have a2 : |t - h| = t - h := abs_of_nonneg (by omega)
    rw [if_pos h1, a1, a2]
    omega
  · have a1 : |t - (h + -1)| = -(t - (h + -1)) := abs_of_nonpos (by omega)
    have a2 : |t - h| = -(t - h) := abs_of_nonpos (by omega)
    rw [if_neg h1, a1, a2]
    omega

theorem SeekInv_init (p : Policy) (trace : List Operation) (c : Int) :
    (Sim.init p trace).SeekInv c := by
  refine ⟨by simp [Sim.init, issuedOf], ?_, ?_⟩
  · intro r hr
    simp [Sim.init] at hr
  · intro r hr
    simp [Sim.init] at hr

theorem SeekInv_processArrivals (c : Int) (s : Sim) (h : s.SeekInv c) :
    (processArrivals s).SeekInv c := by
  rcases processArrivals_cases s with ⟨he, _⟩ | ⟨op, rest, _, _, he⟩
  · rw [he]; exact h
  · rw [he]
    unfold Sim.SeekInv at *
    simp only [issuedOf_append_add]
    exact h

theorem SeekInv_processCompletedRequests (s s2 : Sim) (h : s.SeekInv s.current_time)
    (h2 : processCompletedRequests s = some s2) :
    s2.SeekInv s.current_time ∧ s2.current_time = s.current_time ∧
      ∀ r, s2.current_request = some r → r.track ≠ s2.current_track := by
  rcases processCompletedRequests_cases s s2 h2 with ⟨he, hne⟩ | ⟨r, sch, hr, ht, hrm, he⟩
  · rw [he]; exact ⟨h, rfl, hne⟩
  · rw [he]
    obtain ⟨hperm, hcur, hled⟩ := h
    refine ⟨⟨?_, ?_, ?_⟩, rfl, ?_⟩
    · simp only [issuedOf_append_finish, Option.toList, List.map_nil, List.append_nil]
      refine hperm.trans ?_
      rw [hr]
      simp only [Option.toList, List.map_cons, List.map_nil]
      have := ((addCompleted_perm s.completedRequests
        { r with endTime := s.current_time }).map Request.requestNumber).symm
      rw [List.map_cons] at this
      exact (List.perm_append_singleton _ _).trans this
    · intro r1 hr1
      simp at hr1
    · intro r1 hr1
      simp only [mem_addCompleted] at hr1
      simp only [issuedOf_append_finish]
      rcases hr1 with hr1 | hr1
      · obtain ⟨head, hmem, _, heq⟩ := hcur r hr
        refine ⟨r, head, hmem, by rw [hr1], ?_⟩
        rw [hr1]
        simp only
        have hz : |r.track - s.current_track| = 0 := by rw [ht, sub_self, abs_zero]
        rw [hz] at heq
        rw [← heq]
        omega
      · exact hled r1 hr1
    · intro r1 hr1
      simp at hr1

theorem SeekInv_fetch_move (s s3 : Sim) (h : s.SeekInv s.current_time)
    (hc0 : 0 ≤ s.current_time) (hc1 : s.current_time < 2147483647)
    (hne : ∀ r, s.current_request = some r → r.track ≠ s.current_track)
    (h3 : fetchNextRequest s = some s3) :
    (simulateHeadMovement s3).SeekInv (s3.current_time + 1) := by
  obtain ⟨hperm, hcur, hled⟩ := h
  have hw := wrapInt_of_range (s.current_time - 1) (by omega) (by omega)
  rcases fetchNextRequest_cases s s3 h3 with ⟨he, _⟩ | ⟨r, sch, dir, hcr, _, hst, he⟩ |
    ⟨sch, dir, hcr, _, hst, he⟩
  · -- nothing issued
    subst he
    rcases simulateHeadMovement_cases s3 with ⟨hm, h0⟩ | ⟨r, hr, _, hm⟩
    · rw [hm]
      refine ⟨hperm, ?_, hled⟩
      intro r hr
      exact absurd (h0 r hr) (hne r hr)
    · rw [hm]
      refine ⟨hperm, ?_, hled⟩
      intro r1 hr1
      simp only at hr1
      rw [hr] at hr1
      cases hr1
      obtain ⟨head, hmem, hle, heq⟩ := hcur r hr
      refine ⟨head, hmem, by omega, ?_⟩
      simp only
      rw [abs_step_toward _ _ (hne r hr)]
      omega
  · -- a request is issued
    have hs3cr : s3.current_request = some { r with startTime := s.current_time } := by
      rw [he]
    have hs3tr : s3.current_track = s.current_track := by rw [he]
    have hs3log : s3.log = s.log ++ [Event.issue s.current_time
        { r with startTime := s.current_time } s.current_track s.current_direction
        sch.pending] := by rw [he]
    have hs3led : s3.completedRequests = s.completedRequests := by rw [he]
    have hs3t : s3.current_time = if r.track = s.current_track then s.current_time - 1
        else s.current_time := by rw [he, hw]
    have hf := simulateHeadMovement_frame s3
    refine ⟨?_, ?_, ?_⟩
    · rw [hf.2.2.2.2.2.2, hf.2.2.2.2.1, hf.2.2.1, hs3log, hs3led, hs3cr, issuedOf_append_issue]
      rw [hcr] at hperm
      simp only [Option.toList, List.map_nil, List.append_nil, List.map_append, List.map_cons]
        at hperm ⊢
      exact List.Perm.append_right _ hperm
    · intro r1 hr1
      rw [hf.2.2.1, hs3cr] at hr1
      cases hr1
      refine ⟨s.current_track, ?_, ?_, ?_⟩
      · rw [hf.2.2.2.2.2.2, hs3log, issuedOf_append_issue]
        simp
      · rw [hs3t]
        simp only
        split <;> omega
      · simp only
        rcases simulateHeadMovement_cases s3 with ⟨hm, h0⟩ | ⟨r2, hr2, hne2, hm⟩
        · have ht := h0 _ hs3cr
          simp only [hs3tr] at ht
          rw [hm, hs3tr, hs3t, if_pos ht, ht]
          simp
        · rw [hs3cr] at hr2
          cases hr2
          simp only [hs3tr] at hne2
          rw [hm, hs3t, if_neg hne2]
          simp only [hs3tr]
          rw [abs_step_toward _ _ hne2]
          omega
    · intro r1 hr1
      rw [hf.2.2.2.2.1, hs3led] at hr1
      obtain ⟨cr, head, hmem, h1, h2⟩ := hled r1 hr1
      refine ⟨cr, head, ?_, h1, h2⟩
      rw [hf.2.2.2.2.2.2, hs3log, issuedOf_append_issue]
      exact List.mem_append_left _ hmem
  · -- the fallback
    have hcd := changeDirection_frame { s with
        scheduler := sch, current_direction := dir,
        log := s.log ++ [Event.fallback s.current_time] }
    have hlog : s3.log = s.log ++ [Event.fallback s.current_time] := by
      rw [he]; unfold changeDirection; simp only; split <;> rfl
    rw [← he] at hcd
    have hf := simulateHeadMovement_frame s3
    have hnone : s3.current_request = none := by rw [hcd.2.2.1]; exact hcr
    refine ⟨?_, ?_, ?_⟩
    · rw [hf.2.2.2.2.2.2, hf.2.2.2.2.1, hf.2.2.1, hlog, hcd.2.2.2.2.1, hnone,
        issuedOf_append_fallback]
      rw [hcr] at hperm
      exact hperm
    · intro r1 hr1
      rw [hf.2.2.1, hnone] at hr1
      exact Option.noConfusion hr1
    · intro r1 hr1
      rw [hf.2.2.2.2.1, hcd.2.2.2.2.1] at hr1
      obtain ⟨cr, head, hmem, h1, h2⟩ := hled r1 hr1
      refine ⟨cr, head, ?_, h1, h2⟩
      rw [hf.2.2.2.2.2.2, hlog, issuedOf_append_fallback]
      exact hmem

/-- A pass of the loop keeps the seek accounting: it holds again once the
clock has ticked. -/
theorem SeekInv_iteration (s s4 : Sim) (b : Bool) (h : s.SeekInv s.current_time)
    (hc0 : 0 ≤ s.current_time) (hc1 : s.current_time < 2147483647)
    (hit : iteration s = some (b, s4)) : (tick s4).SeekInv (tick s4).current_time := by
  obtain ⟨s2, s3, h2, h3, h4, _⟩ := iteration_cases s s4 b hit
  have e1 : (processArrivals s).current_time = s.current_time := by
    rcases processArrivals_cases s with ⟨h, _⟩ | ⟨op, rest, _, _, h⟩ <;> rw [h]
  have i1 := SeekInv_processArrivals _ s h
  rw [← e1] at i1
  obtain ⟨i2, e2, hne⟩ := SeekInv_processCompletedRequests _ s2 i1 h2
  rw [← e2] at i2
  have i4 := SeekInv_fetch_move s2 s3 i2 (by omega) (by omega) hne h3
  rw [← h4] at i4
  have hf := simulateHeadMovement_frame s3
  rw [← h4] at hf
  have hc3 := (iteration_operations_time s s4 b hit).2.1
  rw [wrapInt_of_range (s.current_time - 1) (by omega) (by omega), hf.2.1] at hc3
  have : (tick s4).current_time = s3.current_time + 1 := by
    simp only [tick]; rw [hf.2.1]
    exact wrapInt_of_range _ (by omega) (by omega)
  rw [this]
  exact i4

theorem changeDirection_log (s : Sim) : (changeDirection s).log = s.log := by
  unfold changeDirection
  simp only
  split <;> rfl

theorem IssueInv_iteration (s s4 : Sim) (b : Bool) (h : s.IssueInv)
    (hit : iteration s = some (b, s4)) : s4.IssueInv := by
  obtain ⟨s2, s3, h2, h3, h4, _⟩ := iteration_cases s s4 b hit
  have i1 : (processArrivals s).IssueInv := by
    rcases processArrivals_cases s with ⟨he, _⟩ | ⟨op, rest, _, _, he⟩
    · rw [he]; exact h
    · rw [he]
      intro t cr head d pend hm
      simp only [List.mem_append, List.mem_singleton] at hm
      rcases hm with hm | hm
      · exact h t cr head d pend hm
      · exact Event.noConfusion hm
  have i2 : s2.IssueInv := by
    rcases processCompletedRequests_cases _ s2 h2 with ⟨he, _⟩ | ⟨r, sch, _, _, _, he⟩
    · rw [he]; exact i1
    · rw [he]
      intro t cr head d pend hm
      simp only [List.mem_append, List.mem_singleton] at hm
      rcases hm with hm | hm
      · exact i1 t cr head d pend hm
      · exact Event.noConfusion hm
  have i3 : s3.IssueInv := by
    rcases fetchNextRequest_cases s2 s3 h3 with ⟨he, _⟩ | ⟨r, sch, dir, _, _, _, he⟩ |
      ⟨sch, dir, _, _, _, he⟩
    · rw [he]; exact i2
    · rw [he]
      intro t cr head d pend hm
      simp only [List.mem_append, List.mem_singleton] at hm
      rcases hm with hm | hm
      · exact i2 t cr head d pend hm
      · simp only [Event.issue.injEq] at hm
        rw [hm.1, hm.2.1]
    · rw [he]
      intro t cr head d pend hm
      rw [changeDirection_log] at hm
      simp only [List.mem_append, List.mem_singleton] at hm
      rcases hm with hm | hm
      · exact i2 t cr head d pend hm
      · exact Event.noConfusion hm
  intro t cr head d pend hm
  rw [h4, (simulateHeadMovement_frame s3).2.2.2.2.2.2] at hm
  exact i3 t cr head d pend hm

theorem simulate_IssueInv (p : Policy) (trace : List Operation) (n : Nat) (b : Bool)
    (s : Sim) (h : simulate n (Sim.init p trace) = some (b, s)) : s.IssueInv :=
  simulate_invariant Sim.IssueInv (fun s b s4 hI hit => IssueInv_iteration s s4 b hI hit)
    (fun _ hI => hI) n _ b s
    (by intro t cr head d pend hm; simp [Sim.init] at hm) h

theorem issued_ids_nodup (trace : List Operation) (c : Int) (s : Sim)
    (hL : s.LedgerInv trace) (hS : s.SeekInv c) :
    ((issuedOf s.log).map fun e => e.1.requestNumber).Nodup := by
  have hnd := LedgerInv_ids_nodup trace s hL
  rw [List.map_append, List.nodup_append] at hnd
  refine hS.1.nodup_iff.mpr ?_
  cases hcr : s.current_request with
  | none => simpa [Option.toList] using hnd.2.1
  | some r =>
    obtain ⟨q, hq, hqc⟩ := hL.2.2 r hcr
    have hid : q.requestNumber = r.requestNumber := by
      have := congrArg (fun c => c.1) hqc
      simpa [Request.core] using this
    have hqm : r.requestNumber ∈ s.scheduler.pending.map Request.requestNumber := by
      rw [← hid]
      exact List.mem_map_of_mem _ (IOScheduler.selected_mem _ q hq)
    simp only [Option.toList, List.map_cons, List.map_nil]
    rw [List.nodup_append]
    refine ⟨hnd.2.1, List.nodup_singleton _, ?_⟩
    intro a ha hb
    simp only [List.mem_singleton] at hb
    subst hb
    exact hnd.2.2 hqm ha

theorem simulate_Ledger_Seek (p : Policy) (trace : List Operation) (n : Nat) (b : Bool)
    (s : Sim) (hn : n ≤ 2147483647) (h : simulate n (Sim.init p trace) = some (b, s)) :
    s.LedgerInv trace ∧ ∃ c, s.SeekInv c := by
  have := simulate_invariant_bounded
    (fun s => s.LedgerInv trace ∧ s.SeekInv s.current_time)
    (fun s => s.LedgerInv trace ∧ (tick s).SeekInv (tick s).current_time)
    (fun s b s4 hI h0 h1 hit =>
      ⟨LedgerInv_iteration trace s s4 b hI.1 hit, SeekInv_iteration s s4 b hI.2 h0 h1 hit⟩)
    (fun s hQ => ⟨LedgerInv_tick trace s hQ.1, hQ.2⟩) n _ b s
    ⟨LedgerInv_init p trace, SeekInv_init p trace _⟩ (le_refl _)
    (by simp only [Sim.init]; omega) h
  cases b with
  | false => exact ⟨(this.1 rfl).1, _, (this.1 rfl).2⟩
  | true => exact ⟨(this.2 rfl).1, (tick s).current_time, (this.2 rfl).2⟩

/-- Claim C5 (amended): one tick per track of seek.  For each policy and every
trace, in every state the run passes through at the top of one of its first
`INT_MAX` passes, and in the state it exits with if it exits within them,
every record `r` of the ledger was issued exactly once (the log holds one
`issue` event for its request number), at the clock value `r.startTime` and
with the head at some track `head`, and `endTime - startTime` is the distance
`|track - head|`; in particular a request issued with the head already on its
track has `endTime = startTime`. -/
theorem seek_time_is_distance (p : Policy) (trace : List Operation) (n : Nat) (b : Bool)
    (s : Sim) (hn : n ≤ 2147483647) (h : simulate n (Sim.init p trace) = some (b, s)) :
    ∀ r ∈ s.completedRequests, ∃ (cr : Request) (head : Int),
      (∃ d pend, Event.issue r.startTime cr head d pend ∈ s.log) ∧
      r = { cr with endTime := r.endTime } ∧
      (∀ t cr1 head1 d pend, Event.issue t cr1 head1 d pend ∈ s.log →
        cr1.requestNumber = r.requestNumber → cr1 = cr ∧ head1 = head) ∧
      r.endTime - r.startTime = |r.track - head| ∧
      (head = r.track → r.endTime = r.startTime) := by
  obtain ⟨hL, c, hS⟩ := simulate_Ledger_Seek p trace n b s hn h
  have hnd := issued_ids_nodup trace c s hL hS
  have hI := simulate_IssueInv p trace n b s h
  intro r hr
  obtain ⟨cr, head, hmem, hreq, hdist⟩ := hS.2.2 r hr
  have hev : ∃ d pend, Event.issue r.startTime cr head d pend ∈ s.log := by
    obtain ⟨t, d, pend, hm⟩ := (mem_issuedOf _ _ _).mp hmem
    have ht := hI t cr head d pend hm
    have hst : r.startTime = cr.startTime := by rw [hreq]
    rw [hst, ← ht]
    exact ⟨d, pend, hm⟩
  refine ⟨cr, head, hev, hreq, ?_, hdist, ?_⟩
  · intro t cr1 head1 d pend hev hid
    have hmem1 : (cr1, head1) ∈ issuedOf s.log := (mem_issuedOf _ _ _).mpr ⟨t, d, pend, hev⟩
    have hcrid : cr.requestNumber = r.requestNumber := by rw [hreq]
    have := List.inj_on_of_nodup_map hnd hmem1 hmem (by simp only [hid, hcrid])
    simp only [Prod.mk.injEq] at this
    exact this
  · intro hh
    rw [hh, sub_self, abs_zero] at hdist
    omega

/-- The hypotheses of `seek_time_is_distance` hold for LOOK on the trace
(0,0),(0,2),(1,1): the loop breaks within eight passes (in its fifth) with
three records in the ledger, the first of them served on the zero-seek path. -/
theorem seek_time_is_distance_witness :
    8 ≤ 2147483647 ∧
    ∃ s, simulate 8 (Sim.init Policy.L [⟨0, 0⟩, ⟨0, 2⟩, ⟨1, 1⟩]) = some (true, s) ∧
      s.completedRequests.length = 3 ∧
      ∀ r ∈ s.completedRequests, ∃ (cr : Request) (head : Int),
        (∃ d pend, Event.issue r.startTime cr head d pend ∈ s.log) ∧
        r = { cr with endTime := r.endTime } ∧
        (∀ t cr1 head1 d pend, Event.issue t cr1 head1 d pend ∈ s.log →
          cr1.requestNumber = r.requestNumber → cr1 = cr ∧ head1 = head) ∧
        r.endTime - r.startTime = |r.track - head| ∧
        (head = r.track → r.endTime = r.startTime) :=
  ⟨by decide, _, rfl, rfl,
    seek_time_is_distance Policy.L [⟨0, 0⟩, ⟨0, 2⟩, ⟨1, 1⟩] 8 true _ (by decide) rfl⟩

/-! ## FLOOK -/

theorem atIndex_mem (q : List Request) (i : Int) (r : Request) (h : atIndex q i = some r) :
    r ∈ q :=
  List.getElem?_mem (atIndex_some q i r h).2.2

/-- What a returning `FLook::strategy` leaves in the two queues: they are
exchanged exactly when `active` was empty, and the returned request is in the
queue that is `active` afterwards. -/
theorem FLook.strategy_state (fuel : Nat) :
    ∀ (s s3 : FLook) (ct cd d : Int) (r : Request),
      FLook.strategy fuel s ct cd = some (r, s3, d) →
      s3.active = (if s.active.isEmpty then s.add else s.active) ∧
      s3.add = (if s.active.isEmpty then s.active else s.add) ∧
      r ∈ s3.active := by
  induction fuel with
  | zero =>
    intro s s3 ct cd d r h
    exact Option.noConfusion h
  | succ fuel ih =>
    intro s s3 ct cd d r h
    have hsw : (if s.active.isEmpty = true then s.swap else s).active
          = (if s.active.isEmpty then s.add else s.active) ∧
        (if s.active.isEmpty = true then s.swap else s).add
          = (if s.active.isEmpty then s.active else s.add) := by
      split <;> simp [FLook.swap]
    unfold FLook.strategy at h
    simp only at h
    generalize (if s.active.isEmpty = true then s.swap else s) = s0 at h hsw
    split at h
    · obtain ⟨h1, h2, h3⟩ := ih s0 s3 ct (-cd) d r h
      by_cases he : s.active.isEmpty = true
      · have hnil : s.active = [] := by simpa using he
        simp only [he, ↓reduceIte] at hsw ⊢
        by_cases he2 : s0.active.isEmpty = true
        · have hnil2 : s0.active = [] := by simpa using he2
          simp only [he2, ↓reduceIte] at h1 h2
          refine ⟨?_, ?_, h3⟩
          · rw [h1, hsw.2, hnil, ← hsw.1, hnil2]
          · rw [h2, hnil2, hnil]
        · simp only [he2] at h1 h2
          simp only [Bool.false_eq_true, ↓reduceIte] at h1 h2
          exact ⟨h1.trans hsw.1, h2.trans hsw.2, h3⟩
      · simp only [he] at hsw ⊢
        simp only [Bool.false_eq_true, ↓reduceIte] at hsw ⊢
        have he2 : ¬ s0.active.isEmpty = true := by rw [hsw.1]; exact he
        simp only [he2] at h1 h2
        simp only [Bool.false_eq_true, ↓reduceIte] at h1 h2
        exact ⟨h1.trans hsw.1, h2.trans hsw.2, h3⟩
    · split at h
      · rename_i r0 hr0
        simp only [Option.some.injEq, Prod.mk.injEq] at h
        obtain ⟨h1, h2, _⟩ := h
        subst h1
        rw [← h2]
        exact ⟨hsw.1, hsw.2, atIndex_mem _ _ _ hr0⟩
      · exact Option.noConfusion h

theorem FLook.BatchInv_addRequest (batch : List Request) (s : FLook) (y : Request)
    (hy : y.requestNumber ∉ batch.map Request.requestNumber) (h : FLook.BatchInv batch s) :
    FLook.BatchInv batch (s.addRequest y) := by
  unfold FLook.addRequest
  simp only
  split
  · rename_i hc
    have hnil : s.active = [] := by simpa using hc.1
    right
    intro z hz
    simp only [FLook.swap, hnil, List.append_nil, List.mem_append, List.mem_singleton] at hz
    rcases h with ⟨_, h2⟩ | h2
    · rcases hz with hz | hz
      · exact h2 z hz
      · rw [hz]; exact hy
    · rcases hz with hz | hz
      · exact h2 z (List.mem_append_right _ hz)
      · rw [hz]; exact hy
  · rcases h with ⟨h1, h2⟩ | h2
    · left
      refine ⟨h1, fun z hz => ?_⟩
      simp only [List.mem_append, List.mem_singleton] at hz
      rcases hz with hz | hz
      · exact h2 z hz
      · rw [hz]; exact hy
    · right
      intro z hz
      simp only [List.mem_append, List.mem_singleton] at hz
      rcases hz with hz | hz | hz
      · exact h2 z (List.mem_append_left _ hz)
      · exact h2 z (List.mem_append_right _ hz)
      · rw [hz]; exact hy

theorem FLook.BatchInv_removeRequest (batch : List Request) (s s1 : FLook)
    (hr : s.removeRequest = some s1) (h : FLook.BatchInv batch s) :
    FLook.BatchInv batch s1 := by
  have hsub : s1.active.Sublist s.active ∧ s1.add = s.add := by
    unfold FLook.removeRequest at hr
    split at hr
    · split at hr
      · simp only [Option.some.injEq] at hr
        rw [← hr]
        exact ⟨List.eraseIdx_sublist _ _, rfl⟩
      · exact Option.noConfusion hr
    · simp only [Option.some.injEq] at hr
      rw [← hr]
      exact ⟨List.Sublist.refl _, rfl⟩
  rcases h with ⟨h1, h2⟩ | h2
  · left
    exact ⟨hsub.1.trans h1, by rw [hsub.2]; exact h2⟩
  · right
    intro z hz
    rw [List.mem_append, hsub.2] at hz
    rcases hz with hz | hz
    · exact h2 z (List.mem_append_left _ (hsub.1.subset hz))
    · exact h2 z (List.mem_append_right _ hz)

theorem FLook.BatchInv_strategy (batch : List Request) (fuel : Nat) (s s3 : FLook)
    (ct cd d : Int) (r : Request) (hs : FLook.strategy fuel s ct cd = some (r, s3, d))
    (h : FLook.BatchInv batch s) :
    FLook.BatchInv batch s3 ∧
    (r.requestNumber ∉ batch.map Request.requestNumber →
      ∀ y ∈ s.active ++ s.add, y.requestNumber ∉ batch.map Request.requestNumber) := by
  obtain ⟨h1, h2, h3⟩ := FLook.strategy_state fuel s s3 ct cd d r hs
  by_cases he : s.active.isEmpty = true
  · have hnil : s.active = [] := by simpa using he
    simp only [he, if_true] at h1 h2
    have hall : ∀ y ∈ s.active ++ s.add, y.requestNumber ∉ batch.map Request.requestNumber := by
      rcases h with ⟨_, hb⟩ | hb
      · intro y hy
        rw [hnil, List.nil_append] at hy
        exact hb y hy
      · exact hb
    refine ⟨Or.inr ?_, fun _ => hall⟩
    intro y hy
    rw [h1, h2, hnil, List.append_nil] at hy
    exact hall y (List.mem_append_right _ hy)
  · simp only [he] at h1 h2
    simp only [Bool.false_eq_true, if_false] at h1 h2
    constructor
    · unfold FLook.BatchInv
      rw [h1, h2]
      exact h
    · intro hr
      rcases h with ⟨ha, _⟩ | hb
      · rw [h1] at h3
        exact absurd (List.mem_map_of_mem _ (ha.subset h3)) hr
      · exact hb

theorem FLook.BatchInv_run (batch : List Request) (cs : List FLook.Call) :
    ∀ (s s1 : FLook),
      (∀ y ∈ FLook.inserted cs, y.requestNumber ∉ batch.map Request.requestNumber) →
      FLook.run s cs = some s1 → FLook.BatchInv batch s → FLook.BatchInv batch s1 := by
  induction cs with
  | nil =>
    intro s s1 _ hr h
    simp only [FLook.run, Option.some.injEq] at hr
    rw [← hr]; exact h
  | cons c cs ih =>
    intro s s1 hins hr h
    unfold FLook.run at hr
    split at hr
    · rename_i s0 hc
      cases c with
      | insert y =>
        simp only [FLook.call, Option.some.injEq] at hc
        refine ih s0 s1 (fun z hz => hins z ?_) hr ?_
        · simp [FLook.inserted, hz]
        · rw [← hc]
          exact FLook.BatchInv_addRequest batch s y (hins y (by simp [FLook.inserted])) h
      | select ct cd =>
        simp only [FLook.call, Option.map_eq_some'] at hc
        obtain ⟨⟨r, s3, d⟩, hst, hs0⟩ := hc
        simp only at hs0
        subst hs0
        exact ih s3 s1 (fun z hz => hins z (by simpa [FLook.inserted] using hz)) hr
          (FLook.BatchInv_strategy batch _ s s3 ct cd d r hst h).1
      | remove =>
        simp only [FLook.call] at hc
        exact ih s0 s1 (fun z hz => hins z (by simpa [FLook.inserted] using hz)) hr
          (FLook.BatchInv_removeRequest batch s s0 hc h)
    · exact Option.noConfusion hr

/-- Claim C9: FLOOK batch isolation.  Let a request `x` be inserted into an
`FLook` object `s1`, and let any sequence `mid` of insert / select / remove
calls follow, all of which return, the requests involved (those pending in
`s1`, `x`, and those inserted by `mid`) having pairwise distinct request
numbers, as the engine's have.  If `strategy` then returns `x`, no request
that was in the active queue when `x` was inserted is pending any more, in
either queue: `x` is never selected before that batch is exhausted.  (When the
active queue of `s1` is empty there is no such request and nothing is said.) -/
theorem FLook.batch_isolation (s1 s2 s3 : FLook) (x r : Request) (mid : List FLook.Call)
    (fuel : Nat) (ct cd d : Int)
    (hids : ((s1.active ++ s1.add ++ x :: FLook.inserted mid).map
      Request.requestNumber).Nodup)
    (hrun : FLook.run (s1.addRequest x) mid = some s2)
    (hsel : FLook.strategy fuel s2 ct cd = some (r, s3, d))
    (hx : r.requestNumber = x.requestNumber) :
    ∀ a ∈ s1.active, ∀ y ∈ s2.active ++ s2.add, y.requestNumber ≠ a.requestNumber := by
  simp only [List.map_append, List.map_cons, List.nodup_append, List.nodup_cons] at hids
  obtain ⟨⟨_, _, hd1⟩, ⟨_, _⟩, hd2⟩ := hids
  have hxb : x.requestNumber ∉ s1.active.map Request.requestNumber := by
    intro hm
    exact hd2 (List.mem_append_left _ hm) (List.mem_cons_self _ _)
  have h0 : FLook.BatchInv s1.active (s1.addRequest x) := by
    apply FLook.BatchInv_addRequest _ _ _ hxb
    left
    exact ⟨List.Sublist.refl _, fun y hy hm => hd1 hm (List.mem_map_of_mem _ hy)⟩
  have hins : ∀ y ∈ FLook.inserted mid,
      y.requestNumber ∉ s1.active.map Request.requestNumber := by
    intro y hy hm
    exact hd2 (List.mem_append_left _ hm)
      (List.mem_cons_of_mem _ (List.mem_map_of_mem _ hy))
  have h2 := FLook.BatchInv_run s1.active mid _ s2 hins hrun h0
  have h3 := (FLook.BatchInv_strategy s1.active fuel s2 s3 ct cd d r hsel h2).2
    (by rw [hx]; exact hxb)
  intro a ha y hy he
  exact h3 y hy (he ▸ List.mem_map_of_mem _ ha)

/-- The hypotheses of `FLook.batch_isolation` hold when the request for track
5 is inserted while the request for track 10 is alone in the active queue,
and the latter is then selected and removed: the next `strategy` call, with
the head at 10, swaps the queues and returns the request for track 5. -/
theorem FLook.batch_isolation_witness :
    (FLook.mk [Request.create 0 10 0] [] (-1)).active ≠ [] ∧
    (((FLook.mk [Request.create 0 10 0] [] (-1)).active ++
        (FLook.mk [Request.create 0 10 0] [] (-1)).add ++
        Request.create 1 5 0 ::
          FLook.inserted [FLook.Call.select 0 1, FLook.Call.remove]).map
      Request.requestNumber).Nodup ∧
    FLook.run ((FLook.mk [Request.create 0 10 0] [] (-1)).addRequest (Request.create 1 5 0))
        [FLook.Call.select 0 1, FLook.Call.remove]
      = some (FLook.mk [] [Request.create 1 5 0] 0) ∧
    FLook.strategy 2 (FLook.mk [] [Request.create 1 5 0] 0) 10 1
      = some (Request.create 1 5 0, FLook.mk [Request.create 1 5 0] [] 0, -1) ∧
    (∀ a ∈ (FLook.mk [Request.create 0 10 0] [] (-1)).active,
      ∀ y ∈ (FLook.mk [] [Request.create 1 5 0] 0).active ++
          (FLook.mk [] [Request.create 1 5 0] 0).add,
        y.requestNumber ≠ a.requestNumber) :=
  ⟨by decide, by decide, rfl, rfl,
    FLook.batch_isolation (FLook.mk [Request.create 0 10 0] [] (-1))
      (FLook.mk [] [Request.create 1 5 0] 0) (FLook.mk [Request.create 1 5 0] [] 0)
      (Request.create 1 5 0) (Request.create 1 5 0)
      [FLook.Call.select 0 1, FLook.Call.remove] 2 10 1 (-1) (by decide) rfl rfl rfl⟩

/-! ### Depth of the recursion of `FLook::strategy` -/

theorem FLook.swap_if_empty_idem (s : FLook) :
    (if (if s.active.isEmpty = true then s.swap else s).active.isEmpty = true
      then (if s.active.isEmpty = true then s.swap else s).swap
      else (if s.active.isEmpty = true then s.swap else s))
    = (if s.active.isEmpty = true then s.swap else s) := by
  by_cases he : s.active.isEmpty = true
  · have hnil : s.active = [] := by simpa using he
    simp only [he, ↓reduceIte]
    by_cases he2 : s.swap.active.isEmpty = true
    · have hnil2 : s.add = [] := by simpa [FLook.swap] using he2
      simp only [he2, ↓reduceIte]
      simp [FLook.swap, hnil, hnil2]
    · simp only [he2]
      simp
  · simp only [he]
    simp only [Bool.false_eq_true, ↓reduceIte]
    simp [he]

theorem FLook.strategy_step (fuel : Nat) (s : FLook) (ct d : Int) :
    FLook.strategy (fuel + 1) s ct d =
      if ¬ (FLook.scan (if s.active.isEmpty = true then s.swap else s).active ct
          d).direction_fulfilled then
        FLook.strategy fuel (if s.active.isEmpty = true then s.swap else s) ct (-d)
      else
        match atIndex (if s.active.isEmpty = true then s.swap else s).active
            (FLook.scan (if s.active.isEmpty = true then s.swap else s).active ct
              d).closest_index with
        | some r => some (r, { (if s.active.isEmpty = true then s.swap else s) with
            current_index := (FLook.scan (if s.active.isEmpty = true then s.swap else s).active
              ct d).closest_index }, d)
        | none => none := by
  rfl

theorem FLook.flook_strategy_stuck (s : FLook) (ct d : Int)
    (hs : (if s.active.isEmpty = true then s.swap else s) = s)
    (h1 : (FLook.scan s.active ct d).direction_fulfilled = false)
    (h2 : (FLook.scan s.active ct (-d)).direction_fulfilled = false) (n : Nat) :
    FLook.strategy n s ct d = none ∧ FLook.strategy n s ct (-d) = none := by
  induction n with
  | zero => exact ⟨rfl, rfl⟩
  | succ n ih =>
    constructor
    · rw [FLook.strategy_step, hs, h1]
      simpa using ih.2
    · rw [FLook.strategy_step, hs, h2, neg_neg]
      simpa using ih.1

/-- Two levels of the recursion of `FLook::strategy` decide the call: deeper
levels repeat them with the same arguments. -/
theorem FLook.flook_strategy_fuel (n : Nat) (s : FLook) (ct d : Int) :
    FLook.strategy (n + 2) s ct d = FLook.strategy 2 s ct d := by
  have hidem := FLook.swap_if_empty_idem s
  rw [FLook.strategy_step (n + 1), FLook.strategy_step 1]
  generalize (if s.active.isEmpty = true then s.swap else s) = s0 at hidem
  cases h1 : (FLook.scan s0.active ct d).direction_fulfilled with
  | true => simp
  | false =>
    simp only [Bool.false_eq_true, not_false_eq_true, ↓reduceIte]
    rw [FLook.strategy_step n, FLook.strategy_step 0, hidem]
    cases h2 : (FLook.scan s0.active ct (-d)).direction_fulfilled with
    | true => simp
    | false =>
      simp only [Bool.false_eq_true, not_false_eq_true, ↓reduceIte, neg_neg]
      rw [(FLook.flook_strategy_stuck s0 ct d hidem h1 h2 n).1]
      rfl

/-! ## Removal after selection -/

theorem IOScheduler.selected_index (p : IOScheduler) (q : Request) (h : p.selected = some q) :
    p.pending[p.index]? = some q ∧
    ∃ p1 : IOScheduler, p.removeRequest = some p1 ∧ p1.pending = p.pending.eraseIdx p.index := by
  cases p with
  | fifo s =>
    simp only [IOScheduler.selected] at h
    cases hq : s.IOQueue with
    | nil => simp [hq] at h
    | cons a rest =>
      simp only [hq, List.head?_cons, Option.some.injEq] at h
      subst h
      refine ⟨by simp [IOScheduler.pending, IOScheduler.index, hq], .fifo s.removeRequest, rfl, ?_⟩
      simp [IOScheduler.pending, IOScheduler.index, FIFO.removeRequest, hq]
  | sstf s =>
    obtain ⟨h0, hl, hne, hr⟩ := eraseIdx_of_atIndex _ _ _ h
    refine ⟨hr, .sstf s.removeRequest, rfl, ?_⟩
    simp [IOScheduler.pending, IOScheduler.index, SSTF.removeRequest, h0, hl, hne]
  | look s =>
    obtain ⟨h0, hl, hne, hr⟩ := eraseIdx_of_atIndex _ _ _ h
    refine ⟨hr, .look s.removeRequest, rfl, ?_⟩
    simp [IOScheduler.pending, IOScheduler.index, Look.removeRequest, h0, hl]
  | clook s =>
    obtain ⟨h0, hl, hne, hr⟩ := eraseIdx_of_atIndex _ _ _ h
    have hm : s.current_index ≠ -1 := by omega
    refine ⟨hr, IOScheduler.clook
      { IOQueue := s.IOQueue.eraseIdx s.current_index.toNat, current_index := -1 }, ?_, rfl⟩
    simp [IOScheduler.removeRequest, CLook.removeRequest, h0, hl, hne, hm]
  | flook s =>
    obtain ⟨h0, hl, hne, hr⟩ := eraseIdx_of_atIndex _ _ _ h
    have hm : s.current_index ≠ -1 := by omega
    have hlt : s.current_index.toNat < s.active.length := by omega
    refine ⟨?_, .flook { s with active := s.active.eraseIdx s.current_index.toNat }, ?_, ?_⟩
    · simp only [IOScheduler.pending, IOScheduler.index]
      rw [List.getElem?_append_left hlt]
      exact hr
    · simp [IOScheduler.removeRequest, FLook.removeRequest, h0, hl, hne, hm]
    · simp only [IOScheduler.pending, IOScheduler.index]
      rw [List.eraseIdx_append_of_lt_length hlt]

theorem IOScheduler.index_addRequest (p : IOScheduler) (x q : Request)
    (h : p.selected = some q) : (p.addRequest x).index = p.index := by
  cases p with
  | fifo s => rfl
  | sstf s => rfl
  | look s => rfl
  | clook s => rfl
  | flook s =>
    obtain ⟨_, _, hne, _⟩ := eraseIdx_of_atIndex _ _ _ h
    simp only [IOScheduler.addRequest, IOScheduler.index, FLook.addRequest]
    split
    · rename_i hc
      exact absurd (by simpa using hc.1) hne
    · rfl

theorem IOScheduler.foldl_addRequest (xs : List Request) :
    ∀ (p : IOScheduler) (q : Request), p.selected = some q →
      (xs.foldl IOScheduler.addRequest p).selected = some q ∧
      (xs.foldl IOScheduler.addRequest p).index = p.index ∧
      (xs.foldl IOScheduler.addRequest p).pending = p.pending ++ xs := by
  induction xs with
  | nil => intro p q h; exact ⟨h, rfl, by simp⟩
  | cons x xs ih =>
    intro p q h
    obtain ⟨h1, h2, h3⟩ := ih (p.addRequest x) q (IOScheduler.selected_addRequest p x q h)
    refine ⟨h1, ?_, ?_⟩
    · rw [List.foldl_cons, h2, IOScheduler.index_addRequest p x q h]
    · rw [List.foldl_cons, h3, IOScheduler.pending_addRequest]
      simp

/-- Claim C11: removal after selection.  For each policy (SSTF, LOOK, CLOOK and
FLOOK as well as FIFO): when `strategy` has returned a request `r`, and any
requests `xs` are then inserted, the index remembered by `strategy` still
designates `r`, and `removeRequest` returns and takes out of the pending
collection exactly the entry at that index, which is `r`: the requests that
were pending before the selection stay, in the same order, followed by the
inserted ones. -/
theorem IOScheduler.remove_after_select (p p1 : IOScheduler) (ct cd d1 : Int) (r : Request)
    (xs : List Request) (hsel : p.strategy ct cd = some (some r, p1, d1)) :
    ∃ (i : Nat) (p3 : IOScheduler),
      p.pending[i]? = some r ∧
      (xs.foldl IOScheduler.addRequest p1).selected = some r ∧
      (xs.foldl IOScheduler.addRequest p1).removeRequest = some p3 ∧
      p3.pending = p.pending.eraseIdx i ++ xs := by
  obtain ⟨hp, hs⟩ := IOScheduler.strategy_some p p1 ct cd d1 r hsel
  obtain ⟨h1, h2, h3⟩ := IOScheduler.foldl_addRequest xs p1 r hs
  obtain ⟨hi, p3, hrm, hp3⟩ := IOScheduler.selected_index _ r h1
  rw [h2, h3, hp] at hi hp3
  have hi0 := (IOScheduler.selected_index p1 r hs).1
  rw [hp] at hi0
  have hlt : p1.index < p.pending.length := (List.getElem?_eq_some_iff.mp hi0).1
  refine ⟨p1.index, p3, hi0, h1, hrm, ?_⟩
  rw [hp3, List.eraseIdx_append_of_lt_length hlt]

/-- The hypothesis of `IOScheduler.remove_after_select` holds for SSTF with the
head at 0 and the pending tracks 90, 10: the request for track 10 is selected,
and after the insertion of a request for track 5 the removal leaves the
requests for tracks 90 and 5. -/
theorem IOScheduler.remove_after_select_witness :
    (IOScheduler.sstf (SSTF.mk [Request.create 0 90 0, Request.create 1 10 0] (-1))).strategy 0 1
      = some (some (Request.create 1 10 0),
          IOScheduler.sstf (SSTF.mk [Request.create 0 90 0, Request.create 1 10 0] 1), 1) ∧
    (∃ (i : Nat) (p3 : IOScheduler),
      (IOScheduler.sstf (SSTF.mk [Request.create 0 90 0, Request.create 1 10 0]
        (-1))).pending[i]? = some (Request.create 1 10 0) ∧
      ([Request.create 2 5 0].foldl IOScheduler.addRequest
        (IOScheduler.sstf (SSTF.mk [Request.create 0 90 0, Request.create 1 10 0] 1))).selected
        = some (Request.create 1 10 0) ∧
      ([Request.create 2 5 0].foldl IOScheduler.addRequest
        (IOScheduler.sstf (SSTF.mk [Request.create 0 90 0, Request.create 1 10 0]
          1))).removeRequest = some p3 ∧
      p3.pending = (IOScheduler.sstf (SSTF.mk [Request.create 0 90 0, Request.create 1 10 0]
        (-1))).pending.eraseIdx i ++ [Request.create 2 5 0]) ∧
    (([Request.create 2 5 0].foldl IOScheduler.addRequest
        (IOScheduler.sstf (SSTF.mk [Request.create 0 90 0, Request.create 1 10 0]
          1))).removeRequest.map IOScheduler.pending)
      = some [Request.create 0 90 0, Request.create 2 5 0] :=
  ⟨by decide, IOScheduler.remove_after_select _ _ 0 1 1 (Request.create 1 10 0)
      [Request.create 2 5 0] (by decide), by decide⟩

/-- Claim C12: the ledger is strictly increasing.  For each policy and every
trace, in every state the run passes through at the top of a pass and in the
state it exits with (so after every completion), the request numbers of the
ledger, read in ledger order, are strictly increasing; in particular no
number occurs twice.  (`addCompleted_sorted`: `addCompleted` keeps a sorted
ledger sorted when the number inserted is new.) -/
theorem ledger_strictly_increasing (p : Policy) (trace : List Operation) (n : Nat) (b : Bool)
    (s : Sim) (h : simulate n (Sim.init p trace) = some (b, s)) :
    (s.completedRequests.map Request.requestNumber).Pairwise (fun a b => a < b) ∧
    (s.completedRequests.map Request.requestNumber).Nodup := by
  have hs := (simulate_LedgerInv p trace n b s h).2.1
  exact ⟨hs, hs.imp (fun h => ne_of_lt h)⟩

/-- The hypothesis of `ledger_strictly_increasing` holds for SSTF on the trace
(0,5),(1,9),(2,4), where request 2 completes before request 1: the loop breaks
in its twelfth pass and the ledger reads 0, 1, 2. -/
theorem ledger_strictly_increasing_witness :
    ∃ s, simulate 12 (Sim.init Policy.S [⟨0, 5⟩, ⟨1, 9⟩, ⟨2, 4⟩]) = some (true, s) ∧
      s.completedRequests.map Request.requestNumber = [0, 1, 2] ∧
      (s.completedRequests.map Request.requestNumber).Pairwise (fun a b => a < b) ∧
      (s.completedRequests.map Request.requestNumber).Nodup :=
  ⟨_, rfl, rfl, ledger_strictly_increasing Policy.S [⟨0, 5⟩, ⟨1, 9⟩, ⟨2, 4⟩] 12 true _ rfl⟩

/-! ## Totals -/

theorem changeDirection_totals (s : Sim) :
    (changeDirection s).total_turnaround = s.total_turnaround ∧
    (changeDirection s).total_wait_time = s.total_wait_time ∧
    (changeDirection s).max_wait_time = s.max_wait_time := by
  unfold changeDirection
  simp only
  split <;> simp

theorem simulateHeadMovement_totals (s : Sim) :
    (simulateHeadMovement s).total_turnaround = s.total_turnaround ∧
    (simulateHeadMovement s).total_wait_time = s.total_wait_time ∧
    (simulateHeadMovement s).max_wait_time = s.max_wait_time := by
  rcases simulateHeadMovement_cases s with ⟨h, _⟩ | ⟨r, _, _, h⟩ <;> rw [h] <;> simp

theorem TotalsInv_frame (s s1 : Sim) (h : s.TotalsInv)
    (h1 : s1.completedRequests = s.completedRequests)
    (h2 : s1.current_request = s.current_request)
    (h3 : s1.total_turnaround = s.total_turnaround)
    (h4 : s1.total_wait_time = s.total_wait_time)
    (h5 : s1.max_wait_time = s.max_wait_time) : s1.TotalsInv := by
  unfold Sim.TotalsInv at *
  rw [h1, h2, h3, h4, h5]
  exact h

theorem TotalsInv_init (p : Policy) (trace : List Operation) : (Sim.init p trace).TotalsInv := by
  refine ⟨by simp [Sim.init], by simp [Sim.init], by simp [Sim.init], ?_, Or.inl rfl⟩
  intro r hr
  simp [Sim.init] at hr

theorem TotalsInv_processCompletedRequests (s s2 : Sim) (h : s.TotalsInv)
    (hw : ∀ r, s.current_request = some r →
      wrapInt (s.current_time - r.arrivalTime) = s.current_time - r.arrivalTime)
    (h2 : processCompletedRequests s = some s2) : s2.TotalsInv := by
  rcases processCompletedRequests_cases s s2 h2 with ⟨he, _⟩ | ⟨r, sch, hr, _, _, he⟩
  · rw [he]; exact h
  · obtain ⟨h1, h2, h3, h4, h5⟩ := h
    rw [hw r hr] at he
    rw [hr] at h2 h4 h5
    simp only [Option.toList] at h2 h4 h5
    have hperm := addCompleted_perm s.completedRequests { r with endTime := s.current_time }
    have hmem : ∀ x, x ∈ addCompleted s.completedRequests { r with endTime := s.current_time } →
        ∃ y ∈ s.completedRequests ++ [r],
          y.startTime - y.arrivalTime = x.startTime - x.arrivalTime := by
      intro x hx
      rw [mem_addCompleted] at hx
      rcases hx with hx | hx
      · exact ⟨r, by simp, by rw [hx]⟩
      · exact ⟨x, by simp [hx], rfl⟩
    rw [he]
    refine ⟨?_, ?_, h3, ?_, ?_⟩
    · simp only
      rw [(hperm.map _).sum_eq, List.map_cons, List.sum_cons, h1]
      ring
    · simp only [Option.toList, List.append_nil]
      rw [(hperm.map _).sum_eq, List.map_cons, List.sum_cons, h2, List.map_append,
        List.sum_append]
      simp
      ring
    · intro x hx
      simp only [Option.toList, List.append_nil] at hx
      obtain ⟨y, hy, hyx⟩ := hmem x hx
      rw [← hyx]
      exact h4 y hy
    · rcases h5 with h5 | ⟨y, hy, hyw⟩
      · exact Or.inl h5
      · right
        simp only [Option.toList, List.append_nil]
        simp only [List.mem_append, List.mem_singleton] at hy
        rcases hy with hy | hy
        · exact ⟨y, (mem_addCompleted _ _ _).mpr (Or.inr hy), hyw⟩
        · refine ⟨{ r with endTime := s.current_time },
            (mem_addCompleted _ _ _).mpr (Or.inl rfl), ?_⟩
          rw [← hyw, hy]

theorem TotalsInv_fetchNextRequest (s s3 : Sim) (h : s.TotalsInv)
    (hw : ∀ r ∈ s.scheduler.pending,
      wrapInt (s.current_time - r.arrivalTime) = s.current_time - r.arrivalTime)
    (h3 : fetchNextRequest s = some s3) : s3.TotalsInv := by
  rcases fetchNextRequest_cases s s3 h3 with ⟨he, _⟩ | ⟨r, sch, dir, hcr, _, hst, he⟩ |
    ⟨sch, dir, hcr, _, _, he⟩
  · rw [he]; exact h
  · obtain ⟨h1, h2, h3, h4, h5⟩ := h
    obtain ⟨hp, hs⟩ := IOScheduler.strategy_some _ _ _ _ _ _ hst
    have hmem : r ∈ s.scheduler.pending := hp ▸ IOScheduler.selected_mem _ r hs
    rw [hw r hmem] at he
    rw [hcr] at h2 h4 h5
    simp only [Option.toList, List.append_nil] at h2 h4 h5
    rw [he]
    refine ⟨h1, ?_, ?_, ?_, ?_⟩
    · simp only [Option.toList, List.map_append, List.sum_append, List.map_cons, List.map_nil,
        List.sum_cons, List.sum_nil]
      rw [h2]
      ring
    · exact le_trans h3 (le_max_left _ _)
    · intro x hx
      simp only [Option.toList, List.mem_append, List.mem_singleton] at hx
      rcases hx with hx | hx
      · exact le_trans (h4 x hx) (le_max_left _ _)
      · rw [hx]
        exact le_max_right _ _
    · simp only [Option.toList]
      rcases max_cases s.max_wait_time (s.current_time - r.arrivalTime) with ⟨hm, _⟩ | ⟨hm, _⟩
      · rw [hm]
        rcases h5 with h5 | ⟨y, hy, hyw⟩
        · exact Or.inl h5
        · exact Or.inr ⟨y, List.mem_append_left _ hy, hyw⟩
      · right
        exact ⟨{ r with startTime := s.current_time }, by simp, hm.symm⟩
  · have hf := changeDirection_frame { s with
        scheduler := sch, current_direction := dir,
        log := s.log ++ [Event.fallback s.current_time] }
    have ht := changeDirection_totals { s with
        scheduler := sch, current_direction := dir,
        log := s.log ++ [Event.fallback s.current_time] }
    rw [he]
    exact TotalsInv_frame s _ h hf.2.2.2.2.1 hf.2.2.1 ht.1 ht.2.1 ht.2.2

theorem ArrivalInv_processArrivals (s : Sim) (h : s.ArrivalInv) (hc0 : 0 ≤ s.current_time) :
    (processArrivals s).ArrivalInv := by
  rcases processArrivals_cases s with ⟨he, _⟩ | ⟨op, rest, _, _, he⟩
  · rw [he]; exact h
  · rw [he]
    refine ⟨?_, h.2⟩
    intro q hq
    simp only [IOScheduler.pending_addRequest, List.mem_append, List.mem_singleton] at hq
    rcases hq with hq | hq
    · exact h.1 q hq
    · rw [hq]; exact hc0

theorem ArrivalInv_processCompletedRequests (s s2 : Sim) (h : s.ArrivalInv)
    (h2 : processCompletedRequests s = some s2) : s2.ArrivalInv := by
  rcases processCompletedRequests_cases s s2 h2 with ⟨he, _⟩ | ⟨r, sch, _, _, hrm, he⟩
  · rw [he]; exact h
  · rw [he]
    refine ⟨fun q hq => h.1 q ((IOScheduler.removeRequest_sublist _ _ hrm).subset hq), ?_⟩
    intro r1 hr1
    simp at hr1

theorem ArrivalInv_fetchNextRequest (s s3 : Sim) (h : s.ArrivalInv)
    (h3 : fetchNextRequest s = some s3) : s3.ArrivalInv := by
  rcases fetchNextRequest_cases s s3 h3 with ⟨he, _⟩ | ⟨r, sch, dir, _, _, hst, he⟩ |
    ⟨sch, dir, hcr, _, hst, he⟩
  · rw [he]; exact h
  · obtain ⟨hp, hs⟩ := IOScheduler.strategy_some _ _ _ _ _ _ hst
    have hmem : r ∈ s.scheduler.pending := hp ▸ IOScheduler.selected_mem _ r hs
    rw [he]
    refine ⟨fun q hq => h.1 q (by rw [← hp]; exact hq), ?_⟩
    intro r1 hr1
    simp only [Option.some.injEq] at hr1
    rw [← hr1]
    exact h.1 r hmem
  · have hp := IOScheduler.strategy_none _ _ _ _ _ hst
    have hf := changeDirection_frame { s with
        scheduler := sch, current_direction := dir,
        log := s.log ++ [Event.fallback s.current_time] }
    rw [he]
    refine ⟨?_, ?_⟩
    · rw [hf.2.2.2.1]
      intro q hq
      simp only [hp] at hq
      exact h.1 q hq
    · intro r1 hr1
      rw [hf.2.2.1] at hr1
      simp only at hr1
      rw [hcr] at hr1
      exact Option.noConfusion hr1

/-- A pass made with the clock from 0 up to, not including, `INT_MAX` keeps the
time stamps ordered, the arrival times non-negative and the totals in
agreement with the ledger, once the clock has ticked. -/
theorem TotalsInv_iteration (s s4 : Sim) (b : Bool)
    (h : s.TimeInv s.current_time ∧ s.ArrivalInv ∧ s.TotalsInv)
    (hc0 : 0 ≤ s.current_time) (hc1 : s.current_time < 2147483647)
    (hit : iteration s = some (b, s4)) :
    (tick s4).TimeInv (tick s4).current_time ∧ (tick s4).ArrivalInv ∧ (tick s4).TotalsInv := by
  obtain ⟨hT, hA, h⟩ := h
  obtain ⟨s2, s3, h2, h3, h4, _⟩ := iteration_cases s s4 b hit
  have e1 : (processArrivals s).current_time = s.current_time := by
    rcases processArrivals_cases s with ⟨h, _⟩ | ⟨op, rest, _, _, h⟩ <;> rw [h]
  have e2 : s2.current_time = s.current_time := by
    rw [← e1]
    rcases processCompletedRequests_cases _ s2 h2 with ⟨h, _⟩ | ⟨r, sch, _, _, _, h⟩ <;> rw [h]
  have t1 := TimeInv_processArrivals s hT
  have a1 := ArrivalInv_processArrivals s hA hc0
  have t2 := TimeInv_processCompletedRequests _ s2 (by rw [e1]; exact t1) h2
  rw [e1] at t2
  have a2 := ArrivalInv_processCompletedRequests _ s2 a1 h2
  have i1 : (processArrivals s).TotalsInv := by
    rcases processArrivals_cases s with ⟨he, _⟩ | ⟨op, rest, _, _, he⟩
    · rw [he]; exact h
    · rw [he]; exact TotalsInv_frame s _ h rfl rfl rfl rfl rfl
  have i2 := TotalsInv_processCompletedRequests _ s2 i1 (by
    intro r hr
    have := t1.2.1 r hr
    have := a1.2 r hr
    rw [e1]
    exact wrapInt_of_range _ (by omega) (by omega)) h2
  have i3 := TotalsInv_fetchNextRequest s2 s3 i2 (by
    intro r hr
    have := t2.1 r hr
    have := a2.1 r hr
    rw [e2]
    exact wrapInt_of_range _ (by omega) (by omega)) h3
  have a3 := ArrivalInv_fetchNextRequest s2 s3 a2 h3
  have hf := simulateHeadMovement_frame s3
  have ht := simulateHeadMovement_totals s3
  refine ⟨TimeInv_iteration s s4 b hT hc0 hc1 hit, ?_, ?_⟩
  · rw [h4]
    exact ⟨by simpa only [tick, hf.2.2.2.1] using a3.1, by simpa only [tick, hf.2.2.1] using a3.2⟩
  · rw [h4]
    exact TotalsInv_frame s3 _ i3 hf.2.2.2.2.1 hf.2.2.1 ht.1 ht.2.1 ht.2.2

theorem simulate_TotalsInv (p : Policy) (trace : List Operation) (n : Nat) (s : Sim)
    (hn : n ≤ 2147483647) (h : simulate n (Sim.init p trace) = some (true, s)) :
    s.TotalsInv := by
  have := simulate_invariant_bounded
    (fun s => s.TimeInv s.current_time ∧ s.ArrivalInv ∧ s.TotalsInv)
    (fun s => (tick s).TimeInv (tick s).current_time ∧ (tick s).ArrivalInv ∧ (tick s).TotalsInv)
    (fun s b s4 hI h0 h1 hit => TotalsInv_iteration s s4 b hI h0 h1 hit) (fun s hQ => hQ)
    n _ true s ⟨TimeInv_init p trace, ?_, TotalsInv_init p trace⟩ (le_refl _)
    (by simp only [Sim.init]; omega) h
  · exact TotalsInv_frame _ _ (this.2 rfl).2.2 rfl rfl rfl rfl rfl
  · refine ⟨?_, ?_⟩
    · intro q hq
      cases p <;> simp [Sim.init, Policy.scheduler, IOScheduler.pending] at hq
    · intro r hr
      simp [Sim.init] at hr

/-- Claim C13 (amended): the totals agree with the ledger at termination.  For
each policy and every trace, when the loop has exited within its first
`INT_MAX` passes (so that no time stamp has overflowed), `total_turnaround` is the
sum of `endTime - arrivalTime` over the records of the ledger,
`total_wait_time` the sum of `startTime - arrivalTime` over them, and
`max_wait_time` is the maximum of `startTime - arrivalTime` over them: 0 when
the ledger is empty, otherwise attained by a record and at least the wait of
every record. -/
theorem totals_agree_with_ledger (p : Policy) (trace : List Operation) (n : Nat) (s : Sim)
    (hn : n ≤ 2147483647) (h : simulate n (Sim.init p trace) = some (true, s)) :
    s.total_turnaround = (s.completedRequests.map fun r => r.endTime - r.arrivalTime).sum ∧
    s.total_wait_time = (s.completedRequests.map fun r => r.startTime - r.arrivalTime).sum ∧
    (s.completedRequests = [] → s.max_wait_time = 0) ∧
    (∀ r ∈ s.completedRequests, r.startTime - r.arrivalTime ≤ s.max_wait_time) ∧
    (s.completedRequests ≠ [] →
      ∃ r ∈ s.completedRequests, r.startTime - r.arrivalTime = s.max_wait_time) := by
  have hex := simulate_exit n _ s h
  unfold checkExitCondition at hex
  simp only [Bool.and_eq_true] at hex
  have hcr : s.current_request = none := by simpa using hex.1.1
  obtain ⟨h1, h2, h3, h4, h5⟩ := simulate_TotalsInv p trace n s hn h
  have htime := simulate_ledger_times p trace n true s hn h
  rw [hcr] at h2 h4 h5
  simp only [Option.toList, List.append_nil] at h2 h4 h5
  refine ⟨h1, h2, ?_, h4, ?_⟩
  · intro hnil
    rcases h5 with h5 | ⟨y, hy, _⟩
    · exact h5
    · rw [hnil] at hy
      exact absurd hy (List.not_mem_nil _)
  · intro hne
    rcases h5 with h5 | h5
    · obtain ⟨y, hy⟩ := List.exists_mem_of_ne_nil _ hne
      refine ⟨y, hy, ?_⟩
      have := h4 y hy
      have := (htime y hy).1
      omega
    · exact h5

/-- The hypotheses of `totals_agree_with_ledger` hold for SSTF on the trace
(0,5),(1,9),(2,4): the loop breaks in its twelfth pass with the totals 19
(turnaround), 8 (wait) and 5 (longest wait). -/
theorem totals_agree_with_ledger_witness :
    12 ≤ 2147483647 ∧
    ∃ s, simulate 12 (Sim.init Policy.S [⟨0, 5⟩, ⟨1, 9⟩, ⟨2, 4⟩]) = some (true, s) ∧
      s.total_turnaround = 19 ∧ s.total_wait_time = 8 ∧ s.max_wait_time = 5 ∧
      (s.total_turnaround = (s.completedRequests.map fun r => r.endTime - r.arrivalTime).sum ∧
      s.total_wait_time = (s.completedRequests.map fun r => r.startTime - r.arrivalTime).sum ∧
      (s.completedRequests = [] → s.max_wait_time = 0) ∧
      (∀ r ∈ s.completedRequests, r.startTime - r.arrivalTime ≤ s.max_wait_time) ∧
      (s.completedRequests ≠ [] →
        ∃ r ∈ s.completedRequests, r.startTime - r.arrivalTime = s.max_wait_time)) :=
  ⟨by decide, _, rfl, rfl, rfl, rfl,
    totals_agree_with_ledger Policy.S [⟨0, 5⟩, ⟨1, 9⟩, ⟨2, 4⟩] 12 _ (by decide) rfl⟩

/-! ## The fallback branch and the head movement -/

theorem CLook.closest_valid (q : List Request) (ct : Int) (hq : q ≠ []) :
    ∃ r, q[CLook.closest q ct]? = some r := by
  obtain ⟨r0, hr0, -, -⟩ := minElement_spec (CLook.key ct) q hq
  obtain ⟨r1, hr1, -, -⟩ := minElement_spec (fun a : Request => a.getTrack) q hq
  have hc0 : (fun a b : Request => decide (CLook.key ct a < CLook.key ct b))
      = CLook.compAhead ct := rfl
  have hc1 : (fun a b : Request => decide (a.getTrack < b.getTrack)) = CLook.compTrack := rfl
  rw [hc0] at hr0
  rw [hc1] at hr1
  unfold CLook.closest
  simp only [hr0]
  split
  · exact ⟨r1, hr1⟩
  · exact ⟨r0, hr0⟩

/-- With a non-empty scheduler, `strategy` does not return `nullptr`. -/
theorem IOScheduler.strategy_not_null (p p1 : IOScheduler) (ct cd d1 : Int)
    (hne : p.isEmpty = false) : p.strategy ct cd ≠ some (none, p1, d1) := by
  intro h
  cases p with
  | fifo s =>
    simp only [IOScheduler.strategy, Option.some.injEq, Prod.mk.injEq] at h
    have h1 := h.1
    unfold FIFO.strategy at h1
    split at h1
    · simp at h1
    · rename_i hq
      simp [IOScheduler.isEmpty, FIFO.isEmpty, hq] at hne
  | sstf s =>
    have hq : s.IOQueue ≠ [] := by
      intro hq
      simp [IOScheduler.isEmpty, SSTF.isEmpty, hq] at hne
    obtain ⟨r, hr, -, -⟩ :=
      minElement_spec (fun a : Request => stdAbs (wrapInt (a.getTrack - ct))) s.IOQueue hq
    have hcomp : (fun a b : Request =>
        decide (stdAbs (wrapInt (a.getTrack - ct)) < stdAbs (wrapInt (b.getTrack - ct))))
        = SSTF.comp ct := rfl
    rw [hcomp] at hr
    simp [IOScheduler.strategy, SSTF.strategy, hq, hr] at h
  | look s =>
    simp only [IOScheduler.strategy, Option.map_eq_some'] at h
    obtain ⟨_, _, h2⟩ := h
    simp at h2
  | clook s =>
    have hq : s.IOQueue ≠ [] := by
      intro hq
      simp [IOScheduler.isEmpty, CLook.isEmpty, hq] at hne
    obtain ⟨r, hr⟩ := CLook.closest_valid s.IOQueue ct hq
    simp [IOScheduler.strategy, CLook.strategy, hq, hr] at h
  | flook s =>
    simp only [IOScheduler.strategy, Option.map_eq_some'] at h
    obtain ⟨_, _, h2⟩ := h
    simp at h2

/-- What `fetchNextRequest` can do, given that the fallback is excluded: leave
the state as it is, or issue a request. -/
theorem fetchNextRequest_no_fallback (s s3 : Sim) (h : fetchNextRequest s = some s3) :
    (s3 = s ∧ (s.current_request ≠ none ∨ s.scheduler.isEmpty = true)) ∨
    (∃ r sch dir, s.current_request = none ∧ s.scheduler.isEmpty = false ∧
      s.scheduler.strategy s.current_track s.current_direction = some (some r, sch, dir) ∧
      s3 = { s with
        scheduler := sch,
        current_direction := dir,
        current_request := some { r with startTime := s.current_time },
        total_wait_time := s.total_wait_time + wrapInt (s.current_time - r.arrivalTime),
        max_wait_time := max s.max_wait_time (wrapInt (s.current_time - r.arrivalTime)),
        log := s.log ++ [Event.issue s.current_time { r with startTime := s.current_time }
          s.current_track s.current_direction sch.pending],
        current_time := if r.track = s.current_track then wrapInt (s.current_time - 1)
          else s.current_time }) := by
  rcases fetchNextRequest_cases s s3 h with h1 | h1 | ⟨sch, dir, _, hne, hst, _⟩
  · exact Or.inl h1
  · exact Or.inr h1
  · exact absurd hst (IOScheduler.strategy_not_null _ sch _ _ dir hne)

/-- Claim C17 as stated fails: on the empty trace (here under FIFO) the loop
exits in its first pass and `printDetails` divides by `current_time` and by
`request_number`, which are both 0; no division is guarded. -/
theorem printDetails_divides_by_zero :
    ∃ s, simulate 1 (Sim.init Policy.N []) = some (true, s) ∧
      (printDetails s).2.avg_movement.den = 0 ∧
      (printDetails s).2.avg_turnaround.den = 0 ∧
      (printDetails s).2.avg_wait.den = 0 :=
  ⟨_, rfl, rfl, rfl, rfl⟩

/-- Claim C17 (amended): the empty trace.  For each policy, on the empty trace
the loop exits in its first pass with the clock at 0, an empty ledger and
`total_movement`, `total_turnaround`, `total_wait_time` and `max_wait_time`
all 0; `printDetails` then prints no record and evaluates its three divisions
with the numerator 0 and the divisors `current_time = 0` and
`request_number = 0`. -/
theorem empty_trace_exits_at_once (p : Policy) :
    ∃ s, simulate 1 (Sim.init p []) = some (true, s) ∧
      s.current_time = 0 ∧ s.completedRequests = [] ∧
      s.total_movement = 0 ∧ s.total_turnaround = 0 ∧ s.total_wait_time = 0 ∧
      s.max_wait_time = 0 ∧
      printDetails s =
        ([], { current_time := 0, total_movement := 0,
               avg_movement := { num := 0, den := 0 },
               avg_turnaround := { num := 0, den := 0 },
               avg_wait := { num := 0, den := 0 },
               max_wait_time := 0 }) := by
  cases p <;> exact ⟨_, rfl, rfl, rfl, rfl, rfl, rfl, rfl, rfl⟩

/-! ## Order of completion -/

theorem finishedOf_append_add (log : List Event) (t : Int) (r : Request) :
    finishedOf (log ++ [Event.add t r]) = finishedOf log := by
  simp [finishedOf, List.filterMap_append, Event.finished]

theorem finishedOf_append_finish (log : List Event) (t : Int) (r : Request) :
    finishedOf (log ++ [Event.finish t r]) = finishedOf log ++ [r] := by
  simp [finishedOf, List.filterMap_append, Event.finished]

theorem finishedOf_append_issue (log : List Event) (t : Int) (r : Request) (h d : Int)
    (pend : List Request) :
    finishedOf (log ++ [Event.issue t r h d pend]) = finishedOf log := by
  simp [finishedOf, List.filterMap_append, Event.finished]

theorem finishedOf_append_fallback (log : List Event) (t : Int) :
    finishedOf (log ++ [Event.fallback t]) = finishedOf log := by
  simp [finishedOf, List.filterMap_append, Event.finished]

/-- A record whose number is above all those of the ledger goes to its end. -/
theorem addCompleted_append (l : List Request) (r : Request)
    (h : ∀ x ∈ l, x.requestNumber < r.requestNumber) : addCompleted l r = l ++ [r] := by
  rw [addCompleted_eq]
  have h1 : l.takeWhile (fun lhs => decide (lhs.requestNumber < r.requestNumber)) = l := by
    rw [List.takeWhile_eq_self_iff]
    intro x hx
    simpa using h x hx
  have h2 : l.dropWhile (fun lhs => decide (lhs.requestNumber < r.requestNumber)) = [] := by
    rw [List.dropWhile_eq_nil_iff]
    intro x hx
    simpa using h x hx
  rw [h1, h2]

theorem expectedFrom_upper (l : List Operation) :
    ∀ (i : Nat) (x : Int × Int × Int), x ∈ expectedFrom i l → x.1 < ((i + l.length : Nat) : Int) := by
  induction l with
  | nil => intro i x hx; simp [expectedFrom] at hx
  | cons a l ih =>
    intro i x hx
    simp only [expectedFrom, List.mem_cons] at hx
    rcases hx with hx | hx
    · rw [hx]
      simp only [List.length_cons]
      push_cast
      omega
    · have := ih (i + 1) x hx
      simp only [List.length_cons]
      push_cast at this ⊢
      omega

/-- Every request pending or in the ledger has a number below `request_number`. -/
theorem LedgerInv_ids_lt (trace : List Operation) (s : Sim) (h : s.LedgerInv trace) :
    ∀ x ∈ s.scheduler.pending ++ s.completedRequests, x.requestNumber < s.request_number := by
  obtain ⟨⟨done, _, hn, hperm⟩, _, _⟩ := h
  intro x hx
  have hm : x.core ∈ expectedFrom 0 done := hperm.subset (List.mem_map_of_mem _ hx)
  have := expectedFrom_upper done 0 x.core hm
  rw [hn]
  simpa [Request.core] using this

theorem FifoInv_processArrivals (trace : List Operation) (s : Sim) (hL : s.LedgerInv trace)
    (h : s.FifoInv) : (processArrivals s).FifoInv := by
  rcases processArrivals_cases s with ⟨he, _⟩ | ⟨op, rest, _, _, he⟩
  · rw [he]; exact h
  · obtain ⟨f, hf, hs, hled⟩ := h
    have hlt := LedgerInv_ids_lt trace s hL
    rw [he]
    refine ⟨f.addRequest (Request.create s.request_number op.track s.current_time), ?_, ?_, ?_⟩
    · simp only [hf, IOScheduler.addRequest]
    · simp only [FIFO.addRequest, List.map_append, List.map_cons, List.map_nil]
      rw [← List.append_assoc, List.pairwise_append]
      refine ⟨hs, List.pairwise_singleton _ _, ?_⟩
      intro a ha b hb
      simp only [List.mem_singleton] at hb
      rw [hb]
      simp only [Request.create]
      rw [← List.map_append, List.mem_map] at ha
      obtain ⟨x, hx, hxa⟩ := ha
      rw [← hxa]
      apply hlt x
      rw [hf]
      simp only [IOScheduler.pending, List.mem_append] at hx ⊢
      exact hx.symm
    · simp only [issuedOf_append_add, finishedOf_append_add]
      exact hled

theorem FifoInv_processCompletedRequests (trace : List Operation) (s s2 : Sim)
    (hL : s.LedgerInv trace) (h : s.FifoInv) (h2 : processCompletedRequests s = some s2) :
    s2.FifoInv := by
  rcases processCompletedRequests_cases s s2 h2 with ⟨he, _⟩ | ⟨r, sch, hr, _, hrm, he⟩
  · rw [he]; exact h
  · obtain ⟨f, hf, hs, hled⟩ := h
    obtain ⟨q, hq, hqc⟩ := hL.2.2 r hr
    have hid : q.requestNumber = r.requestNumber := by
      have := congrArg (fun c => c.1) hqc
      simpa [Request.core] using this
    rw [hf] at hq hrm
    simp only [IOScheduler.selected] at hq
    cases hfq : f.IOQueue with
    | nil => simp [hfq] at hq
    | cons a rest =>
      simp only [hfq, List.head?_cons, Option.some.injEq] at hq
      subst hq
      have hsch : sch = IOScheduler.fifo { IOQueue := rest } := by
        simp only [IOScheduler.removeRequest, FIFO.removeRequest, hfq, Option.some.injEq] at hrm
        exact hrm.symm
      rw [hfq, List.map_cons, List.pairwise_append] at hs
      have hbelow : ∀ x ∈ s.completedRequests,
          x.requestNumber < ({ r with endTime := s.current_time } : Request).requestNumber := by
        intro x hx
        have := hs.2.2 _ (List.mem_map_of_mem _ hx) _ (List.mem_cons_self _ _)
        simp only
        rw [← hid]
        exact this
      rw [he]
      refine ⟨{ IOQueue := rest }, hsch, ?_, ?_⟩
      · simp only
        rw [addCompleted_append _ _ hbelow, List.map_append, List.map_cons, List.map_nil,
          List.append_assoc, List.singleton_append, ← hid, List.pairwise_append]
        exact hs
      · simp only [finishedOf_append_finish]
        rw [addCompleted_append _ _ hbelow, hled]

theorem FifoInv_fetchNextRequest (s s3 : Sim) (h : s.FifoInv)
    (h3 : fetchNextRequest s = some s3) : s3.FifoInv := by
  rcases fetchNextRequest_no_fallback s s3 h3 with ⟨he, _⟩ | ⟨r, sch, dir, _, _, hst, he⟩
  · rw [he]; exact h
  · obtain ⟨f, hf, hs, hled⟩ := h
    rw [hf] at hst
    simp only [IOScheduler.strategy, Option.some.injEq, Prod.mk.injEq] at hst
    rw [he]
    refine ⟨f, hst.2.1.symm, hs, ?_⟩
    simp only [finishedOf_append_issue]
    exact hled

theorem FifoInv_frame (s s1 : Sim) (h : s.FifoInv) (h1 : s1.scheduler = s.scheduler)
    (h2 : s1.completedRequests = s.completedRequests) (h3 : s1.log = s.log) : s1.FifoInv := by
  unfold Sim.FifoInv at *
  rw [h1, h2, h3]
  exact h

theorem FifoInv_iteration (trace : List Operation) (s s4 : Sim) (b : Bool)
    (hL : s.LedgerInv trace) (h : s.FifoInv) (hit : iteration s = some (b, s4)) :
    s4.FifoInv := by
  obtain ⟨s2, s3, h2, h3, h4, _⟩ := iteration_cases s s4 b hit
  have i1 := FifoInv_processArrivals trace s hL h
  have i2 := FifoInv_processCompletedRequests trace _ s2
    (LedgerInv_processArrivals trace s hL) i1 h2
  have i3 := FifoInv_fetchNextRequest s2 s3 i2 h3
  have hf := simulateHeadMovement_frame s3
  rw [h4]
  exact FifoInv_frame s3 _ i3 hf.2.2.2.1 hf.2.2.2.2.1 hf.2.2.2.2.2.2

/-- Claim C19 as stated fails: under SSTF on the trace (0,5),(1,9),(2,4) the
requests complete in the order 0, 2, 1, so the record of request 1, completed
last, is inserted by `addCompleted` before that of request 2, not at the end
of the ledger. -/
theorem sstf_completes_out_of_order :
    ∃ s, simulate 12 (Sim.init Policy.S [⟨0, 5⟩, ⟨1, 9⟩, ⟨2, 4⟩]) = some (true, s) ∧
      (finishedOf s.log).map Request.requestNumber = [0, 2, 1] ∧
      s.completedRequests.map Request.requestNumber = [0, 1, 2] :=
  ⟨_, rfl, rfl, rfl⟩

/-- Claim C19 (amended): completion is append-only under FIFO.  For every
trace, in every state a FIFO run passes through at the top of a pass and in
the state it exits with, the ledger is the sequence of the records completed
so far, in the order of their completion (every call of `addCompleted` has
placed its record at the end), and their request numbers are strictly
increasing: the requests complete in arrival order. -/
theorem fifo_completion_append_only (trace : List Operation) (n : Nat) (b : Bool) (s : Sim)
    (h : simulate n (Sim.init Policy.N trace) = some (b, s)) :
    s.completedRequests = finishedOf s.log ∧
    ((finishedOf s.log).map Request.requestNumber).Pairwise (fun a b => a < b) := by
  have := simulate_invariant (fun s => s.LedgerInv trace ∧ s.FifoInv)
    (fun s b s4 hI hit =>
      ⟨LedgerInv_iteration trace s s4 b hI.1 hit, FifoInv_iteration trace s s4 b hI.1 hI.2 hit⟩)
    (fun s hI => ⟨LedgerInv_tick trace s hI.1, FifoInv_frame s _ hI.2 rfl rfl rfl⟩) n _ b s
    ⟨LedgerInv_init Policy.N trace,
      ⟨{ IOQueue := [] }, rfl, by simp [Sim.init], by simp [Sim.init, finishedOf]⟩⟩ h
  obtain ⟨hL, f, _, _, hled⟩ := this
  refine ⟨hled, ?_⟩
  rw [← hled]
  exact hL.2.1

/-- The hypothesis of `fifo_completion_append_only` holds for FIFO on the trace
(0,5),(1,9),(2,4): the loop breaks in its fifteenth pass, the requests having
completed in the order 0, 1, 2. -/
theorem fifo_completion_append_only_witness :
    ∃ s, simulate 15 (Sim.init Policy.N [⟨0, 5⟩, ⟨1, 9⟩, ⟨2, 4⟩]) = some (true, s) ∧
      (finishedOf s.log).map Request.requestNumber = [0, 1, 2] ∧
      (s.completedRequests = finishedOf s.log ∧
      ((finishedOf s.log).map Request.requestNumber).Pairwise (fun a b => a < b)) :=
  ⟨_, rfl, rfl, fifo_completion_append_only [⟨0, 5⟩, ⟨1, 9⟩, ⟨2, 4⟩] 15 true _ rfl⟩

/-! ## `strategy` returns a request -/

theorem FLook.flook_scanLoop_spec (ct d : Int) (xs : List Request) :
    ∀ (pre : List Request) (acc : FLook.Scan),
      (∀ x ∈ xs, |x.track - ct| < INT_MAX) →
      FLook.ScanInv ct d pre acc →
      FLook.ScanInv ct d (pre ++ xs) (FLook.scanLoop ct d xs pre.length acc) := by
  induction xs with
  | nil =>
    intro pre acc _ h
    simpa [FLook.scanLoop] using h
  | cons x xs ih =>
    intro pre acc hr h
    have hlen : (pre ++ [x]).length = pre.length + 1 := by simp
    have happ : (pre ++ [x]) ++ xs = pre ++ x :: xs := by simp
    have hr' : ∀ y ∈ xs, |y.track - ct| < INT_MAX :=
      fun y hy => hr y (List.mem_cons_of_mem _ hy)
    have hxr := hr x (List.mem_cons_self _ _)
    have hw : wrapInt (x.getTrack - ct) = x.getTrack - ct := wrapInt_of_abs _ (le_of_lt hxr)
    have ha : stdAbs (x.getTrack - ct) = |x.getTrack - ct| := by
      have h0 := stdAbs_wrapInt _ (le_of_lt hxr)
      rw [wrapInt_of_abs _ (le_of_lt hxr)] at h0
      exact h0
    by_cases hside : onSide ct d x
    · by_cases hlt : stdAbs (x.getTrack - ct) < acc.min_distance
      · have hstep : FLook.scanLoop ct d (x :: xs) pre.length acc
            = FLook.scanLoop ct d xs (pre ++ [x]).length
                { closest_index := (pre.length : Int),
                  min_distance := stdAbs (x.getTrack - ct), direction_fulfilled := true } := by
          have hside' := hside
          unfold onSide at hside'
          simp only [FLook.scanLoop, hw, hside', hlt, if_true, hlen]
        rw [hstep, ← happ]
        apply ih _ _ hr'
        right
        refine ⟨rfl, pre.length, x, rfl, ?_, ?_, hside, ?_, ?_⟩
        · exact ha
        · simp
        · intro y hy hys
          rcases List.mem_append.mp hy with hy | hy
          · rcases h with ⟨_, _, hsd, hnone⟩ | ⟨_, i, r, _, hsd, _, _, hmin, _⟩
            · exact absurd hys (hnone y hy)
            · have := hmin y hy hys
              rw [hsd, ha] at hlt
              simp only [Request.getTrack] at hlt
              omega
          · simp at hy
            subst hy
            exact le_refl _
        · intro j y hj hjy hys
          rw [List.getElem?_append_left hj] at hjy
          have hy := List.getElem?_mem hjy
          rcases h with ⟨_, _, hsd, hnone⟩ | ⟨_, i, r, _, hsd, _, _, hmin, _⟩
          · exact absurd hys (hnone y hy)
          · have := hmin y hy hys
            rw [hsd, ha] at hlt
            simp only [Request.getTrack] at hlt
            omega
      · have hstep : FLook.scanLoop ct d (x :: xs) pre.length acc
            = FLook.scanLoop ct d xs (pre ++ [x]).length
                { acc with direction_fulfilled := true } := by
          have hside' := hside
          unfold onSide at hside'
          simp only [FLook.scanLoop, hw, hside', hlt, if_true, if_false, hlen]
        rw [hstep, ← happ]
        apply ih _ _ hr'
        rw [ha] at hlt
        simp only [Request.getTrack] at hlt
        rcases h with ⟨_, _, hsd, _⟩ | ⟨hf, i, r, hi, hsd, hir, hrs, hmin, hfirst⟩
        · omega
        · right
          have hil : i < pre.length := (List.getElem?_eq_some_iff.mp hir).1
          refine ⟨rfl, i, r, hi, hsd, ?_, hrs, ?_, ?_⟩
          · rw [List.getElem?_append_left hil]; exact hir
          · intro y hy hys
            rcases List.mem_append.mp hy with hy | hy
            · exact hmin y hy hys
            · simp at hy
              subst hy
              omega
          · intro j y hj hjy hys
            rw [List.getElem?_append_left (by omega)] at hjy
            exact hfirst j y hj hjy hys
    · have hstep : FLook.scanLoop ct d (x :: xs) pre.length acc
          = FLook.scanLoop ct d xs (pre ++ [x]).length acc := by
        have hside' := hside
        unfold onSide at hside'
        simp only [FLook.scanLoop, hw, hside', if_false, hlen]
      rw [hstep, ← happ]
      apply ih _ _ hr'
      rcases h with ⟨hf, hc, hsd, hnone⟩ | ⟨hf, i, r, hi, hsd, hir, hrs, hmin, hfirst⟩
      · left
        refine ⟨hf, hc, hsd, ?_⟩
        intro y hy
        rcases List.mem_append.mp hy with hy | hy
        · exact hnone y hy
        · simp at hy
          subst hy
          exact hside
      · right
        have hil : i < pre.length := (List.getElem?_eq_some_iff.mp hir).1
        refine ⟨hf, i, r, hi, hsd, ?_, hrs, ?_, ?_⟩
        · rw [List.getElem?_append_left hil]; exact hir
        · intro y hy hys
          rcases List.mem_append.mp hy with hy | hy
          · exact hmin y hy hys
          · simp at hy
            subst hy
            exact absurd hys hside
        · intro j y hj hjy hys
          rw [List.getElem?_append_left (by omega)] at hjy
          exact hfirst j y hj hjy hys

theorem FLook.flook_scan_spec (q : List Request) (ct d : Int)
    (hr : ∀ x ∈ q, |x.track - ct| < INT_MAX) :
    FLook.ScanInv ct d q (FLook.scan q ct d) := by
  have h := FLook.flook_scanLoop_spec ct d q []
    { closest_index := -1, min_distance := INT_MAX, direction_fulfilled := false } hr
    (Or.inl ⟨rfl, rfl, rfl, by simp⟩)
  simpa [FLook.scan] using h

/-- On a non-empty active queue all of whose requests are less than `INT_MAX`
tracks from the head, `FLook::strategy` returns within two levels: the closest
request on the side of the direction, or else, the direction reversed, the
closest on the other side. -/
theorem FLook.strategy_active (s : FLook) (ct d : Int) (hne : s.active ≠ [])
    (hd : d = 1 ∨ d = -1) (hrange : ∀ x ∈ s.active, |x.track - ct| < INT_MAX) :
    ∃ (i : Nat) (r : Request) (d1 : Int), (d1 = d ∨ d1 = -d) ∧
      IsClosestOnSide s.active ct d1 i r ∧
      ∀ fuel, FLook.strategy (fuel + 2) s ct d
        = some (r, { s with current_index := (i : Int) }, d1) := by
  have hem : s.active.isEmpty = false := by
    cases hq : s.active with
    | nil => exact absurd hq hne
    | cons a l => rfl
  have hs0 : (if s.active.isEmpty = true then s.swap else s) = s := by simp [hem]
  rcases FLook.flook_scan_spec s.active ct d hrange with
    ⟨hf, _, _, hnone⟩ | ⟨hf, i, r, hi, _, hcl⟩
  · rcases FLook.flook_scan_spec s.active ct (-d) hrange with
      ⟨_, _, _, hnone2⟩ | ⟨hf2, i, r, hi, _, hcl⟩
    · obtain ⟨y, hy⟩ := List.exists_mem_of_ne_nil _ hne
      exact absurd (onSide_neg_of_not ct d hd y (hnone y hy)) (hnone2 y hy)
    · refine ⟨i, r, -d, Or.inr rfl, hcl, fun fuel => ?_⟩
      rw [FLook.strategy_step (fuel + 1), hs0, hf]
      simp only [Bool.false_eq_true, not_false_eq_true, ↓reduceIte]
      rw [FLook.strategy_step fuel, hs0, hf2, hi]
      simp [atIndex, hcl.1]
  · refine ⟨i, r, d, Or.inl rfl, hcl, fun fuel => ?_⟩
    rw [FLook.strategy_step (fuel + 1), hs0, hf, hi]
    simp [atIndex, hcl.1]

/-- With a non-empty scheduler, a direction of +1 or -1 and every pending
request less than `INT_MAX` tracks from the head, `strategy` returns a
pending request, and leaves a direction of +1 or -1. -/
theorem IOScheduler.strategy_returns (p : IOScheduler) (ct d : Int)
    (hne : p.isEmpty = false) (hd : d = 1 ∨ d = -1)
    (hrange : ∀ x ∈ p.pending, |x.track - ct| < INT_MAX) :
    ∃ (r : Request) (p1 : IOScheduler) (d1 : Int),
      p.strategy ct d = some (some r, p1, d1) ∧ r ∈ p.pending ∧ (d1 = 1 ∨ d1 = -1) := by
  have hflip : ∀ d1 : Int, d1 = d ∨ d1 = -d → d1 = 1 ∨ d1 = -1 := by
    intro d1 h
    rcases h with h | h <;> rcases hd with hd | hd <;> subst h <;> subst hd <;> simp
  cases p with
  | fifo s =>
    cases hq : s.IOQueue with
    | nil => simp [IOScheduler.isEmpty, FIFO.isEmpty, hq] at hne
    | cons a rest =>
      refine ⟨a, .fifo s, if ct > a.track then -1 else 1, ?_, ?_, ?_⟩
      · simp [IOScheduler.strategy, FIFO.strategy, hq]
      · simp [IOScheduler.pending, hq]
      · split <;> simp
  | sstf s =>
    have hq : s.IOQueue ≠ [] := by
      intro hq
      simp [IOScheduler.isEmpty, SSTF.isEmpty, hq] at hne
    obtain ⟨r, hr, -, -⟩ :=
      minElement_spec (fun a : Request => stdAbs (wrapInt (a.getTrack - ct))) s.IOQueue hq
    have hcomp : (fun a b : Request =>
        decide (stdAbs (wrapInt (a.getTrack - ct)) < stdAbs (wrapInt (b.getTrack - ct))))
        = SSTF.comp ct := rfl
    rw [hcomp] at hr
    refine ⟨r, .sstf { s with current_index := (minElement (SSTF.comp ct) s.IOQueue : Nat) },
      if r.getTrack > ct then 1 else -1, ?_, List.getElem?_mem hr, ?_⟩
    · simp [IOScheduler.strategy, SSTF.strategy, hq, hr]
    · split <;> simp
  | look s =>
    have hq : s.IOQueue ≠ [] := by
      intro hq
      simp [IOScheduler.isEmpty, Look.isEmpty, hq] at hne
    by_cases hex : ∃ x ∈ s.IOQueue, onSide ct d x
    · obtain ⟨i, r, hcl, hs⟩ := Look.strategy_on_side s ct d hrange hex
      refine ⟨r, .look { s with current_index := (i : Int) }, d, ?_, List.getElem?_mem hcl.1, hd⟩
      simp [IOScheduler.strategy, reversalDepth, hs 1]
    · have hnone : ∀ x ∈ s.IOQueue, ¬ onSide ct d x := fun x hx hxs => hex ⟨x, hx, hxs⟩
      obtain ⟨y, hy⟩ := List.exists_mem_of_ne_nil _ hq
      obtain ⟨i, r, hcl, hs⟩ := Look.strategy_on_side s ct (-d) hrange
        ⟨y, hy, onSide_neg_of_not ct d hd y (hnone y hy)⟩
      refine ⟨r, .look { s with current_index := (i : Int) }, -d, ?_, List.getElem?_mem hcl.1,
        hflip _ (Or.inr rfl)⟩
      simp only [IOScheduler.strategy, reversalDepth]
      rw [Look.strategy_not_found 1 s ct d (Look.scan_off_side _ ct d hrange hnone), hs 0]
      rfl
  | clook s =>
    have hq : s.IOQueue ≠ [] := by
      intro hq
      simp [IOScheduler.isEmpty, CLook.isEmpty, hq] at hne
    obtain ⟨r, hr⟩ := CLook.closest_valid s.IOQueue ct hq
    refine ⟨r, .clook { s with current_index := (CLook.closest s.IOQueue ct : Nat) }, 1, ?_,
      List.getElem?_mem hr, Or.inl rfl⟩
    simp [IOScheduler.strategy, CLook.strategy, hq, hr]
  | flook s =>
    by_cases hem : s.active.isEmpty = true
    · have hnil : s.active = [] := by simpa using hem
      have hadd : s.add ≠ [] := by
        intro ha
        simp [IOScheduler.isEmpty, FLook.isEmpty, hnil, ha] at hne
      obtain ⟨i, r, d1, hd1, hcl, hs⟩ := FLook.strategy_active s.swap ct d
        (by simpa [FLook.swap] using hadd) hd
        (fun x hx => hrange x (by
          simp only [IOScheduler.pending, List.mem_append]
          exact Or.inr (by simpa [FLook.swap] using hx)))
      have hsw : FLook.strategy 2 s ct d = FLook.strategy 2 s.swap ct d := by
        have hem2 : s.swap.active.isEmpty = false := by
          cases hq : s.add with
          | nil => exact absurd hq hadd
          | cons a l => simp [FLook.swap, hq]
        rw [FLook.strategy_step 1 s, FLook.strategy_step 1 s.swap]
        simp only [hem, hem2, ↓reduceIte, Bool.false_eq_true]
      refine ⟨r, .flook { s.swap with current_index := (i : Int) }, d1, ?_, ?_, hflip _ hd1⟩
      · simp only [IOScheduler.strategy, reversalDepth]
        rw [hsw, hs 0]
        rfl
      · simp only [IOScheduler.pending, List.mem_append]
        exact Or.inr (by simpa [FLook.swap] using List.getElem?_mem hcl.1)
    · have hne2 : s.active ≠ [] := by
        intro h
        simp [h] at hem
      obtain ⟨i, r, d1, hd1, hcl, hs⟩ := FLook.strategy_active s ct d hne2 hd
        (fun x hx => hrange x (by
          simp only [IOScheduler.pending, List.mem_append]
          exact Or.inl hx))
      refine ⟨r, .flook { s with current_index := (i : Int) }, d1, ?_, ?_, hflip _ hd1⟩
      · simp only [IOScheduler.strategy, reversalDepth]
        rw [hs 0]
        rfl
      · simp only [IOScheduler.pending, List.mem_append]
        exact Or.inl (List.getElem?_mem hcl.1)

/-! ## The fallback branch is never taken -/

/-- A pass appends no `fallback` event to the log. -/
theorem iteration_log_no_fallback (s s4 : Sim) (b : Bool) (hit : iteration s = some (b, s4))
    (h : ∀ t, Event.fallback t ∉ s.log) : ∀ t, Event.fallback t ∉ s4.log := by
  obtain ⟨s2, s3, h2, h3, h4, _⟩ := iteration_cases s s4 b hit
  have e1 : ∀ t, Event.fallback t ∉ (processArrivals s).log := by
    rcases processArrivals_cases s with ⟨h1, _⟩ | ⟨op, rest, _, _, h1⟩ <;> rw [h1]
    · exact h
    · intro t
      simp [h t]
  have e2 : ∀ t, Event.fallback t ∉ s2.log := by
    rcases processCompletedRequests_cases _ s2 h2 with ⟨h1, _⟩ | ⟨r, sch, _, _, _, h1⟩ <;> rw [h1]
    · exact e1
    · intro t
      simp [e1 t]
  have e3 : ∀ t, Event.fallback t ∉ s3.log := by
    rcases fetchNextRequest_no_fallback s2 s3 h3 with ⟨h1, _⟩ | ⟨r, sch, dir, _, _, _, h1⟩ <;>
      rw [h1]
    · exact e2
    · intro t
      simp [e2 t]
  rw [h4, (simulateHeadMovement_frame s3).2.2.2.2.2.2]
  exact e3

/-- No state a run reports has a `fallback` event in its log. -/
theorem simulate_no_fallback (p : Policy) (ops : List Operation) (n : Nat) (b : Bool) (s : Sim)
    (h : simulate n (Sim.init p ops) = some (b, s)) : ∀ t, Event.fallback t ∉ s.log := by
  refine simulate_invariant (fun s => ∀ t, Event.fallback t ∉ s.log)
    (fun s b s4 hI hit => iteration_log_no_fallback s s4 b hit hI)
    (fun s hI => by simpa [tick] using hI) n _ b s ?_ h
  intro t
  simp [Sim.init]

/-- Claim C18 as stated fails: an FLOOK scheduler whose active queue holds one
request for track `INT_MAX` is not empty, and with the head at track 0 and
direction +1 the request lies in the direction (`direction_fulfilled`), but its
distance is not below `min_distance`, so `closest_index` stays `-1` and
`active->at(-1)` throws: `strategy` returns no request, at any depth. -/
theorem FLook.strategy_int_max_throws :
    (IOScheduler.flook ⟨[Request.create 0 2147483647 0], [], -1⟩).isEmpty = false ∧
    (IOScheduler.flook ⟨[Request.create 0 2147483647 0], [], -1⟩).strategy 0 1 = none ∧
    ∀ fuel, FLook.strategy fuel ⟨[Request.create 0 2147483647 0], [], -1⟩ 0 1 = none := by
  have hstuck : ∀ fuel, FLook.strategy fuel ⟨[Request.create 0 2147483647 0], [], -1⟩ 0 1
      = none := by
    intro fuel
    cases fuel with
    | zero => rfl
    | succ fuel =>
      rw [FLook.strategy_step, if_neg (by decide)]
      rfl
  exact ⟨rfl, by simp only [IOScheduler.strategy, hstuck]; rfl, hstuck⟩

/-- Claim C18, with the distances bounded: for each of the five policies, when
`isEmpty` is false, the direction is +1 or -1 and every pending request is less
than `INT_MAX` tracks from the head, `strategy` returns one of the pending
requests (for LOOK and FLOOK within the two levels of recursion the engine
model allows) and leaves a direction of +1 or -1; and in every run of the
engine, whatever the policy and the trace, no state reached at the top of a
pass or at the exit has taken the fallback branch of `fetchNextRequest`: its
log holds no `fallback` event. -/
theorem IOScheduler.select_returns_request (p : IOScheduler) (ct d : Int)
    (hne : p.isEmpty = false) (hd : d = 1 ∨ d = -1)
    (hrange : ∀ x ∈ p.pending, |x.track - ct| < INT_MAX)
    (pol : Policy) (ops : List Operation) (n : Nat) (b : Bool) (s : Sim)
    (hrun : simulate n (Sim.init pol ops) = some (b, s)) :
    (∃ (r : Request) (p1 : IOScheduler) (d1 : Int),
      p.strategy ct d = some (some r, p1, d1) ∧ r ∈ p.pending ∧ (d1 = 1 ∨ d1 = -1)) ∧
    ∀ t, Event.fallback t ∉ s.log :=
  ⟨IOScheduler.strategy_returns p ct d hne hd hrange, simulate_no_fallback pol ops n b s hrun⟩

/-- The hypotheses of `IOScheduler.select_returns_request` hold for the LOOK
scheduler with pending tracks 30 and 20, the head at 50 and direction +1
(nothing lies ahead, so the recursion reverses once), and for the LOOK run on
the trace (0,5),(1,9),(2,4), which breaks in its fifteenth pass. -/
theorem IOScheduler.select_returns_request_witness :
    (IOScheduler.look ⟨[Request.create 0 30 0, Request.create 1 20 0], 0⟩).isEmpty = false ∧
    (∃ s, simulate 15 (Sim.init Policy.L [⟨0, 5⟩, ⟨1, 9⟩, ⟨2, 4⟩]) = some (true, s) ∧
      ((∃ (r : Request) (p1 : IOScheduler) (d1 : Int),
        (IOScheduler.look ⟨[Request.create 0 30 0, Request.create 1 20 0], 0⟩).strategy 50 1
          = some (some r, p1, d1) ∧
        r ∈ (IOScheduler.look ⟨[Request.create 0 30 0, Request.create 1 20 0], 0⟩).pending ∧
        (d1 = 1 ∨ d1 = -1)) ∧
      ∀ t, Event.fallback t ∉ s.log)) :=
  ⟨rfl, _, rfl,
    IOScheduler.select_returns_request
      (IOScheduler.look ⟨[Request.create 0 30 0, Request.create 1 20 0], 0⟩) 50 1 rfl
      (Or.inl rfl)
      (by
        intro x hx
        simp only [IOScheduler.pending, List.mem_cons, List.mem_singleton, List.not_mem_nil,
          or_false] at hx
        rcases hx with hx | hx <;> subst hx <;> decide)
      Policy.L [⟨0, 5⟩, ⟨1, 9⟩, ⟨2, 4⟩] 15 true _ rfl⟩

/-! ## CLOOK service order -/

theorem dispatchesOf_append_add (log : List Event) (t : Int) (r : Request) :
    dispatchesOf (log ++ [Event.add t r]) = dispatchesOf log := by
  simp [dispatchesOf, List.filterMap_append, Event.dispatch]

theorem dispatchesOf_append_finish (log : List Event) (t : Int) (r : Request) :
    dispatchesOf (log ++ [Event.finish t r]) = dispatchesOf log := by
  simp [dispatchesOf, List.filterMap_append, Event.dispatch]

theorem dispatchesOf_append_issue (log : List Event) (t : Int) (r : Request) (h d : Int)
    (pend : List Request) :
    dispatchesOf (log ++ [Event.issue t r h d pend]) = dispatchesOf log ++ [(r, h, pend)] := by
  simp [dispatchesOf, List.filterMap_append, Event.dispatch]

theorem CLookInv_init (ops : List Operation) (h : ∀ op ∈ ops, op.track < INT_MAX) :
    (Sim.init Policy.C ops).CLookInv := by
  refine ⟨⟨_, rfl⟩, h, ?_, ?_, ?_, ?_⟩ <;>
    simp [Sim.init, Policy.scheduler, IOScheduler.pending, dispatchesOf]

theorem CLookInv_processArrivals (s : Sim) (h : s.CLookInv) : (processArrivals s).CLookInv := by
  rcases processArrivals_cases s with ⟨h1, _⟩ | ⟨op, rest, hop, _, h1⟩
  · rw [h1]; exact h
  · obtain ⟨⟨c, hc⟩, hops, hpend, hch, hmem, hlast⟩ := h
    rw [h1]
    refine ⟨⟨_, by rw [hc]; rfl⟩, ?_, ?_, ?_, ?_, ?_⟩
    · intro o ho
      exact hops o (by rw [hop]; exact List.mem_cons_of_mem _ ho)
    · intro x hx
      simp only [IOScheduler.pending_addRequest, List.mem_append, List.mem_singleton] at hx
      rcases hx with hx | hx
      · exact hpend x hx
      · rw [hx]
        exact hops op (by rw [hop]; exact List.mem_cons_self _ _)
    · simpa only [dispatchesOf_append_add] using hch
    · simpa only [dispatchesOf_append_add] using hmem
    · simpa only [dispatchesOf_append_add] using hlast

theorem CLookInv_processCompletedRequests (s s2 : Sim) (h2 : processCompletedRequests s = some s2)
    (h : s.CLookInv) : s2.CLookInv := by
  rcases processCompletedRequests_cases s s2 h2 with ⟨h1, _⟩ | ⟨r, sch, hr, hrt, hrem, h1⟩
  · rw [h1]; exact h
  · obtain ⟨⟨c, hc⟩, hops, hpend, hch, hmem, hlast⟩ := h
    rw [h1]
    refine ⟨?_, hops, ?_, ?_, ?_, ?_⟩
    · rw [hc] at hrem
      simp only [IOScheduler.removeRequest, Option.map_eq_some'] at hrem
      obtain ⟨c1, _, hc1⟩ := hrem
      exact ⟨c1, hc1.symm⟩
    · intro x hx
      exact hpend x ((IOScheduler.removeRequest_sublist _ _ hrem).subset hx)
    · simpa only [dispatchesOf_append_finish] using hch
    · simpa only [dispatchesOf_append_finish] using hmem
    · simp only [dispatchesOf_append_finish]
      intro a ha
      refine ⟨fun r0 h0 => Option.noConfusion h0, fun _ => ?_⟩
      rw [← (hlast a ha).1 r hr, hrt]

theorem CLookInv_fetchNextRequest (s s3 : Sim) (h3 : fetchNextRequest s = some s3)
    (h : s.CLookInv) : s3.CLookInv := by
  rcases fetchNextRequest_no_fallback s s3 h3 with ⟨h1, _⟩ | ⟨r, sch, dir, hcr, hne, hst, h1⟩
  · rw [h1]; exact h
  · obtain ⟨⟨c, hc⟩, hops, hpend, hch, hmem, hlast⟩ := h
    obtain ⟨hp, hsel⟩ := IOScheduler.strategy_some _ _ _ _ _ _ hst
    have hcne : c.isEmpty = false := by simpa [hc, IOScheduler.isEmpty] using hne
    have hcp : s.scheduler.pending = c.IOQueue := by rw [hc]; rfl
    obtain ⟨r0, i, hs0, _, hahead, hwrap⟩ := CLook.strategy_select c s.current_track
      s.current_direction hcne (fun x hx _ => hpend x (by rw [hcp]; exact hx))
    rw [hc] at hst
    simp only [IOScheduler.strategy, hs0, Option.some.injEq, Prod.mk.injEq] at hst
    obtain ⟨hr0, hsch, _⟩ := hst
    subst hr0
    rw [h1]
    refine ⟨⟨_, hsch.symm⟩, hops, ?_, ?_, ?_, ?_⟩
    · intro x hx
      exact hpend x (by rw [← hp]; exact hx)
    · simp only [dispatchesOf_append_issue]
      rw [List.chain'_append]
      refine ⟨hch, List.chain'_singleton _, ?_⟩
      intro a ha b hb
      simp only [List.head?_cons, Option.mem_def, Option.some.injEq] at hb
      subst hb
      have hhead := (hlast a ha).2 hcr
      refine ⟨hhead, ?_⟩
      by_cases hex : ∃ x ∈ c.IOQueue, s.current_track ≤ x.track
      · left
        have := (hahead hex).1
        simp only
        omega
      · right
        simp only
        rw [hp, hcp]
        exact ⟨fun x hx hxt => hex ⟨x, hx, hxt⟩, hwrap hex⟩
    · simp only [dispatchesOf_append_issue]
      intro e he
      rcases List.mem_append.mp he with he | he
      · exact hmem e he
      · simp only [List.mem_singleton] at he
        subst he
        exact ⟨r0, IOScheduler.selected_mem _ _ hsel, rfl⟩
    · simp only [dispatchesOf_append_issue, List.getLast?_concat, Option.some.injEq]
      intro a ha
      subst ha
      exact ⟨fun r1 h1 => by rw [← h1], fun h0 => Option.noConfusion h0⟩

theorem CLookInv_simulateHeadMovement (s : Sim) (h : s.CLookInv) :
    (simulateHeadMovement s).CLookInv := by
  rcases simulateHeadMovement_cases s with ⟨h1, _⟩ | ⟨r, hr, _, h1⟩
  · rw [h1]; exact h
  · obtain ⟨hc, hops, hpend, hch, hmem, hlast⟩ := h
    rw [h1]
    refine ⟨hc, hops, hpend, hch, hmem, ?_⟩
    intro a ha
    refine ⟨(hlast a ha).1, fun h0 => ?_⟩
    simp only [hr] at h0
    exact Option.noConfusion h0

theorem CLookInv_iteration (s s4 : Sim) (b : Bool) (hit : iteration s = some (b, s4))
    (h : s.CLookInv) : s4.CLookInv := by
  obtain ⟨s2, s3, h2, h3, h4, _⟩ := iteration_cases s s4 b hit
  rw [h4]
  exact CLookInv_simulateHeadMovement _ (CLookInv_fetchNextRequest _ _ h3
    (CLookInv_processCompletedRequests _ _ h2 (CLookInv_processArrivals _ h)))

/-- Claim C15 as stated fails: in the CLOOK run on the trace (0,10), (1,5),
(2,`INT_MAX`) the request for track 10 is dispatched first with the head at 0,
and the request for track 5 next, with the head at 10 and the requests for
tracks 5 and `INT_MAX` pending: the track goes down from 10 to 5 although a
pending track, `INT_MAX`, is at or above the head. -/
theorem clook_int_max_breaks_order :
    ∃ s a b, simulate 12 (Sim.init Policy.C [⟨0, 10⟩, ⟨1, 5⟩, ⟨2, 2147483647⟩]) = some (false, s) ∧
      dispatchesOf s.log = [a, b] ∧
      a.1.track = 10 ∧ b.1.track = 5 ∧ b.2.1 = 10 ∧ b.2.2.map Request.track = [5, 2147483647] ∧
      ¬ CLook.InOrder a b := by
  refine ⟨_, _, _, rfl, rfl, rfl, rfl, rfl, rfl, ?_⟩
  intro h
  rcases h with h | ⟨h, _⟩
  · revert h; decide
  · exact h (Request.create 2 2147483647 2) (by decide) (by decide)

/-- Claim C15, for traces whose tracks are below `INT_MAX`: in every CLOOK run,
for every two consecutive dispatches `a` then `b` (in every state reached at
the top of a pass or at the exit), the head at the dispatch of `b` stands on
the track of `a`, and either the track of `b` is not below that of `a`, or no
request pending at the dispatch of `b` has a track at or above the head and
the track of `b` is the least of the pending tracks; the dispatched request is
always one of the pending ones. -/
theorem clook_service_order (ops : List Operation) (n : Nat) (b : Bool) (s : Sim)
    (hrange : ∀ op ∈ ops, op.track < INT_MAX)
    (h : simulate n (Sim.init Policy.C ops) = some (b, s)) :
    List.Chain' (fun a b => b.2.1 = a.1.track ∧ CLook.InOrder a b) (dispatchesOf s.log) ∧
    ∀ e ∈ dispatchesOf s.log, ∃ x ∈ e.2.2, x.track = e.1.track := by
  have hinv := simulate_invariant Sim.CLookInv
    (fun s b s4 hI hit => CLookInv_iteration s s4 b hit hI)
    (fun s hI => by simpa [tick, Sim.CLookInv] using hI) n _ b s (CLookInv_init ops hrange) h
  exact ⟨hinv.2.2.2.1, hinv.2.2.2.2.1⟩

/-- The hypotheses of `clook_service_order` hold for the trace (0,5), (1,1),
(2,8), (3,3): the loop breaks in its eighteenth pass, having dispatched the
tracks 5, 8, 1, 3 in this order, with one wrap, from 8 to 1. -/
theorem clook_service_order_witness :
    (∀ op ∈ [(⟨0, 5⟩ : Operation), ⟨1, 1⟩, ⟨2, 8⟩, ⟨3, 3⟩], op.track < INT_MAX) ∧
    ∃ s, simulate 18 (Sim.init Policy.C [⟨0, 5⟩, ⟨1, 1⟩, ⟨2, 8⟩, ⟨3, 3⟩]) = some (true, s) ∧
      (dispatchesOf s.log).map (fun e => e.1.track) = [5, 8, 1, 3] ∧
      (List.Chain' (fun a b => b.2.1 = a.1.track ∧ CLook.InOrder a b) (dispatchesOf s.log) ∧
      ∀ e ∈ dispatchesOf s.log, ∃ x ∈ e.2.2, x.track = e.1.track) :=
  ⟨by decide, _, rfl, rfl,
    clook_service_order [⟨0, 5⟩, ⟨1, 1⟩, ⟨2, 8⟩, ⟨3, 3⟩] 18 true _ (by decide) rfl⟩

/-! ## Long waits and the clock past `INT_MAX` -/

theorem simulate_succ (n : Nat) (s : Sim) :
    simulate (n + 1) s =
      match iteration s with
      | none => none
      | some (true, s1) => some (true, s1)
      | some (false, s1) => simulate n (tick s1) := rfl

/-- Passes made one after the other: when `a` passes do not break, `a + b`
passes are `b` passes from the state they leave. -/
theorem simulate_add (a b : Nat) :
    ∀ (s s1 : Sim), simulate a s = some (false, s1) → simulate (a + b) s = simulate b s1 := by
  induction a with
  | zero =>
    intro s s1 h
    simp only [simulate, Option.some.injEq, Prod.mk.injEq, true_and] at h
    rw [Nat.zero_add, h]
  | succ a ih =>
    intro s s1 h
    rw [Nat.succ_add, simulate_succ]
    rw [simulate_succ] at h
    split at h
    · exact Option.noConfusion h
    · simp at h
    · rename_i s4 hit
      exact ih (tick s4) s1 h

/-- While no request is pending or in service and the clock differs from the
time of the front event, a pass only ticks the clock: `k` such passes leave
the state as it is, with the clock `k` ticks further. -/
theorem simulate_wait (k : Nat) :
    ∀ (s : Sim) (op : Operation) (rest : List Operation),
      s.current_request = none → s.scheduler.isEmpty = true → s.operations = op :: rest →
      wrapInt s.current_time = s.current_time →
      (∀ j : Nat, j < k → wrapInt (s.current_time + j) ≠ op.time) →
      simulate k s = some (false, { s with current_time := wrapInt (s.current_time + k) }) := by
  induction k with
  | zero =>
    intro s op rest _ _ _ hc _
    simp only [simulate, Nat.cast_zero, add_zero, hc]
  | succ k ih =>
    intro s op rest hcr hem hop hc hne
    have h0 : op.time ≠ s.current_time := by
      have := hne 0 (Nat.succ_pos k)
      simp only [Nat.cast_zero, add_zero, hc] at this
      exact fun h => this h.symm
    have hit : iteration s = some (false, s) := by
      simp [iteration, processArrivals, hop, h0, processCompletedRequests, hcr,
        fetchNextRequest, hem, simulateHeadMovement, checkExitCondition]
    rw [simulate_succ, hit]
    have := ih (tick s) op rest hcr hem hop (by
      simp only [tick]
      have := wrapInt_wrapInt_add (s.current_time + 1) 0
      simpa using this) (by
      intro j hj
      simp only [tick, wrapInt_wrapInt_add]
      have := hne (j + 1) (by omega)
      push_cast at this
      rw [add_assoc, add_comm 1 (j : Int)]
      exact this)
    simp only at this ⊢
    rw [this]
    simp only [tick, wrapInt_wrapInt_add]
    push_cast
    rw [add_assoc, add_comm 1 (k : Int)]

/-- On a trace whose only event has time `INT_MAX`, the first `INT_MAX` passes
only tick the clock, which then stands at `INT_MAX`. -/
theorem simulate_until_int_max (p : Policy) (tr : Int) :
    simulate 2147483647 (Sim.init p [⟨2147483647, tr⟩])
      = some (false, { Sim.init p [⟨2147483647, tr⟩] with current_time := 2147483647 }) := by
  have h := simulate_wait 2147483647 (Sim.init p [⟨2147483647, tr⟩]) ⟨2147483647, tr⟩ [] rfl
    (by cases p <;> rfl) rfl rfl (by
      intro j hj
      simp only [Sim.init, zero_add]
      unfold wrapInt
      omega)
  rw [h]
  rfl

/-- Claim C4 as stated fails: under FIFO, on the trace with the single event
(`INT_MAX`, 1), the request is injected and issued in the pass made with the
clock at `INT_MAX`; `current_time++` then overflows, and the request is
completed in the next pass with the clock at `INT_MIN`: its record has
`startTime = INT_MAX` and `endTime = INT_MIN`. -/
theorem completed_times_wrap :
    (simulate (2147483647 + 2) (Sim.init Policy.N [⟨2147483647, 1⟩])).map
        (fun x => (x.1, x.2.completedRequests.map
          fun r => (r.arrivalTime, r.startTime, r.endTime, decide (r.startTime ≤ r.endTime))))
      = some (true, [(2147483647, 2147483647, -2147483648, false)]) := by
  rw [simulate_add _ _ _ _ (simulate_until_int_max Policy.N 1)]
  decide

/-- Claim C5 as stated fails: under SSTF, on the trace with the single event
(`INT_MAX`, 1), the request is issued with the head at track 0 and the clock
at `INT_MAX` and completed one pass later with the clock at `INT_MIN`:
`endTime - startTime` is `-4294967295`, the distance is 1. -/
theorem seek_time_wraps :
    (simulate (2147483647 + 2) (Sim.init Policy.S [⟨2147483647, 1⟩])).map
        (fun x => (x.1, x.2.completedRequests.map fun r => (r.track, r.endTime - r.startTime),
          (issuedOf x.2.log).map fun e => (e.1.track, e.2)))
      = some (true, [(1, -4294967295)], [(1, 0)]) ∧
    (-4294967295 : Int) ≠ |1 - 0| := by
  rw [simulate_add _ _ _ _ (simulate_until_int_max Policy.S 1)]
  exact ⟨by decide, by decide⟩

/-- Claim C13 as stated fails: under CLOOK, on the trace with the single event
(`INT_MAX`, 1), the loop exits with one record in the ledger, arrived at
`INT_MAX` and completed at `INT_MIN`; the difference `current_time -
arrivalTime` added to `total_turnaround` overflows to 1, while `endTime -
arrivalTime` over the ledger is `-4294967295`. -/
theorem totals_disagree_after_wrap :
    (simulate (2147483647 + 2) (Sim.init Policy.C [⟨2147483647, 1⟩])).map
        (fun x => (x.1, x.2.total_turnaround,
          (x.2.completedRequests.map fun r => r.endTime - r.arrivalTime).sum))
      = some (true, 1, -4294967295) := by
  rw [simulate_add _ _ _ _ (simulate_until_int_max Policy.C 1)]
  decide

/-! ## Scenario C -/

set_option maxRecDepth 16384

/-- If every pass made from a state satisfying `I` returns and, unless it
breaks, leaves a state satisfying `I` with a smaller measure, the loop breaks. -/
theorem simulate_exits_of_measure (I : Sim → Prop) (μ : Sim → Nat)
    (hstep : ∀ s, I s → ∃ b s4, iteration s = some (b, s4) ∧
      (b = false → I (tick s4) ∧ μ (tick s4) < μ s)) :
    ∀ (k : Nat) (s : Sim), μ s < k → I s → ∃ n s1, simulate n s = some (true, s1) := by
  intro k
  induction k with
  | zero =>
    intro s h _
    exact absurd h (Nat.not_lt_zero _)
  | succ k ih =>
    intro s hk hI
    obtain ⟨b, s4, hit, hnext⟩ := hstep s hI
    cases b with
    | true => exact ⟨1, s4, by simp [simulate, hit]⟩
    | false =>
      obtain ⟨hI4, hlt⟩ := hnext rfl
      obtain ⟨n, s1, hn⟩ := ih (tick s4) (by omega) hI4
      exact ⟨n + 1, s1, by simp only [simulate, hit]; exact hn⟩

theorem await_le (s : Sim) : s.await ≤ 4294967295 := by
  unfold Sim.await
  split
  · omega
  · omega

theorem await_nil (s : Sim) (h : s.operations = []) : s.await = 0 := by
  simp [Sim.await, h]

theorem await_congr (s t : Sim) (h1 : t.operations = s.operations)
    (h2 : t.current_time = s.current_time) : t.await = s.await := by
  simp only [Sim.await, h1, h2]

/-- A tick of the clock, when the front event is not due, brings the clock one
step closer to its time. -/
theorem await_tick (s t : Sim) (op : Operation) (rest : List Operation)
    (hop : s.operations = op :: rest) (hne : op.time ≠ s.current_time)
    (hc : -2147483648 ≤ s.current_time ∧ s.current_time ≤ 2147483647)
    (ht : -2147483648 ≤ op.time ∧ op.time ≤ 2147483647)
    (h1 : t.operations = s.operations) (h2 : t.current_time = wrapInt (s.current_time + 1)) :
    t.await + 1 = s.await := by
  simp only [Sim.await, h1, h2, hop]
  unfold wrapInt
  omega

theorem processArrivals_progress (s : Sim) (hR : s.RangeInv)
    (ht : ∀ op ∈ s.operations, -2147483648 ≤ op.time ∧ op.time ≤ 2147483647) :
    (processArrivals s).RangeInv ∧
    (processArrivals s).current_time = s.current_time ∧
    (processArrivals s).current_request = s.current_request ∧
    (∀ op ∈ (processArrivals s).operations, -2147483648 ≤ op.time ∧ op.time ≤ 2147483647) ∧
    ((processArrivals s = s ∧
        ∀ op rest, s.operations = op :: rest → op.time ≠ s.current_time) ∨
     (processArrivals s).load + 6442450944 = s.load) := by
  rcases processArrivals_cases s with ⟨h1, hfront⟩ | ⟨op, rest, hop, _, h1⟩
  · rw [h1]
    exact ⟨hR, rfl, rfl, ht, Or.inl ⟨rfl, hfront⟩⟩
  · obtain ⟨hd, hh, hp, ho, hc⟩ := hR
    rw [hop] at ht ho
    rw [h1]
    refine ⟨⟨hd, hh, ?_, ?_, hc⟩, rfl, rfl, ?_, Or.inr ?_⟩
    · intro x hx
      simp only [IOScheduler.pending_addRequest, List.mem_append, List.mem_singleton] at hx
      rcases hx with hx | hx
      · exact hp x hx
      · rw [hx]
        exact ho op (List.mem_cons_self _ _)
    · intro o ho2
      exact ho o (List.mem_cons_of_mem _ ho2)
    · intro o ho2
      exact ht o (List.mem_cons_of_mem _ ho2)
    · simp only [Sim.load, IOScheduler.pending_addRequest, List.length_append, hop,
        List.length_cons, List.length_nil]
      omega

theorem processCompletedRequests_progress (trace : List Operation) (s : Sim)
    (hL : s.LedgerInv trace) (hR : s.RangeInv) :
    ∃ s2, processCompletedRequests s = some s2 ∧ s2.RangeInv ∧
      s2.operations = s.operations ∧ s2.current_time = s.current_time ∧
      ((s2 = s ∧ ∀ r, s.current_request = some r → r.track ≠ s.current_track) ∨
       (s.current_request ≠ none ∧ s2.current_request = none ∧
        s2.load + 2147483648 = s.load)) := by
  cases hcr : s.current_request with
  | none =>
    refine ⟨s, by simp [processCompletedRequests, hcr], hR, rfl, rfl, Or.inl ⟨rfl, ?_⟩⟩
    intro r hr
    exact Option.noConfusion hr
  | some r =>
    by_cases ht : r.track = s.current_track
    · obtain ⟨q, hq, _⟩ := hL.2.2 r hcr
      obtain ⟨p1, i, hp1, hi, hpend⟩ := IOScheduler.removeRequest_selected _ q hq
      have hil : i < s.scheduler.pending.length := (List.getElem?_eq_some_iff.mp hi).1
      obtain ⟨hd, hh, hp, ho, hc⟩ := hR
      have hex : ∃ s2, processCompletedRequests s = some s2 := by
        simp only [processCompletedRequests, hcr, Request.getTrack, ht, ↓reduceIte, hp1]
        exact ⟨_, rfl⟩
      obtain ⟨s2, h2⟩ := hex
      refine ⟨s2, h2, ?_⟩
      rcases processCompletedRequests_cases s s2 h2 with ⟨_, hn⟩ | ⟨r1, sch, hr1, _, hrem, he⟩
      · exact absurd ht (hn r hcr)
      · rw [hp1] at hrem
        rw [hcr] at hr1
        simp only [Option.some.injEq] at hrem hr1
        subst hrem hr1
        rw [he]
        refine ⟨⟨hd, hh, ?_, ho, fun r0 h0 => Option.noConfusion h0⟩, rfl, rfl,
          Or.inr ⟨by simp, rfl, ?_⟩⟩
        · intro x hx
          exact hp x ((IOScheduler.removeRequest_sublist _ _ hp1).subset hx)
        · simp only [Sim.load, hcr, hpend, List.length_eraseIdx, hil, ↓reduceIte, ht]
          simp only [sub_self, Int.natAbs_zero]
          omega
    · exact ⟨s, by simp [processCompletedRequests, hcr, Request.getTrack, ht], hR, rfl, rfl,
        Or.inl ⟨rfl, fun r0 h0 => by rw [← Option.some.inj h0]; exact ht⟩⟩

theorem fetchNextRequest_progress (s : Sim) (hR : s.RangeInv) :
    ∃ s3, fetchNextRequest s = some s3 ∧ s3.RangeInv ∧
      s3.operations = s.operations ∧
      ((s3 = s ∧ (s.current_request ≠ none ∨ s.scheduler.isEmpty = true)) ∨
       (s.current_request = none ∧ s.scheduler.isEmpty = false ∧ s3.current_request ≠ none ∧
        (s3.current_time = s.current_time ∨ s3.current_time = wrapInt (s.current_time - 1)) ∧
        s3.load ≤ s.load + 2147483646)) := by
  by_cases hc : s.current_request.isNone = true ∧ ¬ s.scheduler.isEmpty = true
  · obtain ⟨hd, hh, hp, ho, hcur⟩ := hR
    have hne : s.scheduler.isEmpty = false := by simpa using hc.2
    have hcr : s.current_request = none := by simpa using hc.1
    obtain ⟨r, p1, d1, hst, hr, hd1⟩ := IOScheduler.strategy_returns s.scheduler s.current_track
      s.current_direction hne hd (by
        intro x hx
        have := hp x hx
        unfold INT_MAX at *
        exact abs_lt.mpr ⟨by omega, by omega⟩)
    have hpp := (IOScheduler.strategy_some _ _ _ _ _ _ hst).1
    have hex : ∃ s3, fetchNextRequest s = some s3 := by
      simp only [fetchNextRequest, hc, hst]
      exact ⟨_, (apply_ite some _ _ _).symm⟩
    obtain ⟨s3, h3⟩ := hex
    refine ⟨s3, h3, ?_⟩
    rcases fetchNextRequest_no_fallback s s3 h3 with ⟨_, h⟩ | ⟨r2, sch, dir, _, _, hst2, he⟩
    · rcases h with h | h
      · exact absurd hcr h
      · rw [h] at hne; exact Bool.noConfusion hne
    · rw [hst] at hst2
      simp only [Option.some.injEq, Prod.mk.injEq] at hst2
      obtain ⟨hr2, hsch, hdir⟩ := hst2
      subst hr2 hsch hdir
      have hrr := hp r hr
      rw [he]
      refine ⟨⟨hd1, hh, ?_, ho, ?_⟩, rfl, Or.inr ⟨hcr, hne, by simp, ?_, ?_⟩⟩
      · intro x hx
        exact hp x (by rw [← hpp]; exact hx)
      · intro r0 h0
        simp only [Option.some.injEq] at h0
        rw [← h0]
        exact hrr
      · simp only
        split
        · exact Or.inr rfl
        · exact Or.inl rfl
      · simp only [Sim.load, hcr, hpp]
        unfold INT_MAX at *
        omega
  · refine ⟨s, by simp only [fetchNextRequest, hc, ↓reduceIte], hR, rfl, Or.inl ⟨rfl, ?_⟩⟩
    by_cases h1 : s.current_request = none
    · right
      by_contra h2
      exact hc ⟨by simp [h1], h2⟩
    · exact Or.inl h1

theorem simulateHeadMovement_progress (s : Sim) (hR : s.RangeInv) :
    (simulateHeadMovement s).RangeInv ∧
    ((simulateHeadMovement s = s ∧ ∀ r, s.current_request = some r → r.track = s.current_track) ∨
     (simulateHeadMovement s).load + 1 = s.load) := by
  rcases simulateHeadMovement_cases s with ⟨h1, hat⟩ | ⟨r, hr, hne, h1⟩
  · rw [h1]
    exact ⟨hR, Or.inl ⟨rfl, hat⟩⟩
  · obtain ⟨hd, hh, hp, ho, hcur⟩ := hR
    have hrr := hcur r hr
    rw [h1]
    refine ⟨⟨hd, ?_, hp, ho, hcur⟩, Or.inr ?_⟩
    · simp only
      unfold INT_MAX at *
      split <;> omega
    · simp only [Sim.load, hr]
      split <;> omega

/-- A pass made from the top of a pass of a run returns, and unless it breaks
it leaves less work. -/
theorem iteration_progress (trace : List Operation) (s : Sim) (h : s.RunInv trace) :
    ∃ b s4, iteration s = some (b, s4) ∧
      (b = false → (tick s4).RunInv trace ∧ (tick s4).remaining < s.remaining) := by
  obtain ⟨hL, hR, hclk, htimes, hidle⟩ := h
  obtain ⟨hR1, hc1, hcr1, htimes1, hcase1⟩ := processArrivals_progress s hR htimes
  have hL1 := LedgerInv_processArrivals trace s hL
  obtain ⟨s2, h2, hR2, ho2, hc2, hcase2⟩ := processCompletedRequests_progress trace _ hL1 hR1
  obtain ⟨s3, h3, hR3, ho3, hcase3⟩ := fetchNextRequest_progress s2 hR2
  obtain ⟨hR4, hcase4⟩ := simulateHeadMovement_progress s3 hR3
  obtain ⟨hf1, hf2, hf3, hf4, _⟩ := simulateHeadMovement_frame s3
  have hit : iteration s
      = some (checkExitCondition (simulateHeadMovement s3), simulateHeadMovement s3) := by
    simp [iteration, h2, h3]
  refine ⟨_, _, hit, fun hb => ?_⟩
  have hL4 := LedgerInv_tick trace _ (LedgerInv_iteration trace s _ _ hL hit)
  have hops : (tick (simulateHeadMovement s3)).operations = (processArrivals s).operations := by
    simp only [tick, hf1, ho3, ho2]
  have hclk4 : (tick (simulateHeadMovement s3)).current_time = wrapInt (s3.current_time + 1) := by
    simp only [tick, hf2]
  have hload : (tick (simulateHeadMovement s3)).load = (simulateHeadMovement s3).load := rfl
  have hload4 : (simulateHeadMovement s3).load ≤ s3.load := by
    rcases hcase4 with ⟨he, _⟩ | he
    · rw [he]
    · omega
  have hidle4 : (tick (simulateHeadMovement s3)).current_request = none →
      (tick (simulateHeadMovement s3)).scheduler.isEmpty = true := by
    simp only [tick, hf3, hf4]
    intro hn
    rcases hcase3 with ⟨he3, hnd⟩ | ⟨_, _, hcr3, _⟩
    · rw [he3] at hn ⊢
      rcases hnd with hnd | hnd
      · exact absurd hn hnd
      · exact hnd
    · exact absurd hn hcr3
  have hbound := await_le (tick (simulateHeadMovement s3))
  have hc2' : s2.current_time = s.current_time := by rw [hc2, hc1]
  have hrem : (tick (simulateHeadMovement s3)).remaining < s.remaining := by
    unfold Sim.remaining
    rw [hload]
    rcases hcase1 with ⟨he1, hfront⟩ | hinj
    · -- no arrival
      rw [he1] at hops
      have hstay : (tick (simulateHeadMovement s3)).current_time = s.current_time →
          (tick (simulateHeadMovement s3)).await = s.await :=
        fun h => await_congr s _ hops h
      have hstep : (tick (simulateHeadMovement s3)).current_time
            = wrapInt (s.current_time + 1) →
          (tick (simulateHeadMovement s3)).await ≤ s.await ∧
          (s.operations ≠ [] → (tick (simulateHeadMovement s3)).await + 1 = s.await) := by
        intro h
        cases hq : s.operations with
        | nil =>
          rw [await_nil s hq, await_nil _ (by rw [hops, hq])]
          exact ⟨le_refl _, fun hn => absurd rfl hn⟩
        | cons op rest =>
          have := await_tick s _ op rest hq (hfront op rest hq) hclk
            (htimes op (by rw [hq]; exact List.mem_cons_self _ _)) hops h
          exact ⟨by omega, fun _ => this⟩
      rcases hcase3 with ⟨he3, hnd⟩ | ⟨hcr2, hne2, hcr3, hclk3, hload3⟩
      · have hst := hstep (by rw [hclk4, he3, hc2'])
        rcases hcase2 with ⟨he2, hnc⟩ | ⟨_, _, hload2⟩
        · have e : s3 = s := by rw [he3, he2, he1]
          have hl3 : s3.load = s.load := by rw [e]
          rw [he1] at hnc
          cases hcr : s.current_request with
          | none =>
            have hemp : s.scheduler.isEmpty = true := hidle hcr
            have hne : s.operations ≠ [] := by
              intro hnil
              have hx : checkExitCondition (simulateHeadMovement s3) = true := by
                unfold checkExitCondition
                rw [hf3, hf4, hf1, e, hcr, hemp, hnil]
                rfl
              rw [hx] at hb
              exact Bool.noConfusion hb
            have := hst.2 hne
            omega
          | some r =>
            rcases hcase4 with ⟨_, hat⟩ | he
            · have := hat r (by rw [e]; exact hcr)
              rw [e] at this
              exact absurd this (hnc r hcr)
            · have := hst.1
              omega
        · rw [he1] at hload2
          have hl3 : s3.load = s2.load := by rw [he3]
          have := hst.1
          omega
      · rcases hcase2 with ⟨he2, _⟩ | ⟨_, _, hload2⟩
        · rw [he2, he1] at hcr2 hne2
          rw [hidle hcr2] at hne2
          exact Bool.noConfusion hne2
        · rw [he1] at hload2
          have hle : (tick (simulateHeadMovement s3)).await ≤ s.await := by
            rcases hclk3 with h | h
            · exact (hstep (by rw [hclk4, h, hc2'])).1
            · refine le_of_eq (hstay ?_)
              rw [hclk4, h, hc2', wrapInt_wrapInt_add, sub_add_cancel]
              exact wrapInt_of_range _ hclk.1 hclk.2
          omega
    · -- an arrival
      have h23 : s3.load ≤ s2.load + 2147483646 := by
        rcases hcase3 with ⟨he3, _⟩ | ⟨_, _, _, _, hload3⟩
        · rw [he3]; omega
        · exact hload3
      have h12 : s2.load ≤ (processArrivals s).load := by
        rcases hcase2 with ⟨he2, _⟩ | ⟨_, _, hload2⟩
        · rw [he2]
        · omega
      omega
  refine ⟨⟨hL4, by simpa [tick, Sim.RangeInv] using hR4, ?_, ?_, hidle4⟩, hrem⟩
  · rw [hclk4]
    exact wrapInt_range _
  · intro op hop
    rw [hops] at hop
    exact htimes1 op hop

/-- On a trace of `int` times and of tracks from 0 up to, not including,
`INT_MAX`, the loop breaks. -/
theorem simulate_exits (p : Policy) (ops : List Operation)
    (htime : ∀ op ∈ ops, -2147483648 ≤ op.time ∧ op.time ≤ 2147483647)
    (htrack : ∀ op ∈ ops, 0 ≤ op.track ∧ op.track < INT_MAX) :
    ∃ n s, simulate n (Sim.init p ops) = some (true, s) := by
  refine simulate_exits_of_measure (fun s => s.RunInv ops) Sim.remaining
    (fun s hI => iteration_progress ops s hI) _ (Sim.init p ops) (Nat.lt_succ_self _) ?_
  refine ⟨LedgerInv_init p ops, ⟨Or.inl rfl, ⟨le_refl _, by simp [Sim.init, INT_MAX]⟩, ?_,
    htrack, ?_⟩, by simp [Sim.init], htime, ?_⟩
  · cases p <;> simp [Sim.init, Policy.scheduler, IOScheduler.pending]
  · intro r hr
    simp [Sim.init] at hr
  · intro _
    cases p <;> rfl

/-! ## Injections and the clock -/

theorem addsOf_append_add (log : List Event) (t : Int) (r : Request) :
    addsOf (log ++ [Event.add t r]) = addsOf log ++ [(t, r)] := by
  simp [addsOf, List.filterMap_append, Event.added]

theorem addsOf_append_finish (log : List Event) (t : Int) (r : Request) :
    addsOf (log ++ [Event.finish t r]) = addsOf log := by
  simp [addsOf, List.filterMap_append, Event.added]

theorem addsOf_append_issue (log : List Event) (t : Int) (r : Request) (h d : Int)
    (pend : List Request) :
    addsOf (log ++ [Event.issue t r h d pend]) = addsOf log := by
  simp [addsOf, List.filterMap_append, Event.added]

theorem AddInv_iteration (trace : List Operation) (s s4 : Sim) (b : Bool)
    (h : s.AddInv trace) (hit : iteration s = some (b, s4)) : s4.AddInv trace := by
  obtain ⟨s2, s3, h2, h3, h4, _⟩ := iteration_cases s s4 b hit
  have i1 : (processArrivals s).AddInv trace := by
    rcases processArrivals_cases s with ⟨he, _⟩ | ⟨op, rest, hop, ht, he⟩
    · rw [he]; exact h
    · obtain ⟨done, htr, hn, hadd⟩ := h
      rw [he]
      refine ⟨done ++ [op], ?_, ?_, ?_⟩
      · simp only [htr, hop, List.append_assoc, List.singleton_append]
      · simp only [hn, List.length_append, List.length_singleton]
        push_cast
        rfl
      · simp only [addsOf_append_add, hadd, expectedFrom_append, List.map_append, List.map_cons,
          List.map_nil, Nat.zero_add, hn, ht]
  have i2 : s2.AddInv trace := by
    rcases processCompletedRequests_cases _ s2 h2 with ⟨he, _⟩ | ⟨r, sch, _, _, _, he⟩
    · rw [he]; exact i1
    · obtain ⟨done, htr, hn, hadd⟩ := i1
      rw [he]
      exact ⟨done, htr, hn, by simpa only [addsOf_append_finish] using hadd⟩
  have i3 : s3.AddInv trace := by
    rcases fetchNextRequest_no_fallback s2 s3 h3 with ⟨he, _⟩ | ⟨r, sch, dir, _, _, _, he⟩
    · rw [he]; exact i2
    · obtain ⟨done, htr, hn, hadd⟩ := i2
      rw [he]
      exact ⟨done, htr, hn, by simpa only [addsOf_append_issue] using hadd⟩
  obtain ⟨done, htr, hn, hadd⟩ := i3
  have hf := simulateHeadMovement_frame s3
  rw [h4]
  exact ⟨done, by rw [hf.1]; exact htr, by rw [hf.2.2.2.2.2.1]; exact hn,
    by rw [hf.2.2.2.2.2.2]; exact hadd⟩

/-- When the loop has exited, the `add` events of the log are those of the
whole trace: the `i`-th was made with the clock at the time of the `i`-th
event, for the request numbered `i`. -/
theorem adds_at_exit (p : Policy) (trace : List Operation) (n : Nat) (s : Sim)
    (h : simulate n (Sim.init p trace) = some (true, s)) :
    addsOf s.log
      = (expectedFrom 0 trace).map fun c => (c.2.2, Request.create c.1 c.2.1 c.2.2) := by
  have hinv := simulate_invariant (fun s => s.AddInv trace)
    (fun s b s4 hI hit => AddInv_iteration trace s s4 b hI hit)
    (fun s hI => by simpa [tick, Sim.AddInv] using hI) n _ true s
    ⟨[], by simp [Sim.init], by simp [Sim.init], by simp [Sim.init, addsOf, expectedFrom]⟩ h
  obtain ⟨done, htr, _, hadd⟩ := hinv
  have hex := simulate_exit n _ s h
  unfold checkExitCondition at hex
  simp only [Bool.and_eq_true] at hex
  have hops : s.operations = [] := by simpa using hex.2
  rw [hops, List.append_nil] at htr
  rw [htr]
  exact hadd

theorem passClocks_head (n : Nat) (s : Sim) :
    ∀ y ∈ (passClocks n s).head?, y = s.current_time := by
  cases n with
  | zero => simp [passClocks]
  | succ n => simp [passClocks]

/-- From the top of one pass to the top of the next the clock stays or makes
one tick, which past `INT_MAX` leads to `INT_MIN`. -/
theorem passClocks_chain (n : Nat) :
    ∀ s, wrapInt s.current_time = s.current_time →
      List.Chain' (fun a b => b = a ∨ b = wrapInt (a + 1)) (passClocks n s) := by
  induction n with
  | zero =>
    intro s _
    simp [passClocks]
  | succ n ih =>
    intro s hc
    unfold passClocks
    split
    · rename_i s1 hit
      rw [List.chain'_cons']
      have ht : (tick s1).current_time = wrapInt (s1.current_time + 1) := rfl
      refine ⟨fun y hy => ?_, ih (tick s1) (by
        rw [ht]
        have := wrapInt_wrapInt_add (s1.current_time + 1) 0
        simpa using this)⟩
      have hy2 := passClocks_head n (tick s1) y hy
      rw [hy2, ht]
      rcases (iteration_operations_time s s1 false hit).2.1 with h | h
      · exact Or.inr (by rw [h])
      · left
        rw [h, wrapInt_wrapInt_add, sub_add_cancel]
        exact hc
    · exact List.chain'_singleton _

/-- A pass leaves no event overdue when none was: the events left in the trace
after the arrivals step are later than the clock, so the tick does not
overflow and does not pass any of them. -/
theorem OnTime_iteration (s s4 : Sim) (b : Bool) (h : s.OnTime)
    (hit : iteration s = some (b, s4)) : (tick s4).OnTime := by
  obtain ⟨hinc, hA⟩ := h
  obtain ⟨hops, hclk, _⟩ := iteration_operations_time s s4 b hit
  have key : (processArrivals s).operations.Pairwise (fun a b => a.time < b.time) ∧
      ∀ op ∈ (processArrivals s).operations,
        0 ≤ s.current_time ∧ s.current_time < op.time ∧ op.time ≤ 2147483647 := by
    rcases processArrivals_cases s with ⟨h1, hfront⟩ | ⟨op, rest, hop, ht, h1⟩
    · rw [h1]
      refine ⟨hinc, fun op hop => ?_⟩
      have hb := hA op hop
      refine ⟨hb.1, ?_, hb.2.2⟩
      cases hq : s.operations with
      | nil => rw [hq] at hop; exact absurd hop (List.not_mem_nil _)
      | cons a rest =>
        have ha := hfront a rest hq
        have ha2 := (hA a (by rw [hq]; exact List.mem_cons_self _ _)).2.1
        rw [hq] at hop hinc
        rcases List.mem_cons.mp hop with h | h
        · rw [h]; omega
        · have := (List.pairwise_cons.mp hinc).1 op h
          omega
    · rw [hop] at hinc hA
      have hpc := List.pairwise_cons.mp hinc
      rw [h1]
      refine ⟨hpc.2, fun o ho => ?_⟩
      have hb := hA o (List.mem_cons_of_mem _ ho)
      have := hpc.1 o ho
      exact ⟨hb.1, by omega, hb.2.2⟩
  have ht : (tick s4).current_time = wrapInt (s4.current_time + 1) := rfl
  refine ⟨by simpa only [tick, hops] using key.1, fun op hop => ?_⟩
  have hop' : op ∈ (processArrivals s).operations := by simpa only [tick, hops] using hop
  obtain ⟨h0, h1, h2⟩ := key.2 op hop'
  rw [ht]
  rcases hclk with h | h
  · rw [h, wrapInt_of_range _ (by omega) (by omega)]
    omega
  · rw [h, wrapInt_wrapInt_add, sub_add_cancel, wrapInt_of_range _ (by omega) (by omega)]
    omega

/-- At the top of every pass of a run on a trace of strictly increasing times
from 0 to `INT_MAX`, no event is overdue. -/
theorem simulate_OnTime (p : Policy) (ops : List Operation)
    (htime : ∀ op ∈ ops, 0 ≤ op.time ∧ op.time ≤ 2147483647)
    (hinc : ops.Pairwise (fun a b => a.time < b.time)) (k : Nat) (s : Sim)
    (h : simulate k (Sim.init p ops) = some (false, s)) : s.OnTime :=
  (simulate_invariant_tick Sim.OnTime (fun s => (tick s).OnTime)
    (fun s b s4 hI hit => OnTime_iteration s s4 b hI hit) (fun _ hQ => hQ) k _ false s
    ⟨hinc, fun op hop => ⟨le_refl _, (htime op hop).1, (htime op hop).2⟩⟩ h).1 rfl

/-- Claim C2 as stated fails: the trace with the single event (0, `INT_MAX`)
holds non-negative `int` values, yet under FLOOK the first pass injects the
request and `strategy`, with the head at track 0, leaves `closest_index` at
`-1` because the distance `INT_MAX` is not below `min_distance`:
`active->at(-1)` throws, and the loop never reaches its exit. -/
theorem flook_run_int_max_aborts :
    (∀ op ∈ [(⟨0, 2147483647⟩ : Operation)],
      0 ≤ op.time ∧ op.time ≤ 2147483647 ∧ 0 ≤ op.track ∧ op.track ≤ 2147483647) ∧
    iteration (Sim.init Policy.F [⟨0, 2147483647⟩]) = none ∧
    ∀ n s, simulate n (Sim.init Policy.F [⟨0, 2147483647⟩]) ≠ some (true, s) := by
  have hit : iteration (Sim.init Policy.F [⟨0, 2147483647⟩]) = none := by decide
  refine ⟨by decide, hit, fun n s h => ?_⟩
  cases n with
  | zero => simp [simulate] at h
  | succ n => simp [simulate, hit] at h

/-- Claim C2 (amended): the loop reaches its exit.  For each of the five
policies and every trace whose times are from 0 to `INT_MAX` and whose tracks
are from 0 up to, not including, `INT_MAX` (in whatever order the times come),
the loop started at clock 0, head 0, direction +1 breaks after some number of
passes, with no request in service, the scheduler empty and the trace
exhausted.  (An event the clock has passed, such as the second of two
simultaneous ones, is injected when the clock, having run past `INT_MAX`,
stands at its time again.) -/
theorem simulate_reaches_exit (p : Policy) (ops : List Operation)
    (htime : ∀ op ∈ ops, 0 ≤ op.time ∧ op.time ≤ 2147483647)
    (htrack : ∀ op ∈ ops, 0 ≤ op.track ∧ op.track < INT_MAX) :
    ∃ n s, simulate n (Sim.init p ops) = some (true, s) ∧
      s.current_request = none ∧ s.scheduler.isEmpty = true ∧ s.operations = [] := by
  obtain ⟨n, s, h⟩ := simulate_exits p ops
    (fun op hop => ⟨by have := (htime op hop).1; omega, (htime op hop).2⟩) htrack
  have hex := simulate_exit n _ s h
  unfold checkExitCondition at hex
  simp only [Bool.and_eq_true] at hex
  exact ⟨n, s, h, by simpa using hex.1.1, hex.1.2, by simpa using hex.2⟩

/-- The hypotheses of `simulate_reaches_exit` hold for the trace (0,50), (0,20)
of two simultaneous events, here under SSTF. -/
theorem simulate_reaches_exit_witness :
    (∀ op ∈ [(⟨0, 50⟩ : Operation), ⟨0, 20⟩], 0 ≤ op.time ∧ op.time ≤ 2147483647) ∧
    (∀ op ∈ [(⟨0, 50⟩ : Operation), ⟨0, 20⟩], 0 ≤ op.track ∧ op.track < INT_MAX) ∧
    ∃ n s, simulate n (Sim.init Policy.S [⟨0, 50⟩, ⟨0, 20⟩]) = some (true, s) ∧
      s.current_request = none ∧ s.scheduler.isEmpty = true ∧ s.operations = [] :=
  ⟨by decide, by decide,
    simulate_reaches_exit Policy.S [⟨0, 50⟩, ⟨0, 20⟩] (by decide) (by decide)⟩

/-- Claim C20 as stated fails, in two ways.  On the trace with the single event
(0, `INT_MAX`), under LOOK, the first pass injects the request and `strategy`,
with the head at track 0, never finds its distance below `smallestDistance`:
the call does not return, and the loop never breaks.  On the trace with the
single event (`INT_MAX`, 1) the clock stands at `INT_MAX` at the top of the
pass that injects the request and at `INT_MIN` at the top of the next one: it
has decreased. -/
theorem termination_and_clock_fail_at_int_max :
    (∀ op ∈ [(⟨0, 2147483647⟩ : Operation)], 0 ≤ op.time) ∧
    [(⟨0, 2147483647⟩ : Operation)].Pairwise (fun a b => a.time < b.time) ∧
    iteration (Sim.init Policy.L [⟨0, 2147483647⟩]) = none ∧
    (∀ n s, simulate n (Sim.init Policy.L [⟨0, 2147483647⟩]) ≠ some (true, s)) ∧
    (simulate 2147483647 (Sim.init Policy.L [⟨2147483647, 1⟩])).map
        (fun x => (x.1, x.2.current_time)) = some (false, 2147483647) ∧
    (simulate (2147483647 + 1) (Sim.init Policy.L [⟨2147483647, 1⟩])).map
        (fun x => (x.1, x.2.current_time)) = some (false, -2147483648) := by
  have hit : iteration (Sim.init Policy.L [⟨0, 2147483647⟩]) = none := by decide
  refine ⟨by decide, by decide, hit, fun n s h => ?_, ?_, ?_⟩
  · cases n with
    | zero => simp [simulate] at h
    | succ n => simp [simulate, hit] at h
  · rw [simulate_until_int_max Policy.L 1]
    rfl
  · rw [simulate_add _ _ _ _ (simulate_until_int_max Policy.L 1)]
    decide

/-- Claim C20 (amended): termination on traces of strictly increasing times.
For each of the five policies and every trace whose times are non-negative
`int` values, strictly increasing, and whose tracks are from 0 up to, not
including, `INT_MAX`, the loop started at clock 0, head 0, direction +1 breaks
after some number `n` of passes.  By then the `i`-th event of the trace has
been injected in a pass whose clock was the event's time, as request `i`, and
every one of these requests is in the ledger.  The clock at the top of the
passes starts at 0 and from one pass to the next stays or makes one tick
(from `INT_MAX` to `INT_MIN`, should the run last that long); and at the top
of every pass the clock is non-negative and at most the time of every event
still in the trace, so no event is ever overdue and the clock has not
decreased while events remain. -/
theorem simulation_terminates (p : Policy) (ops : List Operation)
    (htime : ∀ op ∈ ops, 0 ≤ op.time ∧ op.time ≤ 2147483647)
    (hinc : ops.Pairwise (fun a b => a.time < b.time))
    (htrack : ∀ op ∈ ops, 0 ≤ op.track ∧ op.track < INT_MAX) :
    ∃ n s, simulate n (Sim.init p ops) = some (true, s) ∧
      addsOf s.log
        = (expectedFrom 0 ops).map (fun c => (c.2.2, Request.create c.1 c.2.1 c.2.2)) ∧
      s.completedRequests.map Request.core = expectedFrom 0 ops ∧
      (passClocks n (Sim.init p ops)).head? = some 0 ∧
      List.Chain' (fun a b => b = a ∨ b = wrapInt (a + 1)) (passClocks n (Sim.init p ops)) ∧
      ∀ (k : Nat) (s1 : Sim), simulate k (Sim.init p ops) = some (false, s1) →
        ∀ op ∈ s1.operations, 0 ≤ s1.current_time ∧ s1.current_time ≤ op.time := by
  obtain ⟨n, s, h⟩ := simulate_exits p ops
    (fun op hop => ⟨by have := (htime op hop).1; omega, (htime op hop).2⟩) htrack
  refine ⟨n, s, h, adds_at_exit p ops n s h, (ledger_cores_at_exit p ops n s h).2, ?_,
    passClocks_chain n _ rfl, ?_⟩
  · cases n with
    | zero => simp [simulate] at h
    | succ n => simp [passClocks, Sim.init]
  · intro k s1 hk op hop
    have := (simulate_OnTime p ops htime hinc k s1 hk).2 op hop
    exact ⟨this.1, this.2.1⟩

/-- The hypotheses of `simulation_terminates` hold for the trace (0,5), (1,9),
(2,4), here under FLOOK. -/
theorem simulation_terminates_witness :
    (∀ op ∈ [(⟨0, 5⟩ : Operation), ⟨1, 9⟩, ⟨2, 4⟩], 0 ≤ op.time ∧ op.time ≤ 2147483647) ∧
    [(⟨0, 5⟩ : Operation), ⟨1, 9⟩, ⟨2, 4⟩].Pairwise (fun a b => a.time < b.time) ∧
    (∀ op ∈ [(⟨0, 5⟩ : Operation), ⟨1, 9⟩, ⟨2, 4⟩], 0 ≤ op.track ∧ op.track < INT_MAX) ∧
    ∃ n s, simulate n (Sim.init Policy.F [⟨0, 5⟩, ⟨1, 9⟩, ⟨2, 4⟩]) = some (true, s) ∧
      addsOf s.log
        = (expectedFrom 0 [⟨0, 5⟩, ⟨1, 9⟩, ⟨2, 4⟩]).map
          (fun c => (c.2.2, Request.create c.1 c.2.1 c.2.2)) ∧
      s.completedRequests.map Request.core = expectedFrom 0 [⟨0, 5⟩, ⟨1, 9⟩, ⟨2, 4⟩] ∧
      (passClocks n (Sim.init Policy.F [⟨0, 5⟩, ⟨1, 9⟩, ⟨2, 4⟩])).head? = some 0 ∧
      List.Chain' (fun a b => b = a ∨ b = wrapInt (a + 1))
        (passClocks n (Sim.init Policy.F [⟨0, 5⟩, ⟨1, 9⟩, ⟨2, 4⟩])) ∧
      ∀ (k : Nat) (s1 : Sim),
        simulate k (Sim.init Policy.F [⟨0, 5⟩, ⟨1, 9⟩, ⟨2, 4⟩]) = some (false, s1) →
        ∀ op ∈ s1.operations, 0 ≤ s1.current_time ∧ s1.current_time ≤ op.time :=
  ⟨by decide, by decide, by decide,
    simulation_terminates Policy.F [⟨0, 5⟩, ⟨1, 9⟩, ⟨2, 4⟩] (by decide) (by decide) (by decide)⟩

end IOSched
